import Mathlib

/-!
# The Windows console line editor of Torque2D (`platformWin32/winConsole.cc`)

A shallow embedding of `WinConsole` — constructor, `enable`,
`processConsoleLine` and the key-event loop of `process` — followed by
theorems about it.

Conventions of the embedding.

* A `char` array is a function `Nat → Char` (one cell per index). The code
  performs no bounds checks; the embedding performs the same reads and writes
  on unbounded arrays and raises the sticky flag `oob` whenever an index falls
  outside the declared array. Once `oob` is set the C++ program has undefined
  behaviour and the state of the embedding no longer describes it.
* `inpos`, `outpos` and `iCmdIndex` are `S32` in the source. The code never
  stores a negative value in them (`--iCmdIndex` is followed by the wrap to
  `MAX_CMDS - 1`, `inpos--` is guarded by `inpos > 0`), so they are `Nat`.
* A history slot `rgCmds[i]` is only ever written by `strcpy` and read as a
  C string (`[0] != 0`, `strlen`, indices below `strlen`), so a slot is
  represented by the string it holds.
  Every string that Enter copies into a slot has fewer than 512 characters
  unless `oob` is raised, and the slots are taken to be that wide.
* Calls that leave the object (`WinConsole::printf`, `Game->postEvent`,
  `Con::tabComplete`) are appended to the trace `log`. `WinConsole::printf` is
  the display sink: the trace holds the text that the format and the arguments
  of each call denote. What `printf` does with it afterwards (the 4096-byte
  `vsnprintf` buffer, tabs replaced by `^`, colour codes stripped, `WriteFile`)
  is not part of the embedding. The calls return before the next statement
  runs; a dispatcher that calls back into the console is not modelled.
* `Con::tabComplete` and `Con::getVariable("Con::Prompt")` are parameters
  (`Env`). Window creation and title in `enable`, the registration of the log
  consumer and `postEvent.size` are left out.

The theorems state what the code computes on these arrays. Where an index can
pass the end of an array they also give a condition under which `oob` stays
clear, that is, under which the statement is about the C++ program itself.
-/

/-- NUL, the C string terminator. -/
def NUL : Char := Char.ofNat 0

/-- Backspace, `\b`. -/
def BS : Char := Char.ofNat 8

/-- Horizontal tab, `\t`. -/
def TAB : Char := Char.ofNat 9

/-- Line feed, `\n`. -/
def LF : Char := Char.ofNat 10

/-- Carriage return, `\r`. -/
def CR : Char := Char.ofNat 13

/-- Space. -/
def SP : Char := Char.ofNat 32

/-- Modelled from the spec: `MAX_CMDS` is defined in `winConsole.h`, which is
not among the sources; the spec gives the number of history slots as 32. -/
def MAX_CMDS : Nat := 32

/-- Size of `outbuf` (`char outbuf[512]`, line 154) and of `inbuf` (declared in
the header; "the input buffer is also 512 chars long", line 253). -/
def BUFSIZE : Nat := 512

/-- Bit of `dwControlKeyState` that is set while a shift key is held (Windows
console API). -/
def SHIFT_PRESSED : Nat := 0x0010

/-- Virtual key code of the Up arrow (`case 0x26`). -/
def VK_UP : Nat := 0x26

/-- Virtual key code of the Down arrow (`case 0x28`). -/
def VK_DOWN : Nat := 0x28

/-- Virtual key code of the Left arrow (`case 0x25`). -/
def VK_LEFT : Nat := 0x25

/-- Virtual key code of the Right arrow (`case 0x27`). -/
def VK_RIGHT : Nat := 0x27

/-- The cursor after `if ((--iCmdIndex) < 0) iCmdIndex = MAX_CMDS - 1`. -/
def prevSlot (iCmdIndex : Nat) : Nat :=
  if iCmdIndex = 0 then MAX_CMDS - 1 else iCmdIndex - 1

/-- The cursor after `if ((++iCmdIndex) >= MAX_CMDS) iCmdIndex = 0`. -/
def nextSlot (iCmdIndex : Nat) : Nat :=
  if MAX_CMDS ≤ iCmdIndex + 1 then 0 else iCmdIndex + 1

/-- The array `a` after `a[i] = c`. -/
def setAt (a : Nat → Char) (i : Nat) (c : Char) : Nat → Char :=
  fun j => if j = i then c else a j

/-- The cells `a[0], …, a[n-1]`. -/
def firstN (a : Nat → Char) (n : Nat) : List Char :=
  (List.range n).map a

/-- The characters of `a` from index `i` up to the first NUL, reading at most
`n` cells. -/
def cstrFrom (a : Nat → Char) : Nat → Nat → List Char
  | 0, _ => []
  | n + 1, i => if a i = NUL then [] else a i :: cstrFrom a n (i + 1)

/-- The C string stored in a 512-byte array: the cells before the first NUL. -/
def cstr (a : Nat → Char) : List Char :=
  cstrFrom a BUFSIZE 0

/-- A call that leaves the console object. -/
inductive Effect where
  /-- `WinConsole::printf` was called; `text` is the text that the format and
  the arguments denote. -/
  | print (text : List Char)
  /-- `Game->postEvent(postEvent)` was called with `postEvent.data = data`. -/
  | post (data : List Char)
  /-- `Con::tabComplete(inputBuffer, cursorPos, maxResultLength, forwardTab)`. -/
  | complete (inputBuffer : Nat → Char) (cursorPos maxResultLength : Nat) (forwardTab : Bool)

/-- What the console reads from its surroundings. -/
structure Env where
  /-- `Con::getVariable("Con::Prompt")`. -/
  prompt : List Char
  /-- `Con::tabComplete`: from the buffer, the cursor position, the maximal
  result length and the direction to the rewritten buffer and the returned
  length. -/
  tabComplete : (Nat → Char) → Nat → Nat → Bool → (Nat → Char) × Nat
  /-- Contents of the stack cells that `process` uses for `outbuf` before it
  has written to them. -/
  stack : Nat → Char

/-- The fields of `KEY_EVENT_RECORD` that `process` reads. -/
structure KEY_EVENT_RECORD where
  bKeyDown : Bool
  AsciiChar : Char
  wVirtualKeyCode : Nat
  dwControlKeyState : Nat

/-- A console input record: a key event, or an event of another type (mouse,
window size, menu, focus). -/
inductive INPUT_RECORD where
  | key (ke : KEY_EVENT_RECORD)
  | other (EventType : Nat)

/-- The members of `WinConsole` that the code in `winConsole.cc` reads or
writes, with the trace `log` and the flag `oob`. -/
structure WinConsole where
  winConsoleEnabled : Bool
  inbuf : Nat → Char
  inpos : Nat
  lineOutput : Bool
  rgCmds : Nat → List Char
  iCmdIndex : Nat
  /-- Calls made so far, oldest first. -/
  log : List Effect
  /-- An array was indexed outside its bounds. -/
  oob : Bool

/-- The state inside the event loop of `process`: the object and the locals
`outbuf`, `outpos`. -/
structure Poll extends WinConsole where
  outbuf : Nat → Char
  outpos : Nat

namespace WinConsole

/-- `WinConsole::WinConsole()` run on the freshly allocated object `raw`:
the first byte of every slot, `iCmdIndex`, `winConsoleEnabled`, `inpos` and
`lineOutput` are set; `inbuf` keeps whatever the memory held. -/
def create (raw : WinConsole) : WinConsole :=
  { raw with
    rgCmds := fun i => if i < MAX_CMDS then [] else raw.rgCmds i
    iCmdIndex := 0
    winConsoleEnabled := false
    inpos := 0
    lineOutput := false
    log := []
    oob := false }

/-- `WinConsole::enable` (window creation and title are not modelled). -/
def enable (env : Env) (s : WinConsole) (enabled : Bool) : WinConsole :=
  let s := { s with winConsoleEnabled := enabled }
  if s.winConsoleEnabled then
    { s with log := s.log ++ [Effect.print env.prompt] }
  else s

/-- `WinConsole::processConsoleLine`. -/
def processConsoleLine (env : Env) (s : WinConsole) (consoleLine : List Char) : WinConsole :=
  if s.winConsoleEnabled then
    let s := { s with
      inbuf := setAt s.inbuf s.inpos NUL
      oob := s.oob || decide (BUFSIZE ≤ s.inpos) }
    if s.lineOutput then
      { s with log := s.log ++ [Effect.print (consoleLine ++ [LF])] }
    else
      { s with log := s.log ++
          [Effect.print ([CR] ++ consoleLine ++ [LF] ++ env.prompt ++ cstr s.inbuf)] }
  else s

end WinConsole

namespace Poll

/-- `outbuf[outpos++] = c`. -/
def emit (p : Poll) (c : Char) : Poll :=
  { p with
    outbuf := setAt p.outbuf p.outpos c
    outpos := p.outpos + 1
    oob := p.oob || decide (BUFSIZE ≤ p.outpos) }

/-- The body of the erase loops: backspace, space, backspace. -/
def erase (p : Poll) : Poll :=
  ((p.emit BS).emit SP).emit BS

/-- `for (i = 0; i < inpos; i++)` around `erase`; `n` is the value of `inpos`,
which the body does not change. -/
def eraseLoop : Nat → Poll → Poll
  | 0, p => p
  | n + 1, p => eraseLoop n p.erase

/-- The copy loop of the arrow cases,
`for (inpos = 0; inpos < strlen(cmd); inpos++, outpos++)`, entered with
`inpos = 0`; the argument lists the characters of `cmd` from `inpos` on. -/
def copyLoop : List Char → Poll → Poll
  | [], p => p
  | c :: cs, p =>
    copyLoop cs
      { p with
        outbuf := setAt p.outbuf p.outpos c
        inbuf := setAt p.inbuf p.inpos c
        inpos := p.inpos + 1
        outpos := p.outpos + 1
        oob := p.oob || decide (BUFSIZE ≤ p.outpos) || decide (BUFSIZE ≤ p.inpos) }

/-- The copy loop of the tab case, `for (i = 0; i < inpos; i++)
outbuf[outpos++] = inbuf[i]`: `n` iterations remain and the next one has
index `i`. -/
def copyOut : Nat → Nat → Poll → Poll
  | 0, _, p => p
  | n + 1, i, p =>
    copyOut n (i + 1) { (p.emit (p.inbuf i)) with oob := (p.emit (p.inbuf i)).oob || decide (BUFSIZE ≤ i) }

/-- The two loops that both arrow cases run (lines 181-194 and 211-224):
the erase loop, which starts by setting `outpos = 0`, and the copy loop, which
starts by setting `inpos = 0`; `cmd` is the string `rgCmds[iCmdIndex]`. -/
def redraw (cmd : List Char) (p : Poll) : Poll :=
  let p := eraseLoop p.inpos { p with outpos := 0 }
  copyLoop cmd { p with inpos := 0 }

/-- `case 0x26`, the Up arrow. -/
def upArrow (p : Poll) : Poll :=
  let idx := prevSlot p.iCmdIndex
  let p := { p with iCmdIndex := idx, oob := p.oob || decide (MAX_CMDS ≤ idx) }
  if !(p.rgCmds idx).isEmpty then
    redraw (p.rgCmds idx) p
  else
    { p with iCmdIndex := nextSlot idx }

/-- `case 0x28`, the Down arrow. -/
def downArrow (p : Poll) : Poll :=
  let p := { p with oob := p.oob || decide (MAX_CMDS ≤ p.iCmdIndex) }
  let idx := if !(p.rgCmds p.iCmdIndex).isEmpty then nextSlot p.iCmdIndex else p.iCmdIndex
  let p := { p with iCmdIndex := idx, oob := p.oob || decide (MAX_CMDS ≤ idx) }
  redraw (p.rgCmds idx) p

/-- `case '\b'`. -/
def backspace (p : Poll) : Poll :=
  if 0 < p.inpos then
    { p.erase with inpos := p.inpos - 1 }
  else p

/-- `U32 maxlen = 512 - (inpos * 3)`: the difference is computed in `S32` and
converted to `U32`. -/
def tabMaxlen (inpos : Nat) : Nat :=
  (((512 : Int) - (inpos : Int) * 3) % 4294967296).toNat

/-- `case '\t'`. -/
def tab (env : Env) (p : Poll) (ke : KEY_EVENT_RECORD) : Poll :=
  let n := p.inpos
  let p := eraseLoop n p
  let maxlen := tabMaxlen n
  let forwardTab := !(ke.dwControlKeyState &&& SHIFT_PRESSED != 0)
  let r := env.tabComplete p.inbuf n maxlen forwardTab
  let p := { p with
    log := p.log ++ [Effect.complete p.inbuf n maxlen forwardTab]
    inbuf := r.1
    inpos := r.2 }
  copyOut p.inpos 0 p

/-- `case '\n'`, `case '\r'`. -/
def enter (env : Env) (p : Poll) : Poll :=
  let p := (p.emit CR).emit LF
  let p := { p with
    inbuf := setAt p.inbuf p.inpos NUL
    oob := p.oob || decide (BUFSIZE ≤ p.inpos) }
  let p := { p with
    outbuf := setAt p.outbuf p.outpos NUL
    oob := p.oob || decide (BUFSIZE ≤ p.outpos) }
  let p := { p with log := p.log ++ [Effect.print (cstr p.outbuf)] }
  let p := { p with log := p.log ++ [Effect.post (cstr p.inbuf)] }
  let idx := if MAX_CMDS ≤ p.iCmdIndex then p.iCmdIndex % MAX_CMDS else p.iCmdIndex
  let p := { p with
    rgCmds := fun i => if i = idx then cstr p.inbuf else p.rgCmds i
    iCmdIndex := idx + 1 }
  let p := { p with log := p.log ++ [Effect.print env.prompt] }
  { p with inpos := 0, outpos := 0 }

/-- The `default` case: `inbuf[inpos++] = c; outbuf[outpos++] = c`. -/
def insert (p : Poll) (c : Char) : Poll :=
  let p := { p with
    inbuf := setAt p.inbuf p.inpos c
    inpos := p.inpos + 1
    oob := p.oob || decide (BUFSIZE ≤ p.inpos) }
  p.emit c

/-- The `switch` on `ke->uChar.AsciiChar` for a key-down event. -/
def keyDown (env : Env) (p : Poll) (ke : KEY_EVENT_RECORD) : Poll :=
  if ke.AsciiChar = NUL then
    if ke.wVirtualKeyCode = VK_UP then p.upArrow
    else if ke.wVirtualKeyCode = VK_DOWN then p.downArrow
    else if ke.wVirtualKeyCode = VK_LEFT then p
    else if ke.wVirtualKeyCode = VK_RIGHT then p
    else p
  else if ke.AsciiChar = BS then p.backspace
  else if ke.AsciiChar = TAB then p.tab env ke
  else if ke.AsciiChar = LF ∨ ke.AsciiChar = CR then p.enter env
  else p.insert ke.AsciiChar

/-- The body of `for (i = 0; i < numEvents; i++)`. -/
def step (env : Env) (p : Poll) (rec : INPUT_RECORD) : Poll :=
  match rec with
  | INPUT_RECORD.key ke => if ke.bKeyDown then p.keyDown env ke else p
  | INPUT_RECORD.other _ => p

/-- The locals of `process` on entry to the loop: `outbuf` uninitialised,
`outpos = 0`. -/
def start (env : Env) (s : WinConsole) : Poll :=
  { toWinConsole := s, outbuf := env.stack, outpos := 0 }

/-- The flush after the loop: `outbuf[outpos] = 0; printf("%s", outbuf)`. -/
def flush (p : Poll) : Poll :=
  let p := { p with
    outbuf := setAt p.outbuf p.outpos NUL
    oob := p.oob || decide (BUFSIZE ≤ p.outpos) }
  { p with log := p.log ++ [Effect.print (cstr p.outbuf)] }

/-- The end of `process`: `if (outpos)` flush; the locals go out of scope. -/
def finish (p : Poll) : WinConsole :=
  if p.outpos ≠ 0 then p.flush.toWinConsole else p.toWinConsole

end Poll

namespace WinConsole

/-- `WinConsole::process`; `pending` is the queue of console input events, of
which `ReadConsoleInput` hands over at most 20. -/
def process (env : Env) (s : WinConsole) (pending : List INPUT_RECORD) : WinConsole :=
  if s.winConsoleEnabled then
    if pending.length ≠ 0 then
      ((pending.take 20).foldl (Poll.step env) (Poll.start env s)).finish
    else s
  else s

/-- Successive calls of `process`, one per list of pending events. -/
def run (env : Env) (s : WinConsole) (polls : List (List INPUT_RECORD)) : WinConsole :=
  polls.foldl (process env) s

end WinConsole

/-- The line buffer: the bytes `inbuf[0 .. inpos)`. -/
def WinConsole.line (s : WinConsole) : List Char := firstN s.inbuf s.inpos

/-- The redraw batch: the bytes `outbuf[0 .. outpos)`. -/
def Poll.batch (p : Poll) : List Char := firstN p.outbuf p.outpos

/-- The bytes that `n` rounds of an erase loop write. -/
def eraseSeq : Nat → List Char
  | 0 => []
  | n + 1 => BS :: SP :: BS :: eraseSeq n

/-- The characters that the `switch` on `AsciiChar` sends to its `default`
case, where they are inserted. -/
def Inserted (c : Char) : Prop :=
  c ≠ NUL ∧ c ≠ BS ∧ c ≠ TAB ∧ c ≠ LF ∧ c ≠ CR

instance (c : Char) : Decidable (Inserted c) := by
  unfold Inserted
  infer_instance

/-- Printable ASCII: the codes 0x20 to 0x7E. -/
def Printable (c : Char) : Prop :=
  32 ≤ c.toNat ∧ c.toNat ≤ 126

instance (c : Char) : Decidable (Printable c) := by
  unfold Printable
  infer_instance

/-- A key-down record with character `c`, virtual key code `vk` and modifier
state `ctrl`. -/
def keyRecord (c : Char) (vk ctrl : Nat) : KEY_EVENT_RECORD :=
  { bKeyDown := true, AsciiChar := c, wVirtualKeyCode := vk, dwControlKeyState := ctrl }

/-- The key-down event of a key with character `c`. -/
def charKey (c : Char) (vk ctrl : Nat) : INPUT_RECORD :=
  INPUT_RECORD.key (keyRecord c vk ctrl)

/-- The key-down event of a key without character, such as an arrow key. -/
def virtualKey (vk ctrl : Nat) : INPUT_RECORD :=
  INPUT_RECORD.key (keyRecord NUL vk ctrl)

/-- An environment for examples: prompt `% `, a completion service that turns
every buffer into `help`. -/
def sampleEnv : Env :=
  { prompt := ['%', SP]
    tabComplete := fun a _ _ _ =>
      (setAt (setAt (setAt (setAt (setAt a 0 'h') 1 'e') 2 'l') 3 'p') 4 NUL, 4)
    stack := fun _ => '?' }

/-- Memory of an object before its constructor has run, for examples. -/
def sampleRaw : WinConsole :=
  { winConsoleEnabled := true
    inbuf := fun _ => '#'
    inpos := 77
    lineOutput := true
    rgCmds := fun _ => ['j', 'u', 'n', 'k']
    iCmdIndex := 99
    log := []
    oob := false }

/-- A freshly constructed console that has been enabled. -/
def sampleConsole : WinConsole :=
  WinConsole.enable sampleEnv (WinConsole.create sampleRaw) true

/-- The key-down record of an input record, if it is one: the records for
which the loop of `process` enters the `switch`. -/
def keyDownOf : INPUT_RECORD → Option KEY_EVENT_RECORD
  | INPUT_RECORD.key ke => if ke.bKeyDown then some ke else none
  | INPUT_RECORD.other _ => none

/-- The key-down records among a list of input records, in order. -/
def keyDowns (evs : List INPUT_RECORD) : List KEY_EVENT_RECORD :=
  evs.filterMap keyDownOf

/-- The texts handed to `Game->postEvent`, oldest first. -/
def posted : List Effect → List (List Char)
  | [] => []
  | Effect.post d :: es => d :: posted es
  | _ :: es => posted es

/-- The texts handed to `WinConsole::printf`, oldest first. -/
def printed : List Effect → List (List Char)
  | [] => []
  | Effect.print t :: es => t :: printed es
  | _ :: es => printed es

/-- The slot that Enter writes: `iCmdIndex` after
`if (iCmdIndex >= MAX_CMDS) iCmdIndex %= MAX_CMDS`. -/
def commitSlot (iCmdIndex : Nat) : Nat :=
  if MAX_CMDS ≤ iCmdIndex then iCmdIndex % MAX_CMDS else iCmdIndex

/-- A key-down record of the Enter key: its character is `\n` or `\r`. -/
def IsEnter (ke : KEY_EVENT_RECORD) : Prop :=
  ke.AsciiChar = LF ∨ ke.AsciiChar = CR

instance (ke : KEY_EVENT_RECORD) : Decidable (IsEnter ke) := by
  unfold IsEnter
  infer_instance

/-- A key-down record of the Up arrow. -/
def IsUp (ke : KEY_EVENT_RECORD) : Prop :=
  ke.AsciiChar = NUL ∧ ke.wVirtualKeyCode = VK_UP

instance (ke : KEY_EVENT_RECORD) : Decidable (IsUp ke) := by
  unfold IsUp
  infer_instance

/-- A key-down record of the Down arrow. -/
def IsDown (ke : KEY_EVENT_RECORD) : Prop :=
  ke.AsciiChar = NUL ∧ ke.wVirtualKeyCode = VK_DOWN

instance (ke : KEY_EVENT_RECORD) : Decidable (IsDown ke) := by
  unfold IsDown
  infer_instance

/-- A freshly constructed console after `enable(true)`; `raw` is the memory the
constructor ran on. -/
def WinConsole.fresh (env : Env) (raw : WinConsole) : WinConsole :=
  WinConsole.enable env (WinConsole.create raw) true

/-- The poll state of `sampleConsole` on entry to the loop. -/
def samplePoll : Poll := Poll.start sampleEnv sampleConsole

/-- The poll state after the keys `f`, `o`, `o`. -/
def samplePollFoo : Poll :=
  [charKey 'f' 70 0, charKey 'o' 79 0, charKey 'o' 79 0].foldl (Poll.step sampleEnv) samplePoll

/-- The poll state after the keys `h`, `e`. -/
def samplePollHe : Poll :=
  [charKey 'h' 72 0, charKey 'e' 69 0].foldl (Poll.step sampleEnv) samplePoll

/-- Two consoles agree on everything but the texts printed and the bounds flag:
same members, same texts posted to the dispatcher. -/
structure SameCore (a b : WinConsole) : Prop where
  enabled : a.winConsoleEnabled = b.winConsoleEnabled
  inbuf : a.inbuf = b.inbuf
  inpos : a.inpos = b.inpos
  lineOutput : a.lineOutput = b.lineOutput
  rgCmds : a.rgCmds = b.rgCmds
  iCmdIndex : a.iCmdIndex = b.iCmdIndex
  posted : posted a.log = posted b.log

/-- The poll state `p` is covered by the poll state `q`: same console up to
printed texts, no more bytes batched than in `q`, and inside the arrays if `q`
is. -/
structure Covered (p q : Poll) : Prop where
  core : SameCore p.toWinConsole q.toWinConsole
  outpos : p.outpos ≤ q.outpos
  oob : q.oob = false → p.oob = false

/-- The batch fits `outbuf` with room for the terminator of the flush, and no
array has been left. -/
def Tight (q : Poll) : Prop :=
  q.outpos < BUFSIZE ∧ q.oob = false

/-- The loop stays `Tight` before and after each of the key-downs `kes`. -/
def TightRun (env : Env) : Poll → List KEY_EVENT_RECORD → Prop
  | q, [] => Tight q
  | q, k :: ks => Tight q ∧ TightRun env (Poll.keyDown env q k) ks

/-- The key-downs of a committed line: the keys of its characters and the
Enter key. -/
abbrev Commit := List KEY_EVENT_RECORD × KEY_EVENT_RECORD

/-- The key-downs of a sequence of committed lines, in order. -/
def commitKeys (commits : List Commit) : List KEY_EVENT_RECORD :=
  (commits.map (fun c => c.1 ++ [c.2])).flatten

/-- The lines that a sequence of commits types. -/
def committedLines (commits : List Commit) : List (List Char) :=
  commits.map (fun c => c.1.map KEY_EVENT_RECORD.AsciiChar)

/-- A commit of a non-empty line of fewer than 512 inserted characters. -/
def TypedCommit (c : Commit) : Prop :=
  (∀ k ∈ c.1, Inserted k.AsciiChar) ∧ 1 ≤ c.1.length ∧ c.1.length < BUFSIZE ∧ IsEnter c.2

instance (c : Commit) : Decidable (TypedCommit c) := by
  unfold TypedCommit
  infer_instance

/-- A commit of a non-empty line of at most 127 inserted characters (any
character but NUL, backspace, tab, LF and CR), the length up to which erasing a
line and drawing another fits `outbuf`. -/
def ShortCommit (c : Commit) : Prop :=
  (∀ k ∈ c.1, Inserted k.AsciiChar) ∧ 1 ≤ c.1.length ∧ c.1.length ≤ 127 ∧ IsEnter c.2

instance (c : Commit) : Decidable (ShortCommit c) := by
  unfold ShortCommit
  infer_instance

/-- The polls of `n` one-letter lines `A`, `B`, …, `Z`, `A`, … committed one
after the other: poll number `i` holds the key of the letter with code
`65 + i mod 26` and Enter. -/
def letterPolls (n : Nat) : List (List INPUT_RECORD) :=
  (List.range n).map (fun i => [charKey (Char.ofNat (65 + i % 26)) 0 0, charKey CR 13 0])

/-- The polls of `k` Up key-downs, one per poll. -/
def upPolls (k : Nat) : List (List INPUT_RECORD) :=
  List.replicate k [virtualKey VK_UP 0]

/-- The polls of one Down key-down. -/
def downPolls : List (List INPUT_RECORD) :=
  [[virtualKey VK_DOWN 0]]

/-- The displayed input line after the terminal has received `bytes`, as C10
describes the terminal: each 3-byte sequence backspace, space, backspace removes
the last displayed character and every other byte appends one character. The
first argument bounds the number of steps; the length of `bytes` is enough. -/
def displayAfter : Nat → List Char → List Char → List Char
  | 0, shown, _ => shown
  | _ + 1, shown, [] => shown
  | n + 1, shown, b1 :: b2 :: b3 :: rest =>
    if b1 = BS ∧ b2 = SP ∧ b3 = BS then displayAfter n shown.dropLast rest
    else displayAfter n (shown ++ [b1]) (b2 :: b3 :: rest)
  | n + 1, shown, b :: rest => displayAfter n (shown ++ [b]) rest

/-- A console with `x` in history slot 0 and `q` in the line buffer: the polls
`x` Enter and `q` on `sampleConsole`. Both polls are flushed, so the display
shows the prompt followed by `q`. -/
def sampleConsoleQ : WinConsole :=
  WinConsole.run sampleEnv sampleConsole
    [[charKey 'x' 88 0, charKey CR 13 0], [charKey 'q' 81 0]]

/-- The records that C15 lists as ignored: every record that is not a keyboard
event, every key-up record, and the key-downs of the Left and Right arrows
(character 0). -/
def IgnoredRecord : INPUT_RECORD → Prop
  | INPUT_RECORD.other _ => True
  | INPUT_RECORD.key ke =>
    ke.bKeyDown = false ∨
    (ke.AsciiChar = NUL ∧ (ke.wVirtualKeyCode = VK_LEFT ∨ ke.wVirtualKeyCode = VK_RIGHT))

instance (e : INPUT_RECORD) : Decidable (IgnoredRecord e) := by
  cases e <;> unfold IgnoredRecord <;> infer_instance

/-- The input records that commit the line: key-down records of the Enter key. -/
def CommitRecord : INPUT_RECORD → Prop
  | INPUT_RECORD.other _ => False
  | INPUT_RECORD.key ke => ke.bKeyDown = true ∧ IsEnter ke

instance (e : INPUT_RECORD) : Decidable (CommitRecord e) := by
  cases e <;> unfold CommitRecord <;> infer_instance

/-- The polls that type `n` times the letter `a`: full polls of 20 key-downs
and a last poll with the rest. -/
def typedPolls (n : Nat) : List (List INPUT_RECORD) :=
  List.replicate (n / 20) (List.replicate 20 (charKey 'a' 65 0)) ++
    [List.replicate (n % 20) (charKey 'a' 65 0)]

/-- The cursor position and the length limit of every call of `Con::tabComplete`
in a trace, oldest first. -/
def completeLimits : List Effect → List (Nat × Nat)
  | [] => []
  | Effect.complete _ cursorPos maxResultLength _ :: rest =>
    (cursorPos, maxResultLength) :: completeLimits rest
  | _ :: rest => completeLimits rest

/-- Two poll states agree on the console and on the redraw batch: same members,
same `outpos`, same bytes in `outbuf` below `outpos`. The cells of `outbuf` from
`outpos` on, which hold what earlier keys or the caller left there, may
differ. -/
structure SameBatch (p q : Poll) : Prop where
  console : p.toWinConsole = q.toWinConsole
  outpos : p.outpos = q.outpos
  cells : ∀ i, i < p.outpos → p.outbuf i = q.outbuf i

/-- The commits that `letterPolls n` types: one-letter lines `A`, `B`, …. -/
def letterCommits (n : Nat) : List Commit :=
  (List.range n).map (fun i => ([keyRecord (Char.ofNat (65 + i % 26)) 0 0], keyRecord CR 13 0))

/-! ## Arrays -/

theorem setAt_same (a : Nat → Char) (i : Nat) (c : Char) : setAt a i c i = c := by
  simp [setAt]

theorem setAt_other (a : Nat → Char) (i j : Nat) (c : Char) (h : j ≠ i) :
    setAt a i c j = a j := by
  simp [setAt, h]

theorem setAt_self (a : Nat → Char) (i : Nat) : setAt a i (a i) = a := by
  funext j
  by_cases h : j = i
  · subst h; simp [setAt]
  · simp [setAt, h]

theorem firstN_zero (a : Nat → Char) : firstN a 0 = [] := rfl

theorem firstN_succ (a : Nat → Char) (n : Nat) : firstN a (n + 1) = firstN a n ++ [a n] := by
  simp [firstN, List.range_succ]

theorem firstN_length (a : Nat → Char) (n : Nat) : (firstN a n).length = n := by
  simp [firstN]

theorem firstN_congr (a b : Nat → Char) (n : Nat) (h : ∀ i, i < n → a i = b i) :
    firstN a n = firstN b n := by
  unfold firstN
  apply List.map_congr_left
  intro i hi
  exact h i (List.mem_range.mp hi)

theorem firstN_setAt (a : Nat → Char) (n i : Nat) (c : Char) (h : n ≤ i) :
    firstN (setAt a i c) n = firstN a n := by
  apply firstN_congr
  intro j hj
  exact setAt_other a i j c (by omega)


/-! ## The loops of `process` -/

theorem eraseSeq_length (n : Nat) : (eraseSeq n).length = 3 * n := by
  induction n with
  | zero => rfl
  | succ n ih => simp [eraseSeq, ih]; omega

namespace Poll

theorem emit_toWinConsole (p : Poll) (c : Char) :
    (p.emit c).toWinConsole = { p.toWinConsole with oob := p.oob || decide (BUFSIZE ≤ p.outpos) } := rfl

theorem emit_batch (p : Poll) (c : Char) : (p.emit c).batch = p.batch ++ [c] := by
  simp [batch, emit, firstN_succ, firstN_setAt, setAt_same]

theorem erase_batch (p : Poll) : p.erase.batch = p.batch ++ [BS, SP, BS] := by
  simp [erase, emit_batch]

theorem erase_outpos (p : Poll) : p.erase.outpos = p.outpos + 3 := rfl

theorem erase_oob (p : Poll) (h : p.outpos + 3 ≤ BUFSIZE) : p.erase.oob = p.oob := by
  have h1 : ¬ BUFSIZE ≤ p.outpos := by omega
  have h2 : ¬ BUFSIZE ≤ p.outpos + 1 := by omega
  have h3 : ¬ BUFSIZE ≤ p.outpos + 1 + 1 := by omega
  simp [erase, emit, h1, h2, h3]

theorem eraseLoop_outpos (n : Nat) (p : Poll) : (eraseLoop n p).outpos = p.outpos + 3 * n := by
  induction n generalizing p with
  | zero => rfl
  | succ n ih => rw [eraseLoop, ih, erase_outpos]; omega

theorem eraseLoop_batch (n : Nat) (p : Poll) : (eraseLoop n p).batch = p.batch ++ eraseSeq n := by
  induction n generalizing p with
  | zero => simp [eraseLoop, eraseSeq]
  | succ n ih => rw [eraseLoop, ih, erase_batch]; simp [eraseSeq]

theorem eraseLoop_oob (n : Nat) (p : Poll) (h : p.outpos + 3 * n ≤ BUFSIZE) :
    (eraseLoop n p).oob = p.oob := by
  induction n generalizing p with
  | zero => rfl
  | succ n ih =>
    rw [eraseLoop, ih _ (by rw [erase_outpos]; omega), erase_oob _ (by omega)]

end Poll

namespace Poll
theorem erase_toWinConsole (p : Poll) :
    p.erase.toWinConsole = { p.toWinConsole with oob := p.erase.oob } := rfl

theorem eraseLoop_toWinConsole (n : Nat) (p : Poll) :
    (eraseLoop n p).toWinConsole = { p.toWinConsole with oob := (eraseLoop n p).oob } := by
  induction n generalizing p with
  | zero => rfl
  | succ n ih => rw [eraseLoop, ih, erase_toWinConsole]

theorem eraseLoop_inpos (n : Nat) (p : Poll) : (eraseLoop n p).inpos = p.inpos := by
  have h := congrArg WinConsole.inpos (eraseLoop_toWinConsole n p)
  exact h

theorem eraseLoop_inbuf (n : Nat) (p : Poll) : (eraseLoop n p).inbuf = p.inbuf := by
  have h := congrArg WinConsole.inbuf (eraseLoop_toWinConsole n p)
  exact h

theorem eraseLoop_rgCmds (n : Nat) (p : Poll) : (eraseLoop n p).rgCmds = p.rgCmds := by
  have h := congrArg WinConsole.rgCmds (eraseLoop_toWinConsole n p)
  exact h

theorem eraseLoop_iCmdIndex (n : Nat) (p : Poll) : (eraseLoop n p).iCmdIndex = p.iCmdIndex := by
  have h := congrArg WinConsole.iCmdIndex (eraseLoop_toWinConsole n p)
  exact h

theorem eraseLoop_log (n : Nat) (p : Poll) : (eraseLoop n p).log = p.log := by
  have h := congrArg WinConsole.log (eraseLoop_toWinConsole n p)
  exact h

theorem eraseLoop_enabled (n : Nat) (p : Poll) :
    (eraseLoop n p).winConsoleEnabled = p.winConsoleEnabled := by
  have h := congrArg WinConsole.winConsoleEnabled (eraseLoop_toWinConsole n p)
  exact h

theorem eraseLoop_lineOutput (n : Nat) (p : Poll) :
    (eraseLoop n p).lineOutput = p.lineOutput := by
  have h := congrArg WinConsole.lineOutput (eraseLoop_toWinConsole n p)
  exact h

theorem copyLoop_inpos (cs : List Char) (p : Poll) :
    (copyLoop cs p).inpos = p.inpos + cs.length := by
  induction cs generalizing p with
  | nil => rfl
  | cons c cs ih => rw [copyLoop, ih]; simp; omega

theorem copyLoop_outpos (cs : List Char) (p : Poll) :
    (copyLoop cs p).outpos = p.outpos + cs.length := by
  induction cs generalizing p with
  | nil => rfl
  | cons c cs ih => rw [copyLoop, ih]; simp; omega

theorem copyLoop_line (cs : List Char) (p : Poll) :
    (copyLoop cs p).line = p.line ++ cs := by
  induction cs generalizing p with
  | nil => simp [copyLoop]
  | cons c cs ih =>
    rw [copyLoop, ih]
    simp [WinConsole.line, firstN_succ, firstN_setAt, setAt_same]

theorem copyLoop_batch (cs : List Char) (p : Poll) :
    (copyLoop cs p).batch = p.batch ++ cs := by
  induction cs generalizing p with
  | nil => simp [copyLoop]
  | cons c cs ih =>
    rw [copyLoop, ih]
    simp [batch, firstN_succ, firstN_setAt, setAt_same]

theorem copyLoop_oob (cs : List Char) (p : Poll)
    (ho : p.outpos + cs.length ≤ BUFSIZE) (hi : p.inpos + cs.length ≤ BUFSIZE) :
    (copyLoop cs p).oob = p.oob := by
  induction cs generalizing p with
  | nil => rfl
  | cons c cs ih =>
    simp only [List.length_cons] at ho hi
    rw [copyLoop, ih _ (by simp; omega) (by simp; omega)]
    have h1 : ¬ BUFSIZE ≤ p.outpos := by omega
    have h2 : ¬ BUFSIZE ≤ p.inpos := by omega
    simp [h1, h2]

theorem copyLoop_rgCmds (cs : List Char) (p : Poll) : (copyLoop cs p).rgCmds = p.rgCmds := by
  induction cs generalizing p with
  | nil => rfl
  | cons c cs ih => rw [copyLoop, ih]

theorem copyLoop_iCmdIndex (cs : List Char) (p : Poll) :
    (copyLoop cs p).iCmdIndex = p.iCmdIndex := by
  induction cs generalizing p with
  | nil => rfl
  | cons c cs ih => rw [copyLoop, ih]

theorem copyLoop_log (cs : List Char) (p : Poll) : (copyLoop cs p).log = p.log := by
  induction cs generalizing p with
  | nil => rfl
  | cons c cs ih => rw [copyLoop, ih]

theorem copyLoop_enabled (cs : List Char) (p : Poll) :
    (copyLoop cs p).winConsoleEnabled = p.winConsoleEnabled := by
  induction cs generalizing p with
  | nil => rfl
  | cons c cs ih => rw [copyLoop, ih]

theorem copyLoop_lineOutput (cs : List Char) (p : Poll) :
    (copyLoop cs p).lineOutput = p.lineOutput := by
  induction cs generalizing p with
  | nil => rfl
  | cons c cs ih => rw [copyLoop, ih]

end Poll

/-! ## Single key events -/

theorem Printable.inserted {c : Char} (h : Printable c) : Inserted c := by
  unfold Printable at h
  unfold Inserted NUL BS TAB LF CR
  refine ⟨?_, ?_, ?_, ?_, ?_⟩ <;> (intro hc; rw [hc] at h; revert h; decide)

namespace Poll

theorem step_charKey (env : Env) (p : Poll) (ke : KEY_EVENT_RECORD) (hd : ke.bKeyDown = true) :
    step env p (INPUT_RECORD.key ke) = keyDown env p ke := by
  simp [step, hd]

theorem keyDown_backspace (env : Env) (p : Poll) (ke : KEY_EVENT_RECORD) (h : ke.AsciiChar = BS) :
    keyDown env p ke = p.backspace := by
  have h0 : ¬ BS = NUL := by decide
  simp [keyDown, h, h0]

theorem keyDown_insert (env : Env) (p : Poll) (ke : KEY_EVENT_RECORD) (h : Inserted ke.AsciiChar) :
    keyDown env p ke = p.insert ke.AsciiChar := by
  obtain ⟨h0, h1, h2, h3, h4⟩ := h
  simp [keyDown, h0, h1, h2, h3, h4]

theorem keyDown_up (env : Env) (p : Poll) (ke : KEY_EVENT_RECORD) (h : ke.AsciiChar = NUL)
    (hv : ke.wVirtualKeyCode = VK_UP) : keyDown env p ke = p.upArrow := by
  simp [keyDown, h, hv]

theorem keyDown_down (env : Env) (p : Poll) (ke : KEY_EVENT_RECORD) (h : ke.AsciiChar = NUL)
    (hv : ke.wVirtualKeyCode = VK_DOWN) : keyDown env p ke = p.downArrow := by
  have hne : ¬ VK_DOWN = VK_UP := by decide
  simp [keyDown, h, hv, hne]

theorem keyDown_tab (env : Env) (p : Poll) (ke : KEY_EVENT_RECORD) (h : ke.AsciiChar = TAB) :
    keyDown env p ke = p.tab env ke := by
  have h0 : ¬ TAB = NUL := by decide
  have h1 : ¬ TAB = BS := by decide
  simp [keyDown, h, h0, h1]

theorem keyDown_enter (env : Env) (p : Poll) (ke : KEY_EVENT_RECORD)
    (h : ke.AsciiChar = LF ∨ ke.AsciiChar = CR) : keyDown env p ke = p.enter env := by
  have h0 : ke.AsciiChar ≠ NUL := by
    rcases h with h | h <;> (rw [h]; decide)
  have h1 : ke.AsciiChar ≠ BS := by
    rcases h with h | h <;> (rw [h]; decide)
  have h2 : ke.AsciiChar ≠ TAB := by
    rcases h with h | h <;> (rw [h]; decide)
  simp [keyDown, h0, h1, h2, h]

end Poll

namespace Poll

theorem backspace_of_zero (p : Poll) (h : p.inpos = 0) : p.backspace = p := by
  simp [backspace, h]

theorem insert_backspace_inbuf (p : Poll) (c : Char) (h : 0 < p.inpos)
    (hc : c = p.inbuf (p.inpos - 1)) : (p.backspace.insert c).inbuf = p.inbuf := by
  have h1 : (p.backspace.insert c).inbuf = setAt p.inbuf (p.inpos - 1) c := by
    simp [backspace, h, insert, emit, erase]
  rw [h1, hc, setAt_self]

theorem insert_backspace_inpos (p : Poll) (c : Char) (h : 0 < p.inpos) :
    (p.backspace.insert c).inpos = p.inpos := by
  simp [backspace, h, insert, emit, erase]
  omega

theorem insert_backspace_oob (p : Poll) (c : Char) (h : 0 < p.inpos)
    (ho : p.outpos + 4 ≤ BUFSIZE) (hi : p.inpos ≤ BUFSIZE) :
    (p.backspace.insert c).oob = p.oob := by
  have h0 : ¬ BUFSIZE ≤ p.outpos := by omega
  have h1 : ¬ BUFSIZE ≤ p.outpos + 1 := by omega
  have h2 : ¬ BUFSIZE ≤ p.outpos + 1 + 1 := by omega
  have h3 : ¬ BUFSIZE ≤ p.outpos + 1 + 1 + 1 := by omega
  have h4 : ¬ BUFSIZE ≤ p.inpos - 1 := by omega
  simp [backspace, h, insert, emit, erase, h0, h1, h2, h3, h4]

end Poll

/-- C5: a Backspace key-down on an empty line buffer leaves the whole state of
the poll (line buffer, its length, redraw batch) as it was; on a non-empty line
buffer whose last character is `c`, a Backspace followed by the key-down that
inserts `c` gives back the same `inbuf` and the same `inpos`, and stays inside
the arrays when four more bytes fit the redraw batch. -/
theorem C5_backspace_noop_and_undo (env : Env) (p : Poll) (kb kc : KEY_EVENT_RECORD)
    (hb : kb.bKeyDown = true) (hbs : kb.AsciiChar = BS) (hc : kc.bKeyDown = true) :
    (p.inpos = 0 → Poll.step env p (INPUT_RECORD.key kb) = p) ∧
    (0 < p.inpos → kc.AsciiChar = p.inbuf (p.inpos - 1) → Inserted kc.AsciiChar →
      (Poll.step env (Poll.step env p (INPUT_RECORD.key kb)) (INPUT_RECORD.key kc)).inbuf
          = p.inbuf ∧
      (Poll.step env (Poll.step env p (INPUT_RECORD.key kb)) (INPUT_RECORD.key kc)).inpos
          = p.inpos ∧
      (Poll.step env (Poll.step env p (INPUT_RECORD.key kb)) (INPUT_RECORD.key kc)).line
          = p.line ∧
      (p.outpos + 4 ≤ BUFSIZE → p.inpos ≤ BUFSIZE →
        (Poll.step env (Poll.step env p (INPUT_RECORD.key kb)) (INPUT_RECORD.key kc)).oob
          = p.oob)) := by
  rw [Poll.step_charKey env p kb hb, Poll.keyDown_backspace env p kb hbs]
  constructor
  · exact Poll.backspace_of_zero p
  · intro hpos hlast hins
    rw [Poll.step_charKey env _ kc hc, Poll.keyDown_insert env _ kc hins]
    have hbuf := Poll.insert_backspace_inbuf p kc.AsciiChar hpos hlast
    have hlen := Poll.insert_backspace_inpos p kc.AsciiChar hpos
    refine ⟨hbuf, hlen, ?_, ?_⟩
    · unfold WinConsole.line
      rw [hbuf, hlen]
    · intro ho hi
      exact Poll.insert_backspace_oob p kc.AsciiChar hpos ho hi

/-- C5 at work: Backspace on the empty buffer of a fresh console, and
Backspace followed by `o` on the buffer `foo`. -/
theorem C5_backspace_noop_and_undo_witness :
    Poll.step sampleEnv samplePoll (INPUT_RECORD.key (keyRecord BS 8 0)) = samplePoll ∧
    ((Poll.step sampleEnv (Poll.step sampleEnv samplePollFoo
        (INPUT_RECORD.key (keyRecord BS 8 0))) (INPUT_RECORD.key (keyRecord 'o' 79 0))).inbuf
          = samplePollFoo.inbuf ∧
      (Poll.step sampleEnv (Poll.step sampleEnv samplePollFoo
        (INPUT_RECORD.key (keyRecord BS 8 0))) (INPUT_RECORD.key (keyRecord 'o' 79 0))).inpos
          = samplePollFoo.inpos ∧
      (Poll.step sampleEnv (Poll.step sampleEnv samplePollFoo
        (INPUT_RECORD.key (keyRecord BS 8 0))) (INPUT_RECORD.key (keyRecord 'o' 79 0))).line
          = samplePollFoo.line ∧
      (samplePollFoo.outpos + 4 ≤ BUFSIZE → samplePollFoo.inpos ≤ BUFSIZE →
        (Poll.step sampleEnv (Poll.step sampleEnv samplePollFoo
          (INPUT_RECORD.key (keyRecord BS 8 0))) (INPUT_RECORD.key (keyRecord 'o' 79 0))).oob
          = samplePollFoo.oob)) :=
  ⟨(C5_backspace_noop_and_undo sampleEnv samplePoll (keyRecord BS 8 0) (keyRecord 'o' 79 0)
      rfl rfl rfl).1 rfl,
   (C5_backspace_noop_and_undo sampleEnv samplePollFoo (keyRecord BS 8 0) (keyRecord 'o' 79 0)
      rfl rfl rfl).2 (by decide) (by decide) (by decide)⟩

namespace Poll

theorem nextSlot_prevSlot (i : Nat) (h : i ≤ MAX_CMDS) : nextSlot (prevSlot i) = i % MAX_CMDS := by
  unfold nextSlot prevSlot MAX_CMDS at *
  by_cases h0 : i = 0
  · simp [h0]
  · by_cases h32 : i = 32
    · simp [h32]
    · have h1 : ¬ 32 ≤ i - 1 + 1 := by omega
      have h3 : i - 1 + 1 = i := by omega
      have h4 : i % 32 = i := Nat.mod_eq_of_lt (by omega)
      simp [h0, h3, h4]
      omega

theorem prevSlot_lt (i : Nat) (h : i ≤ MAX_CMDS) : prevSlot i < MAX_CMDS := by
  unfold prevSlot MAX_CMDS at *
  split <;> omega

theorem upArrow_of_empty (p : Poll) (hidx : p.iCmdIndex ≤ MAX_CMDS)
    (hempty : p.rgCmds (prevSlot p.iCmdIndex) = []) :
    p.upArrow = { p with iCmdIndex := p.iCmdIndex % MAX_CMDS } := by
  have h1 : ¬ MAX_CMDS ≤ prevSlot p.iCmdIndex := by
    have := prevSlot_lt p.iCmdIndex hidx
    omega
  simp [upArrow, hempty, h1, nextSlot_prevSlot p.iCmdIndex hidx]

end Poll

/-- C8: an Up key-down whose previous slot (cursor - 1, or `MAX_CMDS - 1` below
zero) is empty changes nothing but the cursor, which becomes the old cursor
modulo `MAX_CMDS`: `inbuf`, `inpos`, `outbuf`, `outpos`, the slots, the trace and
the bounds flag are as before. The cursor is taken to be at most `MAX_CMDS`, the
largest value the code leaves in it. -/
theorem C8_up_on_empty_slot_is_frame (env : Env) (p : Poll) (ke : KEY_EVENT_RECORD)
    (hd : ke.bKeyDown = true) (hc : ke.AsciiChar = NUL) (hv : ke.wVirtualKeyCode = VK_UP)
    (hidx : p.iCmdIndex ≤ MAX_CMDS)
    (hempty : p.rgCmds (prevSlot p.iCmdIndex) = []) :
    Poll.step env p (INPUT_RECORD.key ke) = { p with iCmdIndex := p.iCmdIndex % MAX_CMDS } ∧
    (Poll.step env p (INPUT_RECORD.key ke)).iCmdIndex % MAX_CMDS = p.iCmdIndex % MAX_CMDS ∧
    (Poll.step env p (INPUT_RECORD.key ke)).line = p.line ∧
    (Poll.step env p (INPUT_RECORD.key ke)).inpos = p.inpos ∧
    (Poll.step env p (INPUT_RECORD.key ke)).batch = p.batch := by
  rw [Poll.step_charKey env p ke hd, Poll.keyDown_up env p ke hc hv,
    Poll.upArrow_of_empty p hidx hempty]
  refine ⟨rfl, ?_, rfl, rfl, rfl⟩
  exact Nat.mod_mod _ _

/-- C8 at work: Up on a fresh console, whose slot 31 is empty. -/
theorem C8_up_on_empty_slot_is_frame_witness :
    Poll.step sampleEnv samplePollFoo (INPUT_RECORD.key (keyRecord NUL 38 0))
      = { samplePollFoo with iCmdIndex := samplePollFoo.iCmdIndex % MAX_CMDS } ∧
    (Poll.step sampleEnv samplePollFoo (INPUT_RECORD.key (keyRecord NUL 38 0))).iCmdIndex
      % MAX_CMDS = samplePollFoo.iCmdIndex % MAX_CMDS ∧
    (Poll.step sampleEnv samplePollFoo (INPUT_RECORD.key (keyRecord NUL 38 0))).line
      = samplePollFoo.line ∧
    (Poll.step sampleEnv samplePollFoo (INPUT_RECORD.key (keyRecord NUL 38 0))).inpos
      = samplePollFoo.inpos ∧
    (Poll.step sampleEnv samplePollFoo (INPUT_RECORD.key (keyRecord NUL 38 0))).batch
      = samplePollFoo.batch :=
  C8_up_on_empty_slot_is_frame sampleEnv samplePollFoo (keyRecord NUL 38 0) rfl rfl rfl
    (by decide) (by decide)

namespace Poll

theorem backspace_of_pos (p : Poll) (h : 0 < p.inpos) :
    p.backspace = { p.erase with inpos := p.inpos - 1 } := by
  simp [backspace, h]

theorem backspace_batch (p : Poll) (h : 0 < p.inpos) :
    p.backspace.batch = p.batch ++ [BS, SP, BS] := by
  rw [backspace_of_pos p h]
  exact erase_batch p

theorem backspace_outpos (p : Poll) (h : 0 < p.inpos) :
    p.backspace.outpos = p.outpos + 3 := by
  rw [backspace_of_pos p h]
  rfl

theorem backspace_inpos (p : Poll) (h : 0 < p.inpos) :
    p.backspace.inpos = p.inpos - 1 := by
  rw [backspace_of_pos p h]

theorem backspace_oob (p : Poll) (h : p.outpos + 3 ≤ BUFSIZE) :
    p.backspace.oob = p.oob := by
  by_cases h0 : 0 < p.inpos
  · rw [backspace_of_pos p h0]
    exact erase_oob p h
  · simp [backspace, h0]

theorem insert_batch (p : Poll) (c : Char) : (p.insert c).batch = p.batch ++ [c] := by
  unfold insert
  rw [emit_batch]
  rfl

theorem insert_outpos (p : Poll) (c : Char) : (p.insert c).outpos = p.outpos + 1 := rfl

theorem insert_inpos (p : Poll) (c : Char) : (p.insert c).inpos = p.inpos + 1 := rfl

theorem insert_line (p : Poll) (c : Char) : (p.insert c).line = p.line ++ [c] := by
  simp [insert, emit, WinConsole.line, firstN_succ, firstN_setAt, setAt_same]

theorem insert_oob (p : Poll) (c : Char) (hi : p.inpos < BUFSIZE) (ho : p.outpos < BUFSIZE) :
    (p.insert c).oob = p.oob := by
  have h1 : ¬ BUFSIZE ≤ p.inpos := by omega
  have h2 : ¬ BUFSIZE ≤ p.outpos := by omega
  simp [insert, emit, h1, h2]

end Poll

/-- C9: a Backspace key-down on a non-empty line buffer appends the three bytes
backspace, space, backspace to the redraw batch; the key-down of a printable
character appends that one character; and three Backspace key-downs on the line
buffer `foo` with an empty redraw batch leave `inpos = 0` and a redraw batch of
exactly nine bytes, three erase sequences, without leaving the arrays. -/
theorem C9_redraw_bytes_per_key (env : Env) (p : Poll) (kb kc : KEY_EVENT_RECORD)
    (hb : kb.bKeyDown = true) (hbs : kb.AsciiChar = BS)
    (hc : kc.bKeyDown = true) (hp : Printable kc.AsciiChar) :
    (0 < p.inpos →
      (Poll.step env p (INPUT_RECORD.key kb)).batch = p.batch ++ [BS, SP, BS] ∧
      (Poll.step env p (INPUT_RECORD.key kb)).outpos = p.outpos + 3) ∧
    ((Poll.step env p (INPUT_RECORD.key kc)).batch = p.batch ++ [kc.AsciiChar] ∧
      (Poll.step env p (INPUT_RECORD.key kc)).outpos = p.outpos + 1) ∧
    (p.line = ['f', 'o', 'o'] → p.outpos = 0 →
      (Poll.step env (Poll.step env (Poll.step env p (INPUT_RECORD.key kb))
          (INPUT_RECORD.key kb)) (INPUT_RECORD.key kb)).inpos = 0 ∧
      (Poll.step env (Poll.step env (Poll.step env p (INPUT_RECORD.key kb))
          (INPUT_RECORD.key kb)) (INPUT_RECORD.key kb)).line = [] ∧
      (Poll.step env (Poll.step env (Poll.step env p (INPUT_RECORD.key kb))
          (INPUT_RECORD.key kb)) (INPUT_RECORD.key kb)).outpos = 9 ∧
      (Poll.step env (Poll.step env (Poll.step env p (INPUT_RECORD.key kb))
          (INPUT_RECORD.key kb)) (INPUT_RECORD.key kb)).batch
        = [BS, SP, BS, BS, SP, BS, BS, SP, BS] ∧
      (Poll.step env (Poll.step env (Poll.step env p (INPUT_RECORD.key kb))
          (INPUT_RECORD.key kb)) (INPUT_RECORD.key kb)).oob = p.oob) := by
  have hstep : ∀ q : Poll, Poll.step env q (INPUT_RECORD.key kb) = q.backspace := by
    intro q
    rw [Poll.step_charKey env q kb hb, Poll.keyDown_backspace env q kb hbs]
  refine ⟨?_, ?_, ?_⟩
  · intro hpos
    rw [hstep]
    exact ⟨Poll.backspace_batch p hpos, Poll.backspace_outpos p hpos⟩
  · rw [Poll.step_charKey env p kc hc, Poll.keyDown_insert env p kc hp.inserted]
    exact ⟨Poll.insert_batch p _, Poll.insert_outpos p _⟩
  · intro hline hout
    have hlen : p.inpos = 3 := by
      have h := congrArg List.length hline
      simpa [WinConsole.line, firstN_length] using h
    have hbatch : p.batch = [] := by
      simp [Poll.batch, hout, firstN_zero]
    simp only [hstep]
    have i1 : p.backspace.inpos = 2 := by
      rw [Poll.backspace_inpos p (by omega), hlen]
    have o1 : p.backspace.outpos = 3 := by
      rw [Poll.backspace_outpos p (by omega), hout]
    have i2 : p.backspace.backspace.inpos = 1 := by
      rw [Poll.backspace_inpos _ (by omega), i1]
    have o2 : p.backspace.backspace.outpos = 6 := by
      rw [Poll.backspace_outpos _ (by omega), o1]
    have i3 : p.backspace.backspace.backspace.inpos = 0 := by
      rw [Poll.backspace_inpos _ (by omega), i2]
    have o3 : p.backspace.backspace.backspace.outpos = 9 := by
      rw [Poll.backspace_outpos _ (by omega), o2]
    refine ⟨i3, ?_, o3, ?_, ?_⟩
    · simp [WinConsole.line, i3, firstN_zero]
    · rw [Poll.backspace_batch _ (by omega), Poll.backspace_batch _ (by omega),
        Poll.backspace_batch _ (by omega), hbatch]
      rfl
    · rw [Poll.backspace_oob _ (by rw [o2]; decide), Poll.backspace_oob _ (by rw [o1]; decide),
        Poll.backspace_oob _ (by rw [hout]; decide)]

/-- C9 at work on the console that holds `foo`, with the key `x` as the
printable key. -/
theorem C9_redraw_bytes_per_key_witness :
    ((Poll.step sampleEnv (Poll.start sampleEnv samplePollFoo.toWinConsole)
        (INPUT_RECORD.key (keyRecord BS 8 0))).batch = [BS, SP, BS]) ∧
    ((Poll.step sampleEnv (Poll.start sampleEnv samplePollFoo.toWinConsole)
        (INPUT_RECORD.key (keyRecord 'x' 88 0))).batch = ['x']) ∧
    (Poll.step sampleEnv (Poll.step sampleEnv (Poll.step sampleEnv
        (Poll.start sampleEnv samplePollFoo.toWinConsole)
          (INPUT_RECORD.key (keyRecord BS 8 0))) (INPUT_RECORD.key (keyRecord BS 8 0)))
          (INPUT_RECORD.key (keyRecord BS 8 0))).batch
      = [BS, SP, BS, BS, SP, BS, BS, SP, BS] :=
  ⟨((C9_redraw_bytes_per_key sampleEnv (Poll.start sampleEnv samplePollFoo.toWinConsole)
      (keyRecord BS 8 0) (keyRecord 'x' 88 0) rfl rfl rfl (by decide)).1 (by decide)).1,
   (C9_redraw_bytes_per_key sampleEnv (Poll.start sampleEnv samplePollFoo.toWinConsole)
      (keyRecord BS 8 0) (keyRecord 'x' 88 0) rfl rfl rfl (by decide)).2.1.1,
   ((C9_redraw_bytes_per_key sampleEnv (Poll.start sampleEnv samplePollFoo.toWinConsole)
      (keyRecord BS 8 0) (keyRecord 'x' 88 0) rfl rfl rfl (by decide)).2.2
        (by decide) rfl).2.2.2.1⟩

/-! ## The event loop -/

theorem keyDowns_nil : keyDowns [] = [] := rfl

theorem keyDowns_append (a b : List INPUT_RECORD) :
    keyDowns (a ++ b) = keyDowns a ++ keyDowns b := by
  simp [keyDowns, List.filterMap_append]

theorem keyDowns_length_le (evs : List INPUT_RECORD) : (keyDowns evs).length ≤ evs.length := by
  unfold keyDowns
  exact List.length_filterMap_le _ _

theorem posted_append (a b : List Effect) : posted (a ++ b) = posted a ++ posted b := by
  induction a with
  | nil => rfl
  | cons e es ih => cases e <;> simp [posted, ih]

theorem printed_append (a b : List Effect) : printed (a ++ b) = printed a ++ printed b := by
  induction a with
  | nil => rfl
  | cons e es ih => cases e <;> simp [printed, ih]

namespace Poll

theorem step_eq (env : Env) (p : Poll) (e : INPUT_RECORD) :
    step env p e = match keyDownOf e with
      | some ke => keyDown env p ke
      | none => p := by
  cases e with
  | key ke =>
    by_cases h : ke.bKeyDown = true
    · simp [step, keyDownOf, h]
    · simp [step, keyDownOf, h]
  | other t => rfl

theorem foldl_step (env : Env) (evs : List INPUT_RECORD) (p : Poll) :
    evs.foldl (step env) p = (keyDowns evs).foldl (keyDown env) p := by
  induction evs generalizing p with
  | nil => rfl
  | cons e es ih =>
    rw [List.foldl_cons, ih, step_eq]
    cases h : keyDownOf e with
    | none => simp [keyDowns, List.filterMap_cons, h]
    | some ke => simp [keyDowns, List.filterMap_cons, h]

end Poll

namespace Poll

theorem insert_frame (p : Poll) (c : Char) :
    (p.insert c).rgCmds = p.rgCmds ∧ (p.insert c).iCmdIndex = p.iCmdIndex ∧
    (p.insert c).log = p.log ∧ (p.insert c).winConsoleEnabled = p.winConsoleEnabled ∧
    (p.insert c).lineOutput = p.lineOutput :=
  ⟨rfl, rfl, rfl, rfl, rfl⟩

/-- What a run of inserting key-downs does to the poll state. -/
theorem foldl_typing (env : Env) (kes : List KEY_EVENT_RECORD) (p : Poll)
    (hk : ∀ k ∈ kes, Inserted k.AsciiChar) :
    (kes.foldl (keyDown env) p).inpos = p.inpos + kes.length ∧
    (kes.foldl (keyDown env) p).outpos = p.outpos + kes.length ∧
    (kes.foldl (keyDown env) p).line = p.line ++ kes.map KEY_EVENT_RECORD.AsciiChar ∧
    (kes.foldl (keyDown env) p).batch = p.batch ++ kes.map KEY_EVENT_RECORD.AsciiChar ∧
    (kes.foldl (keyDown env) p).rgCmds = p.rgCmds ∧
    (kes.foldl (keyDown env) p).iCmdIndex = p.iCmdIndex ∧
    (kes.foldl (keyDown env) p).log = p.log ∧
    (kes.foldl (keyDown env) p).winConsoleEnabled = p.winConsoleEnabled ∧
    (kes.foldl (keyDown env) p).lineOutput = p.lineOutput ∧
    (p.inpos + kes.length ≤ BUFSIZE → p.outpos + kes.length ≤ BUFSIZE →
      (kes.foldl (keyDown env) p).oob = p.oob) := by
  induction kes generalizing p with
  | nil => simp
  | cons k ks ih =>
    have hk1 : Inserted k.AsciiChar := hk k (List.mem_cons_self _ _)
    have hk2 : ∀ k ∈ ks, Inserted k.AsciiChar := fun k' h => hk k' (List.mem_cons_of_mem _ h)
    rw [List.foldl_cons, keyDown_insert env p k hk1]
    obtain ⟨h1, h2, h3, h4, h5, h6, h7, h8, h9, h10⟩ := ih (p.insert k.AsciiChar) hk2
    rw [h1, h2, h3, h4, h5, h6, h7, h8, h9]
    rw [insert_inpos, insert_outpos, insert_line, insert_batch]
    simp only [List.length_cons, List.map_cons, List.append_assoc, List.singleton_append]
    refine ⟨by omega, by omega, trivial, trivial, rfl, rfl, rfl, rfl, rfl, ?_⟩
    intro hi ho
    rw [h10 (by rw [insert_inpos]; omega) (by rw [insert_outpos]; omega)]
    exact insert_oob p _ (by omega) (by omega)

end Poll

/-! ## C strings -/

theorem cstrFrom_of_terminated (a : Nat → Char) (n : Nat) :
    ∀ (fuel i : Nat), n < fuel → (∀ j, j < n → a (i + j) ≠ NUL) → a (i + n) = NUL →
      cstrFrom a fuel i = (List.range' i n).map a := by
  induction n with
  | zero =>
    intro fuel i hf _ hz
    cases fuel with
    | zero => omega
    | succ f => simp [cstrFrom, show a i = NUL from hz]
  | succ n ih =>
    intro fuel i hf hne hz
    cases fuel with
    | zero => omega
    | succ f =>
      have h0 : a i ≠ NUL := hne 0 (by omega)
      have hrec := ih f (i + 1) (by omega)
        (fun j hj => by have := hne (j + 1) (by omega); rwa [show i + 1 + j = i + (j + 1) by omega])
        (by rwa [show i + 1 + n = i + (n + 1) by omega])
      simp [cstrFrom, h0, hrec, List.range'_succ]

/-- The C string of an array that holds `n` non-NUL cells followed by NUL. -/
theorem cstr_of_terminated (a : Nat → Char) (n : Nat) (hn : n < BUFSIZE)
    (hne : ∀ c ∈ firstN a n, c ≠ NUL) (hz : a n = NUL) : cstr a = firstN a n := by
  unfold cstr
  rw [cstrFrom_of_terminated a n BUFSIZE 0 hn ?_ (by simpa using hz)]
  · simp [firstN, List.range_eq_range']
  · intro j hj
    rw [Nat.zero_add]
    apply hne
    unfold firstN
    exact List.mem_map.mpr ⟨j, List.mem_range.mpr hj, rfl⟩

theorem cstr_setAt_NUL (a : Nat → Char) (n : Nat) (hn : n < BUFSIZE)
    (hne : ∀ c ∈ firstN a n, c ≠ NUL) : cstr (setAt a n NUL) = firstN a n := by
  rw [cstr_of_terminated (setAt a n NUL) n hn ?_ (setAt_same a n NUL)]
  · exact firstN_setAt a n n NUL (le_refl n)
  · rw [firstN_setAt a n n NUL (le_refl n)]
    exact hne

namespace Poll

theorem flush_toWinConsole (p : Poll) :
    p.flush.toWinConsole =
      { p.toWinConsole with
        log := p.log ++ [Effect.print (cstr (setAt p.outbuf p.outpos NUL))]
        oob := p.oob || decide (BUFSIZE ≤ p.outpos) } := rfl

end Poll

namespace WinConsole

/-- `process` in terms of the key-down records of the batch. -/
theorem process_eq (env : Env) (s : WinConsole) (b : List INPUT_RECORD)
    (hen : s.winConsoleEnabled = true) (hb : b.length ≤ 20) :
    process env s b = ((keyDowns b).foldl (Poll.keyDown env) (Poll.start env s)).finish := by
  unfold process
  rw [if_pos hen, List.take_of_length_le hb, Poll.foldl_step]
  by_cases h0 : b.length ≠ 0
  · rw [if_pos h0]
  · rw [if_neg h0]
    have : b = [] := List.length_eq_zero.mp (by omega)
    subst this
    simp [keyDowns, Poll.start, Poll.finish]

theorem run_nil (env : Env) (s : WinConsole) : run env s [] = s := rfl

theorem run_cons (env : Env) (s : WinConsole) (b : List INPUT_RECORD)
    (bs : List (List INPUT_RECORD)) : run env s (b :: bs) = run env (process env s b) bs := rfl

/-- A batch whose key-downs all insert. -/
theorem process_typing (env : Env) (s : WinConsole) (b : List INPUT_RECORD)
    (hen : s.winConsoleEnabled = true) (hb : b.length ≤ 20)
    (hk : ∀ k ∈ keyDowns b, Inserted k.AsciiChar) :
    (process env s b).inpos = s.inpos + (keyDowns b).length ∧
    (process env s b).line = s.line ++ (keyDowns b).map KEY_EVENT_RECORD.AsciiChar ∧
    (process env s b).rgCmds = s.rgCmds ∧
    (process env s b).iCmdIndex = s.iCmdIndex ∧
    posted (process env s b).log = posted s.log ∧
    (process env s b).winConsoleEnabled = true ∧
    (process env s b).lineOutput = s.lineOutput ∧
    (s.inpos + (keyDowns b).length ≤ BUFSIZE → (process env s b).oob = s.oob) := by
  rw [process_eq env s b hen hb]
  unfold Poll.finish
  obtain ⟨h1, h2, h3, _, h5, h6, h7, h8, h9, h10⟩ :=
    Poll.foldl_typing env (keyDowns b) (Poll.start env s) hk
  have hlen : (keyDowns b).length ≤ 20 := le_trans (keyDowns_length_le b) hb
  have hout : (Poll.start env s).outpos = 0 := rfl
  have hin : (Poll.start env s).inpos = s.inpos := rfl
  have hline : (Poll.start env s).line = s.line := rfl
  rw [hout] at h2 h10
  rw [hin] at h1 h10
  rw [hline] at h3
  have hoob : s.inpos + (keyDowns b).length ≤ BUFSIZE →
      ((keyDowns b).foldl (Poll.keyDown env) (Poll.start env s)).oob = s.oob :=
    fun hcap => h10 hcap (by unfold BUFSIZE; omega)
  split
  · rw [Poll.flush_toWinConsole]
    refine ⟨h1, h3, h5, h6, ?_, h8.trans hen, h9, ?_⟩
    · have : posted (((keyDowns b).foldl (Poll.keyDown env) (Poll.start env s)).log ++
          [Effect.print (cstr (setAt
            ((keyDowns b).foldl (Poll.keyDown env) (Poll.start env s)).outbuf
            ((keyDowns b).foldl (Poll.keyDown env) (Poll.start env s)).outpos NUL))])
          = posted s.log := by
        rw [posted_append, h7]
        simp [posted, Poll.start]
      exact this
    · intro hcap
      have hlt : ¬ BUFSIZE ≤ ((keyDowns b).foldl (Poll.keyDown env) (Poll.start env s)).outpos := by
        rw [h2]; unfold BUFSIZE; omega
      have : (((keyDowns b).foldl (Poll.keyDown env) (Poll.start env s)).oob ||
          decide (BUFSIZE ≤ ((keyDowns b).foldl (Poll.keyDown env) (Poll.start env s)).outpos))
          = s.oob := by
        rw [hoob hcap]
        simp [hlt]
      exact this
  · refine ⟨h1, h3, h5, h6, ?_, h8.trans hen, h9, hoob⟩
    exact congrArg posted h7

end WinConsole

namespace WinConsole

/-- Polls whose key-downs all insert. -/
theorem run_typing (env : Env) (polls : List (List INPUT_RECORD)) :
    ∀ (s : WinConsole), s.winConsoleEnabled = true → (∀ b ∈ polls, b.length ≤ 20) →
    (∀ k ∈ keyDowns polls.flatten, Inserted k.AsciiChar) →
    (run env s polls).inpos = s.inpos + (keyDowns polls.flatten).length ∧
    (run env s polls).line
      = s.line ++ (keyDowns polls.flatten).map KEY_EVENT_RECORD.AsciiChar ∧
    (run env s polls).rgCmds = s.rgCmds ∧
    (run env s polls).iCmdIndex = s.iCmdIndex ∧
    posted (run env s polls).log = posted s.log ∧
    (run env s polls).winConsoleEnabled = true ∧
    (run env s polls).lineOutput = s.lineOutput ∧
    (s.inpos + (keyDowns polls.flatten).length ≤ BUFSIZE → (run env s polls).oob = s.oob) := by
  induction polls with
  | nil =>
    intro s hen _ _
    simp [run_nil, keyDowns_nil, hen]
  | cons b bs ih =>
    intro s hen hsz hk
    rw [List.flatten_cons, keyDowns_append] at hk ⊢
    have hb : b.length ≤ 20 := hsz b (List.mem_cons_self _ _)
    have hbs : ∀ b' ∈ bs, b'.length ≤ 20 := fun b' h => hsz b' (List.mem_cons_of_mem _ h)
    have hk1 : ∀ k ∈ keyDowns b, Inserted k.AsciiChar :=
      fun k h => hk k (List.mem_append_left _ h)
    have hk2 : ∀ k ∈ keyDowns bs.flatten, Inserted k.AsciiChar :=
      fun k h => hk k (List.mem_append_right _ h)
    obtain ⟨p1, p2, p3, p4, p5, p6, p7, p8⟩ := process_typing env s b hen hb hk1
    obtain ⟨r1, r2, r3, r4, r5, r6, r7, r8⟩ := ih (process env s b) p6 hbs hk2
    rw [run_cons, r1, r2, r3, r4, r5, r7, p1, p2, p3, p4, p5, p7]
    simp only [List.length_append, List.map_append, List.append_assoc]
    refine ⟨by omega, trivial, trivial, trivial, trivial, r6, trivial, ?_⟩
    intro hcap
    rw [r8 (by rw [p1]; omega), p8 (by omega)]

end WinConsole

/-- C2: starting from an empty line buffer, polls whose key-down events are `k`
printable characters, `k ≤ 511`, leave `inpos = k` and the first `k` cells of
`inbuf` equal to the characters in the order of the events, and no array is left;
the events may be spread over any number of polls of at most 20 records, and
records that are not key-downs may lie between them. -/
theorem C2_typing_fills_line_buffer (env : Env) (s : WinConsole)
    (polls : List (List INPUT_RECORD))
    (hen : s.winConsoleEnabled = true) (hempty : s.inpos = 0)
    (hsz : ∀ b ∈ polls, b.length ≤ 20)
    (hpr : ∀ k ∈ keyDowns polls.flatten, Printable k.AsciiChar)
    (hcap : (keyDowns polls.flatten).length ≤ BUFSIZE - 1) :
    (WinConsole.run env s polls).inpos = (keyDowns polls.flatten).length ∧
    firstN (WinConsole.run env s polls).inbuf (keyDowns polls.flatten).length
      = (keyDowns polls.flatten).map KEY_EVENT_RECORD.AsciiChar ∧
    (WinConsole.run env s polls).oob = s.oob := by
  obtain ⟨r1, r2, _, _, _, _, _, r8⟩ :=
    WinConsole.run_typing env polls s hen hsz (fun k h => (hpr k h).inserted)
  rw [hempty, Nat.zero_add] at r1
  refine ⟨r1, ?_, r8 (by rw [hempty]; unfold BUFSIZE at *; omega)⟩
  have hl : s.line = [] := by simp [WinConsole.line, hempty, firstN_zero]
  rw [hl, List.nil_append] at r2
  rw [← r1]
  exact r2

/-- C2 at work: `h`, `e` in one poll (with the key-up of `h` between them), `l`,
`p` in the next. -/
theorem C2_typing_fills_line_buffer_witness :
    (WinConsole.run sampleEnv sampleConsole
      [[charKey 'h' 72 0, INPUT_RECORD.key ⟨false, 'h', 72, 0⟩, charKey 'e' 69 0],
       [charKey 'l' 76 0, charKey 'p' 80 0]]).inpos = 4 ∧
    firstN (WinConsole.run sampleEnv sampleConsole
      [[charKey 'h' 72 0, INPUT_RECORD.key ⟨false, 'h', 72, 0⟩, charKey 'e' 69 0],
       [charKey 'l' 76 0, charKey 'p' 80 0]]).inbuf 4 = ['h', 'e', 'l', 'p'] ∧
    (WinConsole.run sampleEnv sampleConsole
      [[charKey 'h' 72 0, INPUT_RECORD.key ⟨false, 'h', 72, 0⟩, charKey 'e' 69 0],
       [charKey 'l' 76 0, charKey 'p' 80 0]]).oob = false :=
  C2_typing_fills_line_buffer sampleEnv sampleConsole
    [[charKey 'h' 72 0, INPUT_RECORD.key ⟨false, 'h', 72, 0⟩, charKey 'e' 69 0],
     [charKey 'l' 76 0, charKey 'p' 80 0]]
    rfl rfl (by decide) (by decide) (by decide)

namespace Poll

/-- What Enter does when the line buffer holds no NUL and both arrays have
room for the terminators. -/
theorem enter_spec (env : Env) (p : Poll) (hi : p.inpos < BUFSIZE)
    (ho : p.outpos + 2 < BUFSIZE) (hn : ∀ c ∈ p.line, c ≠ NUL) :
    (p.enter env).inpos = 0 ∧
    (p.enter env).outpos = 0 ∧
    (p.enter env).rgCmds
      = (fun i => if i = commitSlot p.iCmdIndex then p.line else p.rgCmds i) ∧
    (p.enter env).iCmdIndex = commitSlot p.iCmdIndex + 1 ∧
    posted (p.enter env).log = posted p.log ++ [p.line] ∧
    (p.enter env).winConsoleEnabled = p.winConsoleEnabled ∧
    (p.enter env).lineOutput = p.lineOutput ∧
    (p.enter env).oob = p.oob := by
  have hc : cstr (setAt p.inbuf p.inpos NUL) = p.line := cstr_setAt_NUL p.inbuf p.inpos hi hn
  have h1 : ¬ BUFSIZE ≤ p.outpos := by omega
  have h2 : ¬ BUFSIZE ≤ p.outpos + 1 := by omega
  have h3 : ¬ BUFSIZE ≤ p.outpos + 1 + 1 := by omega
  have h4 : ¬ BUFSIZE ≤ p.inpos := by omega
  refine ⟨rfl, rfl, ?_, ?_, ?_, rfl, rfl, ?_⟩
  · simp only [enter, emit, commitSlot]
    rw [hc]
  · simp only [enter, emit, commitSlot]
  · simp only [enter, emit, posted_append, hc]
    simp [posted]
  · simp [enter, emit, h1, h2, h3, h4]

end Poll

namespace Poll

/-- What the redraw of the arrow cases does. -/
theorem redraw_spec (cmd : List Char) (p : Poll) :
    (redraw cmd p).inpos
      = cmd.length ∧
    (redraw cmd p).line = cmd ∧
    (redraw cmd p).outpos
      = 3 * p.inpos + cmd.length ∧
    (redraw cmd p).batch
      = eraseSeq p.inpos ++ cmd ∧
    (redraw cmd p).rgCmds
      = p.rgCmds ∧
    (redraw cmd p).iCmdIndex
      = p.iCmdIndex ∧
    (redraw cmd p).log
      = p.log ∧
    (redraw cmd p).winConsoleEnabled
      = p.winConsoleEnabled ∧
    (redraw cmd p).lineOutput
      = p.lineOutput ∧
    (3 * p.inpos + cmd.length ≤ BUFSIZE → (redraw cmd p).oob = p.oob) := by
  unfold redraw
  have e1 := eraseLoop_outpos p.inpos { p with outpos := 0 }
  have e2 := eraseLoop_batch p.inpos { p with outpos := 0 }
  have e3 := eraseLoop_rgCmds p.inpos { p with outpos := 0 }
  have e4 := eraseLoop_iCmdIndex p.inpos { p with outpos := 0 }
  have e5 := eraseLoop_log p.inpos { p with outpos := 0 }
  have e6 := eraseLoop_enabled p.inpos { p with outpos := 0 }
  have e7 := eraseLoop_lineOutput p.inpos { p with outpos := 0 }
  rw [copyLoop_inpos, copyLoop_line, copyLoop_outpos, copyLoop_batch, copyLoop_rgCmds,
    copyLoop_iCmdIndex, copyLoop_log, copyLoop_enabled, copyLoop_lineOutput]
  refine ⟨by simp, by simp [WinConsole.line, firstN_zero], ?_, ?_, e3, e4, e5, e6, e7, ?_⟩
  · show (eraseLoop p.inpos { p with outpos := 0 }).outpos + cmd.length = _
    rw [e1]; simp
  · show (eraseLoop p.inpos { p with outpos := 0 }).batch ++ cmd = _
    rw [e2]; simp [batch, firstN_zero]
  · intro hcap
    rw [copyLoop_oob]
    · exact eraseLoop_oob p.inpos { p with outpos := 0 } (by simp; omega)
    · show (eraseLoop p.inpos { p with outpos := 0 }).outpos + cmd.length ≤ BUFSIZE
      rw [e1]; simp; omega
    · show 0 + cmd.length ≤ BUFSIZE
      omega

end Poll

namespace WinConsole

theorem process_of_no_keyDowns (env : Env) (s : WinConsole) (b : List INPUT_RECORD)
    (hb : b.length ≤ 20) (hk : keyDowns b = []) : process env s b = s := by
  by_cases hen : s.winConsoleEnabled = true
  · rw [process_eq env s b hen hb, hk]
    rfl
  · simp [process, hen]

theorem run_of_no_keyDowns (env : Env) (polls : List (List INPUT_RECORD)) :
    ∀ (s : WinConsole), (∀ b ∈ polls, b.length ≤ 20) → keyDowns polls.flatten = [] →
      run env s polls = s := by
  induction polls with
  | nil => intro s _ _; rfl
  | cons b bs ih =>
    intro s hsz hk
    rw [List.flatten_cons, keyDowns_append, List.append_eq_nil] at hk
    rw [run_cons, process_of_no_keyDowns env s b (hsz b (List.mem_cons_self _ _)) hk.1]
    exact ih s (fun b' h => hsz b' (List.mem_cons_of_mem _ h)) hk.2

/-- Polls whose key-downs are inserting keys followed by one more key `ke`:
the run ends like the loop of a single poll that has seen fewer than 20
inserting keys and then handles `ke`. -/
theorem run_typing_then_key (env : Env) (polls : List (List INPUT_RECORD)) :
    ∀ (s : WinConsole) (kes : List KEY_EVENT_RECORD) (ke : KEY_EVENT_RECORD),
    s.winConsoleEnabled = true → (∀ b ∈ polls, b.length ≤ 20) →
    keyDowns polls.flatten = kes ++ [ke] → (∀ k ∈ kes, Inserted k.AsciiChar) →
    ∃ p : Poll, run env s polls = (Poll.keyDown env p ke).finish ∧
      p.inpos = s.inpos + kes.length ∧
      p.line = s.line ++ kes.map KEY_EVENT_RECORD.AsciiChar ∧
      p.rgCmds = s.rgCmds ∧ p.iCmdIndex = s.iCmdIndex ∧
      posted p.log = posted s.log ∧
      p.winConsoleEnabled = true ∧ p.lineOutput = s.lineOutput ∧
      p.outpos < 20 ∧
      (s.inpos + kes.length ≤ BUFSIZE → p.oob = s.oob) := by
  induction polls with
  | nil =>
    intro s kes ke _ _ hk _
    simp [keyDowns_nil] at hk
  | cons b bs ih =>
    intro s kes ke hen hsz hk hins
    have hb : b.length ≤ 20 := hsz b (List.mem_cons_self _ _)
    have hbs : ∀ b' ∈ bs, b'.length ≤ 20 := fun b' h => hsz b' (List.mem_cons_of_mem _ h)
    rw [List.flatten_cons, keyDowns_append] at hk
    rw [run_cons]
    -- either the batch `b` holds inserting keys only, or it holds the last key
    have hcases : (∃ a', kes = keyDowns b ++ a' ∧ keyDowns bs.flatten = a' ++ [ke]) ∨
        (keyDowns b = kes ++ [ke] ∧ keyDowns bs.flatten = []) := by
      rcases List.append_eq_append_iff.mp hk with ⟨a', h1, h2⟩ | ⟨c', h1, h2⟩
      · exact Or.inl ⟨a', h1, h2⟩
      · cases c' with
        | nil =>
          refine Or.inl ⟨[], ?_, ?_⟩
          · simpa using h1.symm
          · simpa using h2.symm
        | cons c cs =>
          have h3 : ke = c ∧ [] = cs ++ keyDowns bs.flatten := by simpa using h2
          obtain ⟨h4, h5⟩ := h3
          have h6 : cs = [] ∧ keyDowns bs.flatten = [] := by
            simpa using h5.symm
          refine Or.inr ⟨?_, h6.2⟩
          rw [h1, h4, h6.1]
    rcases hcases with ⟨a', h1, h2⟩ | ⟨h1, h2⟩
    · have hk1 : ∀ k ∈ keyDowns b, Inserted k.AsciiChar :=
        fun k h => hins k (by rw [h1]; exact List.mem_append_left _ h)
      have hk2 : ∀ k ∈ a', Inserted k.AsciiChar :=
        fun k h => hins k (by rw [h1]; exact List.mem_append_right _ h)
      obtain ⟨p1, p2, p3, p4, p5, p6, p7, p8⟩ := process_typing env s b hen hb hk1
      obtain ⟨p, e, q1, q2, q3, q4, q5, q6, q7, q8, q9⟩ :=
        ih (process env s b) a' ke p6 hbs h2 hk2
      refine ⟨p, e, ?_, ?_, q3.trans p3, q4.trans p4, q5.trans p5, q6, q7.trans p7, q8, ?_⟩
      · rw [q1, p1, h1, List.length_append]; omega
      · rw [q2, p2, h1, List.map_append, List.append_assoc]
      · intro hcap
        rw [h1, List.length_append] at hcap
        rw [q9 (by rw [p1]; omega), p8 (by omega)]
    · rw [run_of_no_keyDowns env bs _ hbs h2, process_eq env s b hen hb, h1, List.foldl_append]
      obtain ⟨t1, t2, t3, _, t5, t6, t7, t8, t9, t10⟩ :=
        Poll.foldl_typing env kes (Poll.start env s) hins
      have hlen : kes.length < 20 := by
        have := keyDowns_length_le b
        rw [h1, List.length_append] at this
        simp at this
        omega
      refine ⟨kes.foldl (Poll.keyDown env) (Poll.start env s), rfl, t1, t3, t5, t6,
        congrArg posted t7, t8.trans hen, t9, ?_, ?_⟩
      · rw [t2]
        show 0 + kes.length < 20
        omega
      · intro hcap
        exact t10 hcap (by show 0 + kes.length ≤ BUFSIZE; unfold BUFSIZE; omega)

end WinConsole

namespace Poll

theorem finish_spec (q : Poll) :
    q.finish.inpos = q.inpos ∧ q.finish.inbuf = q.inbuf ∧ q.finish.line = q.line ∧
    q.finish.rgCmds = q.rgCmds ∧ q.finish.iCmdIndex = q.iCmdIndex ∧
    posted q.finish.log = posted q.log ∧
    q.finish.winConsoleEnabled = q.winConsoleEnabled ∧
    q.finish.lineOutput = q.lineOutput ∧
    (q.outpos < BUFSIZE → q.finish.oob = q.oob) := by
  unfold finish
  split
  · rw [flush_toWinConsole]
    refine ⟨rfl, rfl, rfl, rfl, rfl, ?_, rfl, rfl, ?_⟩
    · show posted (q.log ++ _) = _
      rw [posted_append]
      simp [posted]
    · intro h
      have : ¬ BUFSIZE ≤ q.outpos := by omega
      show (q.oob || _) = _
      simp [this]
  · exact ⟨rfl, rfl, rfl, rfl, rfl, rfl, rfl, rfl, fun _ => rfl⟩

theorem nextSlot_lt (i : Nat) : nextSlot i < MAX_CMDS := by
  unfold nextSlot MAX_CMDS
  split <;> omega

theorem nextSlot_eq_mod (i : Nat) (h : i < MAX_CMDS) : nextSlot i = (i + 1) % MAX_CMDS := by
  unfold nextSlot MAX_CMDS at *
  by_cases h1 : 32 ≤ i + 1
  · have : i + 1 = 32 := by omega
    simp [this]
  · simp [h1, Nat.mod_eq_of_lt (show i + 1 < 32 by omega)]

theorem isEmpty_eq_false_of_ne {l : List Char} (h : l ≠ []) : l.isEmpty = false := by
  cases l with
  | nil => exact absurd rfl h
  | cons c cs => rfl

/-- The Up arrow on a cursor whose previous slot holds a command. -/
theorem upArrow_of_nonempty (p : Poll) (hidx : p.iCmdIndex ≤ MAX_CMDS)
    (hne : p.rgCmds (prevSlot p.iCmdIndex) ≠ []) :
    p.upArrow
      = redraw (p.rgCmds (prevSlot p.iCmdIndex)) { p with iCmdIndex := prevSlot p.iCmdIndex } := by
  have h1 : ¬ MAX_CMDS ≤ prevSlot p.iCmdIndex := by
    have := prevSlot_lt p.iCmdIndex hidx
    omega
  simp [upArrow, isEmpty_eq_false_of_ne hne, h1]

/-- The Down arrow on a cursor inside the ring. -/
theorem downArrow_of_lt (p : Poll) (hidx : p.iCmdIndex < MAX_CMDS) :
    p.downArrow
      = redraw (p.rgCmds (if p.rgCmds p.iCmdIndex ≠ [] then nextSlot p.iCmdIndex
            else p.iCmdIndex))
          { p with iCmdIndex := (if p.rgCmds p.iCmdIndex ≠ [] then nextSlot p.iCmdIndex
            else p.iCmdIndex) } := by
  have h1 : ¬ MAX_CMDS ≤ p.iCmdIndex := by omega
  have h2 : ¬ MAX_CMDS ≤ nextSlot p.iCmdIndex := by
    have := nextSlot_lt p.iCmdIndex
    omega
  by_cases hne : p.rgCmds p.iCmdIndex = []
  · simp [downArrow, hne, h1]
  · simp [downArrow, hne, isEmpty_eq_false_of_ne hne, h1, h2]

end Poll

namespace WinConsole

theorem fresh_spec (env : Env) (raw : WinConsole) :
    (fresh env raw).winConsoleEnabled = true ∧ (fresh env raw).inpos = 0 ∧
    (fresh env raw).line = [] ∧ (fresh env raw).iCmdIndex = 0 ∧
    (∀ i, i < MAX_CMDS → (fresh env raw).rgCmds i = []) ∧
    posted (fresh env raw).log = [] ∧ (fresh env raw).oob = false ∧
    (fresh env raw).lineOutput = false := by
  refine ⟨rfl, rfl, rfl, rfl, ?_, rfl, rfl, rfl⟩
  intro i hi
  simp [fresh, enable, create, hi]

end WinConsole

theorem Inserted.ne_NUL {c : Char} (h : Inserted c) : c ≠ NUL := h.1

/-- C1: on a freshly constructed, enabled console, the key-downs of a non-empty
line `L` of fewer than 512 printable characters followed by Enter hand exactly
`L` to the dispatcher, put `L` into history slot 0 and leave `inpos = 0`; an Up
key-down after that sets the line buffer to `L`. No array is left on the way.
The events may arrive in any number of polls of at most 20 records, with records
that are not key-downs between them. -/
theorem C1_commit_then_recall (env : Env) (raw : WinConsole)
    (polls polls2 : List (List INPUT_RECORD)) (kes : List KEY_EVENT_RECORD)
    (ke ku : KEY_EVENT_RECORD)
    (hsz : ∀ b ∈ polls, b.length ≤ 20) (hsz2 : ∀ b ∈ polls2, b.length ≤ 20)
    (hk : keyDowns polls.flatten = kes ++ [ke])
    (hpr : ∀ k ∈ kes, Printable k.AsciiChar) (hne : kes ≠ []) (hlen : kes.length < BUFSIZE)
    (hE : IsEnter ke)
    (hk2 : keyDowns polls2.flatten = [ku]) (hU : IsUp ku) :
    posted (WinConsole.run env (WinConsole.fresh env raw) polls).log
      = [kes.map KEY_EVENT_RECORD.AsciiChar] ∧
    (WinConsole.run env (WinConsole.fresh env raw) polls).rgCmds 0
      = kes.map KEY_EVENT_RECORD.AsciiChar ∧
    (WinConsole.run env (WinConsole.fresh env raw) polls).inpos = 0 ∧
    (WinConsole.run env (WinConsole.fresh env raw) polls).oob = false ∧
    (WinConsole.run env (WinConsole.run env (WinConsole.fresh env raw) polls) polls2).line
      = kes.map KEY_EVENT_RECORD.AsciiChar ∧
    (WinConsole.run env (WinConsole.run env (WinConsole.fresh env raw) polls) polls2).inpos
      = kes.length ∧
    (WinConsole.run env (WinConsole.run env (WinConsole.fresh env raw) polls) polls2).oob
      = false := by
  obtain ⟨f1, f2, f3, f4, f5, f6, f7, _⟩ := WinConsole.fresh_spec env raw
  have hins : ∀ k ∈ kes, Inserted k.AsciiChar := fun k h => (hpr k h).inserted
  -- the polls up to Enter
  obtain ⟨p, e, q1, q2, q3, q4, q5, q6, _, q8, q9⟩ :=
    WinConsole.run_typing_then_key env polls (WinConsole.fresh env raw) kes ke f1 hsz hk hins
  rw [f2, Nat.zero_add] at q1 q9
  rw [f3, List.nil_append] at q2
  have hnul : ∀ c ∈ p.line, c ≠ NUL := by
    intro c hc
    rw [q2] at hc
    obtain ⟨k, hk', rfl⟩ := List.mem_map.mp hc
    exact (hins k hk').ne_NUL
  obtain ⟨n1, n2, n3, n4, n5, n6, _, n8⟩ :=
    Poll.enter_spec env p (by rw [q1]; exact hlen) (by unfold BUFSIZE; omega) hnul
  obtain ⟨g1, _, g3, g4, g5, g6, g7, _, g9⟩ := Poll.finish_spec (p.enter env)
  rw [Poll.keyDown_enter env p ke hE] at e
  have hslot : commitSlot p.iCmdIndex = 0 := by rw [q4, f4]; rfl
  have s1_rg : (WinConsole.run env (WinConsole.fresh env raw) polls).rgCmds
      = fun i => if i = 0 then kes.map KEY_EVENT_RECORD.AsciiChar
          else (WinConsole.fresh env raw).rgCmds i := by
    rw [e, g4, n3, hslot, q2, q3]
  have s1_idx : (WinConsole.run env (WinConsole.fresh env raw) polls).iCmdIndex = 1 := by
    rw [e, g5, n4, hslot]
  have s1_pos : (WinConsole.run env (WinConsole.fresh env raw) polls).inpos = 0 := by
    rw [e, g1, n1]
  have s1_oob : (WinConsole.run env (WinConsole.fresh env raw) polls).oob = false := by
    rw [e, g9 (by rw [n2]; unfold BUFSIZE; omega), n8, q9 (by omega), f7]
  have s1_en : (WinConsole.run env (WinConsole.fresh env raw) polls).winConsoleEnabled
      = true := by
    rw [e, g7, n6, q6]
  have s1_line : (WinConsole.run env (WinConsole.fresh env raw) polls).line = [] := by
    simp [WinConsole.line, s1_pos, firstN_zero]
  have hL : kes.map KEY_EVENT_RECORD.AsciiChar ≠ [] := by
    simpa using hne
  -- the polls with the Up arrow
  obtain ⟨p2, e2, r1, r2, r3, r4, _, _, _, _, r9⟩ :=
    WinConsole.run_typing_then_key env polls2
      (WinConsole.run env (WinConsole.fresh env raw) polls) [] ku s1_en hsz2
      (by simpa using hk2) (by simp)
  rw [s1_pos] at r1 r9
  simp only [List.length_nil, Nat.add_zero] at r1 r9
  rw [s1_idx] at r4
  rw [s1_rg] at r3
  have hprev : prevSlot p2.iCmdIndex = 0 := by rw [r4]; rfl
  have hcmd : p2.rgCmds (prevSlot p2.iCmdIndex) = kes.map KEY_EVENT_RECORD.AsciiChar := by
    rw [hprev, r3]; simp
  rw [Poll.keyDown_up env p2 ku hU.1 hU.2,
    Poll.upArrow_of_nonempty p2 (by rw [r4]; decide) (by rw [hcmd]; exact hL), hcmd] at e2
  obtain ⟨u1, u2, u3, _, _, _, _, _, _, u10⟩ :=
    Poll.redraw_spec (kes.map KEY_EVENT_RECORD.AsciiChar)
      { p2 with iCmdIndex := prevSlot p2.iCmdIndex }
  obtain ⟨v1, _, v3, _, _, _, _, _, v9⟩ :=
    Poll.finish_spec (Poll.redraw (kes.map KEY_EVENT_RECORD.AsciiChar)
      { p2 with iCmdIndex := prevSlot p2.iCmdIndex })
  have hout : (Poll.redraw (kes.map KEY_EVENT_RECORD.AsciiChar)
      { p2 with iCmdIndex := prevSlot p2.iCmdIndex }).outpos = kes.length := by
    rw [u3]
    show 3 * p2.inpos + _ = _
    rw [r1]
    simp
  have hoob : (Poll.redraw (kes.map KEY_EVENT_RECORD.AsciiChar)
      { p2 with iCmdIndex := prevSlot p2.iCmdIndex }).oob = p2.oob := by
    apply u10
    show 3 * p2.inpos + _ ≤ _
    rw [r1]
    simp
    omega
  refine ⟨?_, ?_, s1_pos, s1_oob, ?_, ?_, ?_⟩
  · rw [e, g6, n5, q5, f6, q2]; rfl
  · rw [s1_rg]; simp
  · rw [e2, v3, u2]
  · rw [e2, v1, u1]; simp
  · rw [e2, v9 (by rw [hout]; exact hlen), hoob,
      r9 (by unfold BUFSIZE; omega), s1_oob]

/-- C1 at work for the line `help`: typed in two polls, Enter in the second, Up
in a third. -/
theorem C1_commit_then_recall_witness :
    posted (WinConsole.run sampleEnv (WinConsole.fresh sampleEnv sampleRaw)
      [[charKey 'h' 72 0, charKey 'e' 69 0],
       [charKey 'l' 76 0, charKey 'p' 80 0, charKey CR 13 0]]).log
      = [['h', 'e', 'l', 'p']] ∧
    (WinConsole.run sampleEnv (WinConsole.fresh sampleEnv sampleRaw)
      [[charKey 'h' 72 0, charKey 'e' 69 0],
       [charKey 'l' 76 0, charKey 'p' 80 0, charKey CR 13 0]]).rgCmds 0
      = ['h', 'e', 'l', 'p'] ∧
    (WinConsole.run sampleEnv (WinConsole.fresh sampleEnv sampleRaw)
      [[charKey 'h' 72 0, charKey 'e' 69 0],
       [charKey 'l' 76 0, charKey 'p' 80 0, charKey CR 13 0]]).inpos = 0 ∧
    (WinConsole.run sampleEnv (WinConsole.fresh sampleEnv sampleRaw)
      [[charKey 'h' 72 0, charKey 'e' 69 0],
       [charKey 'l' 76 0, charKey 'p' 80 0, charKey CR 13 0]]).oob = false ∧
    (WinConsole.run sampleEnv (WinConsole.run sampleEnv (WinConsole.fresh sampleEnv sampleRaw)
      [[charKey 'h' 72 0, charKey 'e' 69 0],
       [charKey 'l' 76 0, charKey 'p' 80 0, charKey CR 13 0]])
      [[virtualKey VK_UP 0]]).line = ['h', 'e', 'l', 'p'] ∧
    (WinConsole.run sampleEnv (WinConsole.run sampleEnv (WinConsole.fresh sampleEnv sampleRaw)
      [[charKey 'h' 72 0, charKey 'e' 69 0],
       [charKey 'l' 76 0, charKey 'p' 80 0, charKey CR 13 0]])
      [[virtualKey VK_UP 0]]).inpos = 4 ∧
    (WinConsole.run sampleEnv (WinConsole.run sampleEnv (WinConsole.fresh sampleEnv sampleRaw)
      [[charKey 'h' 72 0, charKey 'e' 69 0],
       [charKey 'l' 76 0, charKey 'p' 80 0, charKey CR 13 0]])
      [[virtualKey VK_UP 0]]).oob = false :=
  C1_commit_then_recall sampleEnv sampleRaw
    [[charKey 'h' 72 0, charKey 'e' 69 0],
     [charKey 'l' 76 0, charKey 'p' 80 0, charKey CR 13 0]]
    [[virtualKey VK_UP 0]]
    [keyRecord 'h' 72 0, keyRecord 'e' 69 0, keyRecord 'l' 76 0, keyRecord 'p' 80 0]
    (keyRecord CR 13 0) (keyRecord NUL VK_UP 0)
    (by decide) (by decide) rfl (by decide) (List.cons_ne_nil _ _) (by decide) (by decide)
    rfl (by decide)

/-- Down inside the ring: a Down key-down with the cursor `c < MAX_CMDS` moves the cursor to
`(c + 1) mod MAX_CMDS` when slot `c` holds a command and leaves it at `c` when
slot `c` is empty; in both cases the line buffer becomes the content of the slot
at the resulting cursor, empty or not, and no array is left when the redraw fits
the 512 bytes of `outbuf`. In particular, on a freshly constructed console on
which printable characters have been typed, a Down key-down before any Up leaves
the line buffer empty; no array is left if at most 170 characters were typed. -/
theorem step_down_inside_ring (env : Env) (p : Poll) (ke : KEY_EVENT_RECORD)
    (hd : ke.bKeyDown = true) (hD : IsDown ke) (hidx : p.iCmdIndex < MAX_CMDS) :
    (p.rgCmds p.iCmdIndex ≠ [] →
      (Poll.step env p (INPUT_RECORD.key ke)).iCmdIndex = (p.iCmdIndex + 1) % MAX_CMDS) ∧
    (p.rgCmds p.iCmdIndex = [] →
      (Poll.step env p (INPUT_RECORD.key ke)).iCmdIndex = p.iCmdIndex) ∧
    (Poll.step env p (INPUT_RECORD.key ke)).line
      = p.rgCmds (Poll.step env p (INPUT_RECORD.key ke)).iCmdIndex ∧
    (Poll.step env p (INPUT_RECORD.key ke)).inpos
      = (p.rgCmds (Poll.step env p (INPUT_RECORD.key ke)).iCmdIndex).length ∧
    (Poll.step env p (INPUT_RECORD.key ke)).rgCmds = p.rgCmds ∧
    (Poll.step env p (INPUT_RECORD.key ke)).batch
      = eraseSeq p.inpos ++ p.rgCmds (Poll.step env p (INPUT_RECORD.key ke)).iCmdIndex ∧
    (3 * p.inpos + (p.rgCmds (Poll.step env p (INPUT_RECORD.key ke)).iCmdIndex).length
        ≤ BUFSIZE →
      (Poll.step env p (INPUT_RECORD.key ke)).oob = p.oob) ∧
    (∀ (raw : WinConsole) (polls : List (List INPUT_RECORD)) (kes : List KEY_EVENT_RECORD),
      (∀ b ∈ polls, b.length ≤ 20) → keyDowns polls.flatten = kes ++ [ke] →
      (∀ k ∈ kes, Printable k.AsciiChar) → kes ≠ [] →
      (WinConsole.run env (WinConsole.fresh env raw) polls).inpos = 0 ∧
      (WinConsole.run env (WinConsole.fresh env raw) polls).line = [] ∧
      (kes.length ≤ 170 →
        (WinConsole.run env (WinConsole.fresh env raw) polls).oob = false)) := by
  have hq : Poll.step env p (INPUT_RECORD.key ke)
      = Poll.redraw (p.rgCmds (if p.rgCmds p.iCmdIndex ≠ [] then nextSlot p.iCmdIndex
            else p.iCmdIndex))
          { p with iCmdIndex := (if p.rgCmds p.iCmdIndex ≠ [] then nextSlot p.iCmdIndex
            else p.iCmdIndex) } := by
    rw [Poll.step_charKey env p ke hd, Poll.keyDown_down env p ke hD.1 hD.2,
      Poll.downArrow_of_lt p hidx]
  obtain ⟨u1, u2, _, u4, u5, u6, _, _, _, u10⟩ :=
    Poll.redraw_spec (p.rgCmds (if p.rgCmds p.iCmdIndex ≠ [] then nextSlot p.iCmdIndex
            else p.iCmdIndex))
          { p with iCmdIndex := (if p.rgCmds p.iCmdIndex ≠ [] then nextSlot p.iCmdIndex
            else p.iCmdIndex) }
  rw [← hq] at u1 u2 u4 u5 u6 u10
  have hidx' : (Poll.step env p (INPUT_RECORD.key ke)).iCmdIndex
      = if p.rgCmds p.iCmdIndex ≠ [] then nextSlot p.iCmdIndex else p.iCmdIndex := u6
  refine ⟨?_, ?_, ?_, ?_, u5, ?_, ?_, ?_⟩
  · intro hne
    rw [hidx', if_pos hne, Poll.nextSlot_eq_mod _ hidx]
  · intro he
    rw [hidx', if_neg (not_not.mpr he)]
  · rw [hidx']; exact u2
  · rw [hidx']; exact u1
  · rw [hidx']; exact u4
  · rw [hidx']; exact u10
  · intro raw polls kes hsz hk hpr _
    obtain ⟨f1, f2, _, f4, f5, _, f7, _⟩ := WinConsole.fresh_spec env raw
    obtain ⟨p1, e, q1, _, q3, q4, _, _, _, q8, q9⟩ :=
      WinConsole.run_typing_then_key env polls (WinConsole.fresh env raw) kes ke f1 hsz hk
        (fun k h => (hpr k h).inserted)
    rw [f2, Nat.zero_add] at q1 q9
    rw [f4] at q4
    have hslot : p1.rgCmds p1.iCmdIndex = [] := by
      rw [q3, q4]; exact f5 0 (by decide)
    rw [Poll.keyDown_down env p1 ke hD.1 hD.2, Poll.downArrow_of_lt p1 (by rw [q4]; decide),
      if_neg (not_not.mpr hslot), hslot] at e
    obtain ⟨v1, v2, v3, _, _, _, _, _, _, v10⟩ :=
      Poll.redraw_spec [] { p1 with iCmdIndex := p1.iCmdIndex }
    obtain ⟨w1, _, w3, _, _, _, _, _, w9⟩ :=
      Poll.finish_spec (Poll.redraw [] { p1 with iCmdIndex := p1.iCmdIndex })
    have hout : (Poll.redraw [] { p1 with iCmdIndex := p1.iCmdIndex }).outpos
        = 3 * kes.length := by
      rw [v3]
      show 3 * p1.inpos + _ = _
      rw [q1]; simp
    refine ⟨?_, ?_, ?_⟩
    · rw [e, w1, v1]; rfl
    · rw [e, w3, v2]
    · intro hlen
      have hoob : (Poll.redraw [] { p1 with iCmdIndex := p1.iCmdIndex }).oob = p1.oob := by
        apply v10
        show 3 * p1.inpos + _ ≤ _
        rw [q1]; unfold BUFSIZE; simp; omega
      rw [e, w9 (by rw [hout]; unfold BUFSIZE; omega), hoob,
        q9 (by unfold BUFSIZE; omega), f7]

/-- Down inside the ring at work: Down on the console that holds `foo` and has an
empty slot 0, and the polls `f`, `o`, `o`, Down on a fresh console. -/
theorem step_down_inside_ring_example :
    (Poll.step sampleEnv samplePollFoo (INPUT_RECORD.key (keyRecord NUL VK_DOWN 0))).iCmdIndex
      = 0 ∧
    (Poll.step sampleEnv samplePollFoo (INPUT_RECORD.key (keyRecord NUL VK_DOWN 0))).line
      = [] ∧
    (WinConsole.run sampleEnv (WinConsole.fresh sampleEnv sampleRaw)
      [[charKey 'f' 70 0, charKey 'o' 79 0], [charKey 'o' 79 0],
       [INPUT_RECORD.key (keyRecord NUL VK_DOWN 0)]]).inpos = 0 :=
  ⟨(step_down_inside_ring sampleEnv samplePollFoo (keyRecord NUL VK_DOWN 0) rfl
      (by decide) (by decide)).2.1 (by decide),
   (step_down_inside_ring sampleEnv samplePollFoo (keyRecord NUL VK_DOWN 0) rfl
      (by decide) (by decide)).2.2.1,
   ((step_down_inside_ring sampleEnv samplePollFoo (keyRecord NUL VK_DOWN 0) rfl
      (by decide) (by decide)).2.2.2.2.2.2.2 sampleRaw
      [[charKey 'f' 70 0, charKey 'o' 79 0], [charKey 'o' 79 0],
       [INPUT_RECORD.key (keyRecord NUL VK_DOWN 0)]]
      [keyRecord 'f' 70 0, keyRecord 'o' 79 0, keyRecord 'o' 79 0]
      (by decide) rfl (by decide) (List.cons_ne_nil _ _)).1⟩

namespace Poll

theorem copyOut_toWinConsole (n i : Nat) (p : Poll) :
    (copyOut n i p).toWinConsole = { p.toWinConsole with oob := (copyOut n i p).oob } := by
  induction n generalizing i p with
  | zero => rfl
  | succ n ih => rw [copyOut, ih]; rfl

theorem copyOut_outpos (n i : Nat) (p : Poll) : (copyOut n i p).outpos = p.outpos + n := by
  induction n generalizing i p with
  | zero => rfl
  | succ n ih =>
    rw [copyOut, ih]
    show p.outpos + 1 + n = _
    omega

theorem copyOut_batch (n i : Nat) (p : Poll) :
    (copyOut n i p).batch = p.batch ++ (List.range' i n).map p.inbuf := by
  induction n generalizing i p with
  | zero => simp [copyOut]
  | succ n ih =>
    rw [copyOut, ih]
    have hb : (Poll.batch { (p.emit (p.inbuf i)) with
        oob := (p.emit (p.inbuf i)).oob || decide (BUFSIZE ≤ i) }) = p.batch ++ [p.inbuf i] :=
      emit_batch p (p.inbuf i)
    rw [hb]
    simp [List.range'_succ, emit]

theorem copyOut_oob (n i : Nat) (p : Poll) (ho : p.outpos + n ≤ BUFSIZE)
    (hi : i + n ≤ BUFSIZE) : (copyOut n i p).oob = p.oob := by
  induction n generalizing i p with
  | zero => rfl
  | succ n ih =>
    rw [copyOut, ih]
    · have h1 : ¬ BUFSIZE ≤ p.outpos := by omega
      have h2 : ¬ BUFSIZE ≤ i := by omega
      simp [emit, h1, h2]
    · show p.outpos + 1 + n ≤ BUFSIZE
      omega
    · omega

/-- What the tab case does. -/
theorem tab_spec (env : Env) (p : Poll) (ke : KEY_EVENT_RECORD) :
    (p.tab env ke).log = p.log ++ [Effect.complete p.inbuf p.inpos (tabMaxlen p.inpos)
      (!(ke.dwControlKeyState &&& SHIFT_PRESSED != 0))] ∧
    (p.tab env ke).inbuf = (env.tabComplete p.inbuf p.inpos (tabMaxlen p.inpos)
      (!(ke.dwControlKeyState &&& SHIFT_PRESSED != 0))).1 ∧
    (p.tab env ke).inpos = (env.tabComplete p.inbuf p.inpos (tabMaxlen p.inpos)
      (!(ke.dwControlKeyState &&& SHIFT_PRESSED != 0))).2 ∧
    (p.tab env ke).batch = p.batch ++ eraseSeq p.inpos ++
      firstN (p.tab env ke).inbuf (p.tab env ke).inpos ∧
    (p.tab env ke).outpos = p.outpos + 3 * p.inpos + (p.tab env ke).inpos ∧
    (p.tab env ke).rgCmds = p.rgCmds ∧ (p.tab env ke).iCmdIndex = p.iCmdIndex ∧
    (p.outpos + 3 * p.inpos + (p.tab env ke).inpos ≤ BUFSIZE →
      (p.tab env ke).oob = p.oob) := by
  have hc := fun (n i : Nat) (q : Poll) => congrArg WinConsole.log (copyOut_toWinConsole n i q)
  have hb := fun (n i : Nat) (q : Poll) => congrArg WinConsole.inbuf (copyOut_toWinConsole n i q)
  have hp := fun (n i : Nat) (q : Poll) => congrArg WinConsole.inpos (copyOut_toWinConsole n i q)
  have hr := fun (n i : Nat) (q : Poll) => congrArg WinConsole.rgCmds (copyOut_toWinConsole n i q)
  have hx := fun (n i : Nat) (q : Poll) =>
    congrArg WinConsole.iCmdIndex (copyOut_toWinConsole n i q)
  have e1 := eraseLoop_inbuf p.inpos p
  have e2 := eraseLoop_log p.inpos p
  have e3 := eraseLoop_outpos p.inpos p
  have e4 := eraseLoop_batch p.inpos p
  have e5 := eraseLoop_rgCmds p.inpos p
  have e6 := eraseLoop_iCmdIndex p.inpos p
  have hinbuf : (p.tab env ke).inbuf = (env.tabComplete p.inbuf p.inpos (tabMaxlen p.inpos)
      (!(ke.dwControlKeyState &&& SHIFT_PRESSED != 0))).1 := by
    unfold tab
    refine (hb _ _ _).trans ?_
    show (env.tabComplete (eraseLoop p.inpos p).inbuf _ _ _).1 = _
    rw [e1]
  have hinpos : (p.tab env ke).inpos = (env.tabComplete p.inbuf p.inpos (tabMaxlen p.inpos)
      (!(ke.dwControlKeyState &&& SHIFT_PRESSED != 0))).2 := by
    unfold tab
    refine (hp _ _ _).trans ?_
    show (env.tabComplete (eraseLoop p.inpos p).inbuf _ _ _).2 = _
    rw [e1]
  refine ⟨?_, hinbuf, hinpos, ?_, ?_, ?_, ?_, ?_⟩
  · unfold tab
    refine (hc _ _ _).trans ?_
    show (eraseLoop p.inpos p).log ++ [Effect.complete (eraseLoop p.inpos p).inbuf _ _ _] = _
    rw [e1, e2]
  · rw [hinbuf, hinpos]
    unfold tab
    rw [copyOut_batch]
    show (eraseLoop p.inpos p).batch ++ List.map
      (env.tabComplete (eraseLoop p.inpos p).inbuf _ _ _).1
      (List.range' 0 (env.tabComplete (eraseLoop p.inpos p).inbuf _ _ _).2) = _
    rw [e4, e1]
    simp [firstN, List.range_eq_range']
  · rw [hinpos]
    unfold tab
    rw [copyOut_outpos]
    show (eraseLoop p.inpos p).outpos + (env.tabComplete (eraseLoop p.inpos p).inbuf _ _ _).2 = _
    rw [e3, e1]
  · unfold tab
    refine (hr _ _ _).trans ?_
    exact e5
  · unfold tab
    refine (hx _ _ _).trans ?_
    exact e6
  · rw [hinpos]
    intro hcap
    unfold tab
    rw [copyOut_oob]
    · exact eraseLoop_oob p.inpos p (by omega)
    · show (eraseLoop p.inpos p).outpos + (env.tabComplete (eraseLoop p.inpos p).inbuf _ _ _).2
        ≤ BUFSIZE
      rw [e3, e1]; exact hcap
    · show 0 + (env.tabComplete (eraseLoop p.inpos p).inbuf _ _ _).2 ≤ BUFSIZE
      rw [e1]; omega

end Poll

/-- C10 at its failing input: the console shows `q` and holds `q`, slot 0 holds
`x`, and one poll brings Backspace and Up. Backspace batches one erase sequence;
the Up case restarts the batch at `outpos = 0` and leaves only `x` in it; the poll
flushes `x`, so the display goes from `q` to `qx` while the line buffer is `x`. -/
theorem C10_up_discards_batched_bytes :
    sampleConsoleQ.line = ['q'] ∧
    printed sampleConsoleQ.log = [['%', SP], ['x', CR, LF], ['%', SP], ['q']] ∧
    (Poll.step sampleEnv (Poll.start sampleEnv sampleConsoleQ) (charKey BS 8 0)).batch
      = [BS, SP, BS] ∧
    (Poll.step sampleEnv (Poll.step sampleEnv (Poll.start sampleEnv sampleConsoleQ)
      (charKey BS 8 0)) (virtualKey VK_UP 0)).batch = ['x'] ∧
    (WinConsole.process sampleEnv sampleConsoleQ
      [charKey BS 8 0, virtualKey VK_UP 0]).line = ['x'] ∧
    printed (WinConsole.process sampleEnv sampleConsoleQ
      [charKey BS 8 0, virtualKey VK_UP 0]).log
      = [['%', SP], ['x', CR, LF], ['%', SP], ['q'], ['x']] ∧
    (WinConsole.process sampleEnv sampleConsoleQ
      [charKey BS 8 0, virtualKey VK_UP 0]).oob = false ∧
    displayAfter 1 ['q'] ['x'] = ['q', 'x'] ∧
    displayAfter 1 ['q'] ['x']
      ≠ (WinConsole.process sampleEnv sampleConsoleQ
          [charKey BS 8 0, virtualKey VK_UP 0]).line := by
  decide

/-! ## Independence of the split into polls -/

theorem SameCore.refl (a : WinConsole) : SameCore a a :=
  ⟨rfl, rfl, rfl, rfl, rfl, rfl, rfl⟩

theorem SameCore.trans {a b c : WinConsole} (h1 : SameCore a b) (h2 : SameCore b c) :
    SameCore a c :=
  ⟨h1.enabled.trans h2.enabled, h1.inbuf.trans h2.inbuf, h1.inpos.trans h2.inpos,
    h1.lineOutput.trans h2.lineOutput, h1.rgCmds.trans h2.rgCmds,
    h1.iCmdIndex.trans h2.iCmdIndex, h1.posted.trans h2.posted⟩

theorem SameCore.line {a b : WinConsole} (h : SameCore a b) : a.line = b.line := by
  unfold WinConsole.line
  rw [h.inbuf, h.inpos]

theorem Covered.emit {p q : Poll} (h : Covered p q) (c : Char) :
    Covered (p.emit c) (q.emit c) := by
  refine ⟨⟨h.core.enabled, h.core.inbuf, h.core.inpos, h.core.lineOutput, h.core.rgCmds,
    h.core.iCmdIndex, h.core.posted⟩, ?_, ?_⟩
  · show p.outpos + 1 ≤ q.outpos + 1
    have := h.outpos
    omega
  · intro hq
    have hq' : (q.oob || decide (BUFSIZE ≤ q.outpos)) = false := hq
    rw [Bool.or_eq_false_iff, decide_eq_false_iff_not] at hq'
    show (p.oob || decide (BUFSIZE ≤ p.outpos)) = false
    rw [Bool.or_eq_false_iff, decide_eq_false_iff_not]
    have := h.outpos
    exact ⟨h.oob hq'.1, by omega⟩

theorem Covered.erase {p q : Poll} (h : Covered p q) : Covered p.erase q.erase :=
  ((h.emit BS).emit SP).emit BS

theorem Covered.eraseLoop (n : Nat) : ∀ {p q : Poll}, Covered p q →
    Covered (Poll.eraseLoop n p) (Poll.eraseLoop n q) := by
  induction n with
  | zero => intro p q h; exact h
  | succ n ih => intro p q h; exact ih h.erase

theorem Covered.copyLoop (cs : List Char) : ∀ {p q : Poll}, Covered p q →
    Covered (Poll.copyLoop cs p) (Poll.copyLoop cs q) := by
  induction cs with
  | nil => intro p q h; exact h
  | cons c cs ih =>
    intro p q h
    apply ih
    refine ⟨⟨h.core.enabled, ?_, ?_, h.core.lineOutput, h.core.rgCmds,
      h.core.iCmdIndex, h.core.posted⟩, ?_, ?_⟩
    · show setAt p.inbuf p.inpos c = setAt q.inbuf q.inpos c
      rw [h.core.inbuf, h.core.inpos]
    · show p.inpos + 1 = q.inpos + 1
      rw [h.core.inpos]
    · show p.outpos + 1 ≤ q.outpos + 1
      have := h.outpos
      omega
    · intro hq
      have hq' : (q.oob || decide (BUFSIZE ≤ q.outpos) || decide (BUFSIZE ≤ q.inpos)) = false :=
        hq
      simp only [Bool.or_eq_false_iff, decide_eq_false_iff_not] at hq'
      show (p.oob || decide (BUFSIZE ≤ p.outpos) || decide (BUFSIZE ≤ p.inpos)) = false
      simp only [Bool.or_eq_false_iff, decide_eq_false_iff_not]
      have := h.outpos
      have := h.core.inpos
      exact ⟨⟨h.oob hq'.1.1, by omega⟩, by omega⟩

theorem Covered.copyOut (n : Nat) : ∀ (i : Nat) {p q : Poll}, Covered p q →
    Covered (Poll.copyOut n i p) (Poll.copyOut n i q) := by
  induction n with
  | zero => intro i p q h; exact h
  | succ n ih =>
    intro i p q h
    apply ih
    have he : Covered (p.emit (p.inbuf i)) (q.emit (q.inbuf i)) := by
      have : p.inbuf i = q.inbuf i := by rw [h.core.inbuf]
      rw [this]
      exact h.emit _
    refine ⟨⟨he.core.enabled, he.core.inbuf, he.core.inpos, he.core.lineOutput,
      he.core.rgCmds, he.core.iCmdIndex, he.core.posted⟩, he.outpos, ?_⟩
    intro hq
    have hq' : ((q.emit (q.inbuf i)).oob || decide (BUFSIZE ≤ i)) = false := hq
    rw [Bool.or_eq_false_iff] at hq'
    show ((p.emit (p.inbuf i)).oob || decide (BUFSIZE ≤ i)) = false
    rw [Bool.or_eq_false_iff]
    exact ⟨he.oob hq'.1, hq'.2⟩

theorem Covered.redraw (cmd : List Char) {p q : Poll} (h : Covered p q) :
    Covered (Poll.redraw cmd p) (Poll.redraw cmd q) := by
  unfold Poll.redraw
  have h0 : Covered { p with outpos := 0 } { q with outpos := 0 } :=
    ⟨h.core, le_refl 0, h.oob⟩
  have h1 : Covered (Poll.eraseLoop p.inpos { p with outpos := 0 })
      (Poll.eraseLoop q.inpos { q with outpos := 0 }) := by
    rw [h.core.inpos]
    exact Covered.eraseLoop q.inpos h0
  apply Covered.copyLoop
  exact ⟨⟨h1.core.enabled, h1.core.inbuf, rfl, h1.core.lineOutput, h1.core.rgCmds,
    h1.core.iCmdIndex, h1.core.posted⟩, h1.outpos, h1.oob⟩


theorem Covered.upArrow {p q : Poll} (h : Covered p q) : Covered p.upArrow q.upArrow := by
  obtain ⟨⟨en, ib, ip, lo, rg, ix, lg, ob⟩, obuf, opos⟩ := p
  obtain ⟨⟨en', ib', ip', lo', rg', ix', lg', ob'⟩, obuf', opos'⟩ := q
  obtain ⟨⟨h1, h2, h3, h4, h5, h6, h7⟩, h8, h9⟩ := h
  dsimp only at h1 h2 h3 h4 h5 h6 h7 h8 h9
  subst h1 h2 h3 h4 h5 h6
  have hoob : (ob' || decide (MAX_CMDS ≤ prevSlot ix)) = false →
      (ob || decide (MAX_CMDS ≤ prevSlot ix)) = false := by
    intro hq
    rw [Bool.or_eq_false_iff] at hq ⊢
    exact ⟨h9 hq.1, hq.2⟩
  unfold Poll.upArrow
  dsimp only
  split
  · apply Covered.redraw
    exact ⟨⟨rfl, rfl, rfl, rfl, rfl, rfl, h7⟩, h8, hoob⟩
  · exact ⟨⟨rfl, rfl, rfl, rfl, rfl, rfl, h7⟩, h8, hoob⟩

theorem Covered.downArrow {p q : Poll} (h : Covered p q) :
    Covered p.downArrow q.downArrow := by
  obtain ⟨⟨en, ib, ip, lo, rg, ix, lg, ob⟩, obuf, opos⟩ := p
  obtain ⟨⟨en', ib', ip', lo', rg', ix', lg', ob'⟩, obuf', opos'⟩ := q
  obtain ⟨⟨h1, h2, h3, h4, h5, h6, h7⟩, h8, h9⟩ := h
  dsimp only at h1 h2 h3 h4 h5 h6 h7 h8 h9
  subst h1 h2 h3 h4 h5 h6
  unfold Poll.downArrow
  dsimp only
  apply Covered.redraw
  refine ⟨⟨rfl, rfl, rfl, rfl, rfl, rfl, h7⟩, h8, ?_⟩
  dsimp only
  intro hq
  simp only [Bool.or_eq_false_iff] at hq ⊢
  exact ⟨⟨h9 hq.1.1, hq.1.2⟩, hq.2⟩

theorem Covered.backspace {p q : Poll} (h : Covered p q) :
    Covered p.backspace q.backspace := by
  have hp : p.inpos = q.inpos := h.core.inpos
  unfold Poll.backspace
  rw [hp]
  split
  · have he := h.erase
    exact ⟨⟨he.core.enabled, he.core.inbuf, rfl, he.core.lineOutput, he.core.rgCmds,
      he.core.iCmdIndex, he.core.posted⟩, he.outpos, he.oob⟩
  · exact h

theorem Covered.insert {p q : Poll} (h : Covered p q) (c : Char) :
    Covered (p.insert c) (q.insert c) := by
  obtain ⟨⟨en, ib, ip, lo, rg, ix, lg, ob⟩, obuf, opos⟩ := p
  obtain ⟨⟨en', ib', ip', lo', rg', ix', lg', ob'⟩, obuf', opos'⟩ := q
  obtain ⟨⟨h1, h2, h3, h4, h5, h6, h7⟩, h8, h9⟩ := h
  dsimp only at h1 h2 h3 h4 h5 h6 h7 h8 h9
  subst h1 h2 h3 h4 h5 h6
  unfold Poll.insert
  apply Covered.emit
  refine ⟨⟨rfl, rfl, rfl, rfl, rfl, rfl, h7⟩, h8, ?_⟩
  dsimp only
  intro hq
  rw [Bool.or_eq_false_iff] at hq ⊢
  exact ⟨h9 hq.1, hq.2⟩

theorem Covered.tab (env : Env) (ke : KEY_EVENT_RECORD) {p q : Poll} (h : Covered p q) :
    Covered (p.tab env ke) (q.tab env ke) := by
  have hp : p.inpos = q.inpos := h.core.inpos
  have h1 : Covered (Poll.eraseLoop p.inpos p) (Poll.eraseLoop p.inpos q) :=
    Covered.eraseLoop p.inpos h
  unfold Poll.tab
  dsimp only
  rw [← hp]
  generalize Poll.eraseLoop p.inpos p = p1 at h1 ⊢
  generalize Poll.eraseLoop p.inpos q = q1 at h1 ⊢
  generalize p.inpos = n
  obtain ⟨⟨en, ib, ip, lo, rg, ix, lg, ob⟩, obuf, opos⟩ := p1
  obtain ⟨⟨en', ib', ip', lo', rg', ix', lg', ob'⟩, obuf', opos'⟩ := q1
  obtain ⟨⟨k1, k2, k3, k4, k5, k6, k7⟩, k8, k9⟩ := h1
  dsimp only at k1 k2 k3 k4 k5 k6 k7 k8 k9
  subst k1 k2 k3 k4 k5 k6
  dsimp only
  apply Covered.copyOut
  refine ⟨⟨rfl, rfl, rfl, rfl, rfl, rfl, ?_⟩, k8, k9⟩
  dsimp only
  rw [posted_append, posted_append, k7]

theorem Covered.enter (env : Env) {p q : Poll} (h : Covered p q) :
    Covered (p.enter env) (q.enter env) := by
  have h1 : Covered ((p.emit CR).emit LF) ((q.emit CR).emit LF) := (h.emit CR).emit LF
  unfold Poll.enter
  dsimp only
  generalize (p.emit CR).emit LF = p1 at h1 ⊢
  generalize (q.emit CR).emit LF = q1 at h1 ⊢
  obtain ⟨⟨en, ib, ip, lo, rg, ix, lg, ob⟩, obuf, opos⟩ := p1
  obtain ⟨⟨en', ib', ip', lo', rg', ix', lg', ob'⟩, obuf', opos'⟩ := q1
  obtain ⟨⟨k1, k2, k3, k4, k5, k6, k7⟩, k8, k9⟩ := h1
  dsimp only at k1 k2 k3 k4 k5 k6 k7 k8 k9
  subst k1 k2 k3 k4 k5 k6
  dsimp only
  refine ⟨⟨rfl, rfl, rfl, rfl, rfl, rfl, ?_⟩, le_refl 0, ?_⟩
  · dsimp only
    simp only [posted_append, posted, k7]
  · dsimp only
    intro hq
    simp only [Bool.or_eq_false_iff, decide_eq_false_iff_not] at hq ⊢
    exact ⟨⟨k9 hq.1.1, hq.1.2⟩, by omega⟩

theorem Covered.keyDown (env : Env) (ke : KEY_EVENT_RECORD) {p q : Poll} (h : Covered p q) :
    Covered (p.keyDown env ke) (q.keyDown env ke) := by
  unfold Poll.keyDown
  split
  · split
    · exact h.upArrow
    · split
      · exact h.downArrow
      · split
        · exact h
        · split <;> exact h
  · split
    · exact h.backspace
    · split
      · exact h.tab env ke
      · split
        · exact h.enter env
        · exact h.insert _

theorem Covered.foldl (env : Env) (kes : List KEY_EVENT_RECORD) : ∀ {p q : Poll}, Covered p q →
    Covered (kes.foldl (Poll.keyDown env) p) (kes.foldl (Poll.keyDown env) q) := by
  induction kes with
  | nil => intro p q h; exact h
  | cons k ks ih => intro p q h; exact ih (h.keyDown env k)

theorem TightRun.head {env : Env} {q : Poll} {kes : List KEY_EVENT_RECORD}
    (h : TightRun env q kes) : Tight q := by
  cases kes with
  | nil => exact h
  | cons k ks => exact h.1

theorem tightRun_append (env : Env) (a b : List KEY_EVENT_RECORD) : ∀ (q : Poll),
    TightRun env q (a ++ b) ↔
      TightRun env q a ∧ TightRun env (a.foldl (Poll.keyDown env) q) b := by
  induction a with
  | nil =>
    intro q
    constructor
    · intro h; exact ⟨h.head, h⟩
    · intro h; exact h.2
  | cons k ks ih =>
    intro q
    show Tight q ∧ TightRun env (Poll.keyDown env q k) (ks ++ b) ↔
      (Tight q ∧ TightRun env (Poll.keyDown env q k) ks) ∧
        TightRun env (ks.foldl (Poll.keyDown env) (Poll.keyDown env q k)) b
    rw [ih, and_assoc]

theorem TightRun.last {env : Env} {kes : List KEY_EVENT_RECORD} : ∀ {q : Poll},
    TightRun env q kes → Tight (kes.foldl (Poll.keyDown env) q) := by
  induction kes with
  | nil => intro q h; exact h
  | cons k ks ih => intro q h; exact ih h.2

namespace Poll

theorem keyDown_enabled (env : Env) (p : Poll) (ke : KEY_EVENT_RECORD) :
    (p.keyDown env ke).winConsoleEnabled = p.winConsoleEnabled := by
  unfold keyDown
  split
  · split
    · unfold upArrow
      dsimp only
      split
      · exact (redraw_spec _ _).2.2.2.2.2.2.2.1
      · rfl
    · split
      · unfold downArrow
        exact (redraw_spec _ _).2.2.2.2.2.2.2.1
      · split
        · rfl
        · split <;> rfl
  · split
    · unfold backspace
      split <;> rfl
    · split
      · unfold tab
        have h := congrArg WinConsole.winConsoleEnabled (copyOut_toWinConsole
          (env.tabComplete (eraseLoop p.inpos p).inbuf p.inpos (tabMaxlen p.inpos)
            (!(ke.dwControlKeyState &&& SHIFT_PRESSED != 0))).2 0
          { (eraseLoop p.inpos p) with
            log := (eraseLoop p.inpos p).log ++ [Effect.complete (eraseLoop p.inpos p).inbuf
              p.inpos (tabMaxlen p.inpos) (!(ke.dwControlKeyState &&& SHIFT_PRESSED != 0))]
            inbuf := (env.tabComplete (eraseLoop p.inpos p).inbuf p.inpos (tabMaxlen p.inpos)
              (!(ke.dwControlKeyState &&& SHIFT_PRESSED != 0))).1
            inpos := (env.tabComplete (eraseLoop p.inpos p).inbuf p.inpos (tabMaxlen p.inpos)
              (!(ke.dwControlKeyState &&& SHIFT_PRESSED != 0))).2 })
        exact h.trans (eraseLoop_enabled p.inpos p)
      · split
        · rfl
        · rfl

theorem foldl_keyDown_enabled (env : Env) (kes : List KEY_EVENT_RECORD) : ∀ (p : Poll),
    (kes.foldl (keyDown env) p).winConsoleEnabled = p.winConsoleEnabled := by
  induction kes with
  | nil => intro p; rfl
  | cons k ks ih => intro p; rw [List.foldl_cons, ih, keyDown_enabled]

end Poll

namespace WinConsole

/-- Polls against one uninterrupted loop: if the loop over all key-downs, run
from the poll state `q`, stays `Tight`, then the polls end in the same console
up to printed texts, and leave no array. -/
theorem run_covered (env : Env) (polls : List (List INPUT_RECORD)) :
    ∀ (s : WinConsole) (q : Poll), s.winConsoleEnabled = true →
    (∀ b ∈ polls, b.length ≤ 20) → SameCore s q.toWinConsole → (q.oob = false → s.oob = false) →
    TightRun env q (keyDowns polls.flatten) →
    SameCore (run env s polls)
      ((keyDowns polls.flatten).foldl (Poll.keyDown env) q).toWinConsole ∧
    (run env s polls).oob = false := by
  induction polls with
  | nil =>
    intro s q _ _ hc ho ht
    exact ⟨hc, ho ht.2⟩
  | cons b bs ih =>
    intro s q hen hsz hc ho ht
    have hb : b.length ≤ 20 := hsz b (List.mem_cons_self _ _)
    have hbs : ∀ b' ∈ bs, b'.length ≤ 20 := fun b' h => hsz b' (List.mem_cons_of_mem _ h)
    rw [List.flatten_cons, keyDowns_append] at ht ⊢
    rw [tightRun_append] at ht
    rw [List.foldl_append, run_cons, process_eq env s b hen hb]
    have hcov0 : Covered (Poll.start env s) q := ⟨hc, Nat.zero_le _, ho⟩
    have hcov := Covered.foldl env (keyDowns b) hcov0
    have htight : Tight ((keyDowns b).foldl (Poll.keyDown env) q) := ht.2.head
    obtain ⟨g1, g2, _, g4, g5, g6, g7, g8, g9⟩ :=
      Poll.finish_spec ((keyDowns b).foldl (Poll.keyDown env) (Poll.start env s))
    have hout := hcov.outpos
    apply ih
    · rw [g7, Poll.foldl_keyDown_enabled]
      exact hen
    · exact hbs
    · exact ⟨g7.trans hcov.core.enabled, g2.trans hcov.core.inbuf, g1.trans hcov.core.inpos,
        g8.trans hcov.core.lineOutput, g4.trans hcov.core.rgCmds,
        g5.trans hcov.core.iCmdIndex, g6.trans hcov.core.posted⟩
    · intro hq
      rw [g9 (by have := htight.1; omega)]
      exact hcov.oob hq
    · exact ht.2

/-- The same, from the start of the first poll. -/
theorem run_eq_loop (env : Env) (s : WinConsole) (polls : List (List INPUT_RECORD))
    (hen : s.winConsoleEnabled = true) (hsz : ∀ b ∈ polls, b.length ≤ 20)
    (ht : TightRun env (Poll.start env s) (keyDowns polls.flatten)) :
    SameCore (run env s polls)
      ((keyDowns polls.flatten).foldl (Poll.keyDown env) (Poll.start env s)).toWinConsole ∧
    (run env s polls).oob = false :=
  run_covered env polls s (Poll.start env s) hen hsz (SameCore.refl s) (fun h => h) ht

end WinConsole

/-! ## The history ring in one uninterrupted loop -/

namespace Poll

theorem tightRun_typing (env : Env) (kes : List KEY_EVENT_RECORD) : ∀ (q : Poll),
    (∀ k ∈ kes, Inserted k.AsciiChar) → q.oob = false → q.outpos + kes.length < BUFSIZE →
    q.inpos + kes.length ≤ BUFSIZE → TightRun env q kes := by
  induction kes with
  | nil =>
    intro q _ ho hout _
    exact ⟨by simpa using hout, ho⟩
  | cons k ks ih =>
    intro q hk ho hout hin
    simp only [List.length_cons] at hout hin
    refine ⟨⟨by omega, ho⟩, ?_⟩
    rw [keyDown_insert env q k (hk k (List.mem_cons_self _ _))]
    apply ih
    · exact fun k' h => hk k' (List.mem_cons_of_mem _ h)
    · rw [insert_oob q _ (by omega) (by omega), ho]
    · rw [insert_outpos]; omega
    · rw [insert_inpos]; omega

/-- One committed line in the loop, entered with an empty line buffer and an
empty batch. -/
theorem commit_loop (env : Env) (q : Poll) (c : Commit) (hc : ShortCommit c)
    (hi : q.inpos = 0) (ho : q.outpos = 0) (hb : q.oob = false) :
    TightRun env q (c.1 ++ [c.2]) ∧
    ((c.1 ++ [c.2]).foldl (keyDown env) q).inpos = 0 ∧
    ((c.1 ++ [c.2]).foldl (keyDown env) q).outpos = 0 ∧
    ((c.1 ++ [c.2]).foldl (keyDown env) q).oob = false ∧
    ((c.1 ++ [c.2]).foldl (keyDown env) q).iCmdIndex = commitSlot q.iCmdIndex + 1 ∧
    ((c.1 ++ [c.2]).foldl (keyDown env) q).rgCmds
      = (fun i => if i = commitSlot q.iCmdIndex then c.1.map KEY_EVENT_RECORD.AsciiChar
          else q.rgCmds i) ∧
    posted ((c.1 ++ [c.2]).foldl (keyDown env) q).log
      = posted q.log ++ [c.1.map KEY_EVENT_RECORD.AsciiChar] := by
  obtain ⟨hpr, _, hlen, hE⟩ := hc
  have hins : ∀ k ∈ c.1, Inserted k.AsciiChar := hpr
  obtain ⟨t1, t2, t3, _, t5, t6, t7, _, _, t10⟩ := foldl_typing env c.1 q hins
  rw [hi, Nat.zero_add] at t1 t10
  rw [ho, Nat.zero_add] at t2 t10
  have hl : q.line = [] := by simp [WinConsole.line, hi, firstN_zero]
  rw [hl, List.nil_append] at t3
  have hoob1 : (c.1.foldl (keyDown env) q).oob = false := by
    rw [t10 (by unfold BUFSIZE; omega) (by unfold BUFSIZE; omega), hb]
  have hnul : ∀ ch ∈ (c.1.foldl (keyDown env) q).line, ch ≠ NUL := by
    intro ch hch
    rw [t3] at hch
    obtain ⟨k, hk', rfl⟩ := List.mem_map.mp hch
    exact (hins k hk').1
  obtain ⟨n1, n2, n3, n4, n5, _, _, n8⟩ :=
    enter_spec env (c.1.foldl (keyDown env) q) (by rw [t1]; unfold BUFSIZE; omega)
      (by rw [t2]; unfold BUFSIZE; omega) hnul
  rw [List.foldl_append, List.foldl_cons, List.foldl_nil, keyDown_enter env _ c.2 hE]
  refine ⟨?_, n1, n2, n8.trans hoob1, ?_, ?_, ?_⟩
  · rw [tightRun_append]
    refine ⟨tightRun_typing env c.1 q hins hb (by rw [ho]; unfold BUFSIZE; omega)
      (by rw [hi]; unfold BUFSIZE; omega), ?_⟩
    refine ⟨⟨by rw [t2]; unfold BUFSIZE; omega, hoob1⟩, ?_⟩
    rw [keyDown_enter env _ c.2 hE]
    exact ⟨by rw [n2]; unfold BUFSIZE; omega, n8.trans hoob1⟩
  · rw [n4, t6]
  · rw [n3, t3, t5, t6]
  · rw [n5, t7, t3]

end Poll

theorem commitKeys_cons (c : Commit) (cs : List Commit) :
    commitKeys (c :: cs) = (c.1 ++ [c.2]) ++ commitKeys cs := by
  simp [commitKeys]

theorem commitSlot_of_lt (i : Nat) (h : i < MAX_CMDS) : commitSlot i = i := by
  unfold commitSlot
  rw [if_neg (by omega)]

namespace Poll

/-- A sequence of committed lines in the loop, entered with an empty line buffer
and an empty batch, while the cursor stays inside the ring. -/
theorem commits_loop (env : Env) (commits : List Commit) : ∀ (q : Poll),
    (∀ c ∈ commits, ShortCommit c) → q.inpos = 0 → q.outpos = 0 → q.oob = false →
    q.iCmdIndex + commits.length ≤ MAX_CMDS →
    TightRun env q (commitKeys commits) ∧
    ((commitKeys commits).foldl (keyDown env) q).inpos = 0 ∧
    ((commitKeys commits).foldl (keyDown env) q).outpos = 0 ∧
    ((commitKeys commits).foldl (keyDown env) q).oob = false ∧
    ((commitKeys commits).foldl (keyDown env) q).iCmdIndex = q.iCmdIndex + commits.length ∧
    (∀ j, j < commits.length → (committedLines commits)[j]?
      = some (((commitKeys commits).foldl (keyDown env) q).rgCmds (q.iCmdIndex + j))) ∧
    (∀ i, (i < q.iCmdIndex ∨ q.iCmdIndex + commits.length ≤ i) →
      ((commitKeys commits).foldl (keyDown env) q).rgCmds i = q.rgCmds i) ∧
    posted ((commitKeys commits).foldl (keyDown env) q).log
      = posted q.log ++ committedLines commits := by
  induction commits with
  | nil =>
    intro q _ hi ho hb _
    refine ⟨⟨by rw [ho]; decide, hb⟩, hi, ho, hb, rfl, ?_, ?_, ?_⟩
    · intro j hj
      simp at hj
    · intro i _
      rfl
    · simp [commitKeys, committedLines]
  | cons c cs ih =>
    intro q hc hi ho hb hidx
    simp only [List.length_cons] at hidx
    have hc1 : ShortCommit c := hc c (List.mem_cons_self _ _)
    have hcs : ∀ c' ∈ cs, ShortCommit c' := fun c' h => hc c' (List.mem_cons_of_mem _ h)
    obtain ⟨a1, a2, a3, a4, a5, a6, a7⟩ := commit_loop env q c hc1 hi ho hb
    rw [commitSlot_of_lt q.iCmdIndex (by omega)] at a5 a6
    obtain ⟨b1, b2, b3, b4, b5, b6, b7, b8⟩ :=
      ih ((c.1 ++ [c.2]).foldl (keyDown env) q) hcs a2 a3 a4 (by rw [a5]; omega)
    rw [a5] at b5 b6 b7
    rw [commitKeys_cons, List.foldl_append]
    refine ⟨(tightRun_append env _ _ q).mpr ⟨a1, b1⟩, b2, b3, b4, ?_, ?_, ?_, ?_⟩
    · rw [b5, List.length_cons]; omega
    · intro j hj
      cases j with
      | zero =>
        rw [Nat.add_zero, b7 q.iCmdIndex (Or.inl (by omega)), a6]
        simp [committedLines]
      | succ j =>
        simp only [List.length_cons] at hj
        have := b6 j (by omega)
        rw [show q.iCmdIndex + 1 + j = q.iCmdIndex + (j + 1) by omega] at this
        rw [← this]
        simp [committedLines]
    · intro i hi'
      simp only [List.length_cons] at hi'
      rw [b7 i (by omega), a6]
      have : i ≠ q.iCmdIndex := by omega
      simp [this]
    · rw [b8, a7]
      simp [committedLines]

end Poll

namespace Poll

/-- One Up key-down in the loop, on a ring whose first `n` slots hold non-empty
commands of at most 127 characters and whose other slots are empty. -/
theorem up_loop_step (env : Env) (q : Poll) (u : KEY_EVENT_RECORD) (n : Nat) (hU : IsUp u)
    (hn : n < MAX_CMDS)
    (hfull : ∀ j, j < n → q.rgCmds j ≠ [] ∧ (q.rgCmds j).length ≤ 127)
    (hrest : ∀ j, n ≤ j → j < MAX_CMDS → q.rgCmds j = [])
    (hidx : q.iCmdIndex ≤ n) (hin : q.inpos ≤ 127) (ht : Tight q)
    (hline : q.iCmdIndex < n → q.line = q.rgCmds q.iCmdIndex) :
    (keyDown env q u).iCmdIndex = q.iCmdIndex - 1 ∧
    (keyDown env q u).rgCmds = q.rgCmds ∧
    (keyDown env q u).inpos ≤ 127 ∧
    Tight (keyDown env q u) ∧
    (0 < n → (keyDown env q u).line = q.rgCmds (keyDown env q u).iCmdIndex) ∧
    posted (keyDown env q u).log = posted q.log := by
  unfold MAX_CMDS at hn
  rw [keyDown_up env q u hU.1 hU.2]
  by_cases h0 : q.iCmdIndex = 0
  · have hprev : prevSlot q.iCmdIndex = 31 := by rw [h0]; rfl
    have hempty : q.rgCmds (prevSlot q.iCmdIndex) = [] := by
      rw [hprev]
      exact hrest 31 (by omega) (by decide)
    rw [upArrow_of_empty q (by rw [h0]; decide) hempty, h0]
    refine ⟨rfl, rfl, hin, ht, ?_, rfl⟩
    intro hpos
    have := hline (by omega)
    rw [h0] at this
    exact this
  · have hprev : prevSlot q.iCmdIndex = q.iCmdIndex - 1 := by
      unfold prevSlot
      rw [if_neg h0]
    have hslot := hfull (q.iCmdIndex - 1) (by omega)
    rw [upArrow_of_nonempty q (by unfold MAX_CMDS; omega) (by rw [hprev]; exact hslot.1), hprev]
    obtain ⟨r1, r2, r3, _, r5, r6, r7, _, _, r10⟩ :=
      redraw_spec (q.rgCmds (q.iCmdIndex - 1)) { q with iCmdIndex := q.iCmdIndex - 1 }
    have hq : ({ q with iCmdIndex := q.iCmdIndex - 1 } : Poll).inpos = q.inpos := rfl
    rw [hq] at r3 r10
    refine ⟨r6, r5, by rw [r1]; exact hslot.2, ⟨?_, ?_⟩, ?_, congrArg posted r7⟩
    · rw [r3]; unfold BUFSIZE; omega
    · rw [r10 (by unfold BUFSIZE; omega)]; exact ht.2
    · intro _
      rw [r2, r6]

/-- A run of Up key-downs in the loop. -/
theorem ups_loop (env : Env) (ups : List KEY_EVENT_RECORD) (n : Nat) (hn : n < MAX_CMDS)
    (rg : Nat → List Char)
    (hfull : ∀ j, j < n → rg j ≠ [] ∧ (rg j).length ≤ 127)
    (hrest : ∀ j, n ≤ j → j < MAX_CMDS → rg j = []) : ∀ (q : Poll),
    (∀ u ∈ ups, IsUp u) → q.rgCmds = rg → q.iCmdIndex ≤ n → q.inpos ≤ 127 → Tight q →
    (q.iCmdIndex < n → q.line = rg q.iCmdIndex) →
    TightRun env q ups ∧
    (ups.foldl (keyDown env) q).iCmdIndex = q.iCmdIndex - ups.length ∧
    (ups.foldl (keyDown env) q).rgCmds = rg ∧
    Tight (ups.foldl (keyDown env) q) ∧
    (0 < n → 0 < ups.length →
      (ups.foldl (keyDown env) q).line = rg (q.iCmdIndex - ups.length)) ∧
    posted (ups.foldl (keyDown env) q).log = posted q.log := by
  induction ups with
  | nil =>
    intro q _ hrg _ _ ht _
    exact ⟨ht, rfl, hrg, ht, fun _ h => absurd h (by simp), rfl⟩
  | cons u us ih =>
    intro q hU hrg hidx hin ht hline
    subst hrg
    obtain ⟨s1, s2, s3, s4, s5, s6⟩ :=
      up_loop_step env q u n (hU u (List.mem_cons_self _ _)) hn hfull hrest hidx hin ht hline
    obtain ⟨i1, i2, i3, i4, i5, i6⟩ :=
      ih (keyDown env q u) (fun u' h => hU u' (List.mem_cons_of_mem _ h)) s2
        (by rw [s1]; omega) s3 s4
        (fun h => by rw [s5 (by omega), s1])
    rw [List.foldl_cons]
    refine ⟨⟨ht, i1⟩, ?_, i3, i4, ?_, i6.trans s6⟩
    · rw [i2, s1, List.length_cons]; omega
    · intro hpos _
      by_cases hus : 0 < us.length
      · rw [i5 hpos hus, s1, List.length_cons]
        congr 1
        omega
      · have hnil : us = [] := List.length_eq_zero.mp (by omega)
        subst hnil
        rw [List.foldl_nil, s5 hpos, s1]
        rfl

end Poll

theorem committedLines_length (commits : List Commit) :
    (committedLines commits).length = commits.length := by
  simp [committedLines]

theorem committedLines_short (commits : List Commit) (hc : ∀ c ∈ commits, ShortCommit c)
    (j : Nat) (L : List Char) (h : (committedLines commits)[j]? = some L) :
    L ≠ [] ∧ L.length ≤ 127 := by
  have hmem : L ∈ committedLines commits := List.getElem?_mem h
  obtain ⟨c, hcm, rfl⟩ := List.mem_map.mp hmem
  obtain ⟨_, h2, h3, _⟩ := hc c hcm
  refine ⟨?_, by simpa using h3⟩
  intro h0
  have := congrArg List.length h0
  simp at this
  rw [this] at h2
  simp at h2

set_option maxRecDepth 1000000 in
/-- C3 as stated fails in three ways. With `N = 32` lines `A`, …, `Z`, `A`, …, `F`
the ring is full: 32 Up key-downs end on the oldest line `A`, and the next Up
wraps to slot 31 and shows the newest line `F` instead of staying on `A`. With
the two lines `a` and the empty line, the empty line in slot 1 stops the recall:
after two Up key-downs the line buffer is still empty, not `a`. With two lines
of 128 characters, the second Up erases 128 characters and draws 128, which
fills all 512 bytes of `outbuf`, and the flush writes its terminator past the
array. -/
theorem C3_as_stated_fails :
    ((WinConsole.run sampleEnv (WinConsole.fresh sampleEnv sampleRaw)
      (letterPolls 32 ++ upPolls 32)).line = ['A'] ∧
     (WinConsole.run sampleEnv (WinConsole.fresh sampleEnv sampleRaw)
      (letterPolls 32 ++ upPolls 33)).line = ['F'] ∧
     (WinConsole.run sampleEnv (WinConsole.fresh sampleEnv sampleRaw)
      (letterPolls 32 ++ upPolls 33)).line ≠ ['A'] ∧
     (WinConsole.run sampleEnv (WinConsole.fresh sampleEnv sampleRaw)
      (letterPolls 32 ++ upPolls 33)).oob = false) ∧
    ((WinConsole.run sampleEnv (WinConsole.fresh sampleEnv sampleRaw)
      [[charKey 'a' 65 0, charKey CR 13 0], [charKey CR 13 0]]).rgCmds 0 = ['a'] ∧
     (WinConsole.run sampleEnv (WinConsole.fresh sampleEnv sampleRaw)
      [[charKey 'a' 65 0, charKey CR 13 0], [charKey CR 13 0]]).rgCmds 1 = [] ∧
     (WinConsole.run sampleEnv (WinConsole.fresh sampleEnv sampleRaw)
      ([[charKey 'a' 65 0, charKey CR 13 0], [charKey CR 13 0]] ++ upPolls 2)).line = [] ∧
     (WinConsole.run sampleEnv (WinConsole.fresh sampleEnv sampleRaw)
      ([[charKey 'a' 65 0, charKey CR 13 0], [charKey CR 13 0]] ++ upPolls 2)).line
        ≠ ['a']) ∧
    ((WinConsole.run sampleEnv (WinConsole.fresh sampleEnv sampleRaw)
      (typedPolls 128 ++ [[charKey CR 13 0]] ++ typedPolls 128 ++ [[charKey CR 13 0]]
        ++ upPolls 1)).oob = false ∧
     (WinConsole.run sampleEnv (WinConsole.fresh sampleEnv sampleRaw)
      (typedPolls 128 ++ [[charKey CR 13 0]] ++ typedPolls 128 ++ [[charKey CR 13 0]]
        ++ upPolls 1)).inpos = 128 ∧
     (WinConsole.run sampleEnv (WinConsole.fresh sampleEnv sampleRaw)
      (typedPolls 128 ++ [[charKey CR 13 0]] ++ typedPolls 128 ++ [[charKey CR 13 0]]
        ++ upPolls 2)).oob = true) := by
  decide

set_option maxRecDepth 100000 in
/-- C4 at its failing input: after 64 committed lines on a fresh console the
cursor is 32, one past the last slot, because Enter increments it without
wrapping (the wrap is done before the next write). Nothing has left an array so
far. A Down key-down now evaluates `rgCmds[32][0]`, outside the ring. -/
theorem C4_down_reads_past_the_ring :
    (WinConsole.run sampleEnv (WinConsole.fresh sampleEnv sampleRaw)
      (letterPolls 64)).iCmdIndex = MAX_CMDS ∧
    (WinConsole.run sampleEnv (WinConsole.fresh sampleEnv sampleRaw)
      (letterPolls 64)).oob = false ∧
    (WinConsole.run sampleEnv (WinConsole.fresh sampleEnv sampleRaw)
      (letterPolls 64)).rgCmds 31 = ['L'] ∧
    (WinConsole.run sampleEnv (WinConsole.fresh sampleEnv sampleRaw)
      (letterPolls 64 ++ downPolls)).oob = true := by
  decide

/-! ## The history ring, whatever the batch holds -/

theorem SameCore.symm {a b : WinConsole} (h : SameCore a b) : SameCore b a :=
  ⟨h.enabled.symm, h.inbuf.symm, h.inpos.symm, h.lineOutput.symm, h.rgCmds.symm,
    h.iCmdIndex.symm, h.posted.symm⟩

/-- The loop changes the console, up to printed texts and the bounds flag, in a
way that does not depend on the batch. -/
theorem SameCore.loop (env : Env) (kes : List KEY_EVENT_RECORD) {p q : Poll}
    (h : SameCore p.toWinConsole q.toWinConsole) :
    SameCore (kes.foldl (Poll.keyDown env) p).toWinConsole
      (kes.foldl (Poll.keyDown env) q).toWinConsole := by
  -- both are covered by the loop run from a state that has every byte of both batched
  -- and the bounds flag raised
  have hp : Covered p { q with oob := true, outpos := p.outpos + q.outpos } :=
    ⟨⟨h.enabled, h.inbuf, h.inpos, h.lineOutput, h.rgCmds, h.iCmdIndex, h.posted⟩,
      Nat.le_add_right _ _, fun hq => absurd hq (by simp)⟩
  have hq : Covered q { q with oob := true, outpos := p.outpos + q.outpos } :=
    ⟨⟨rfl, rfl, rfl, rfl, rfl, rfl, rfl⟩, Nat.le_add_left _ _,
      fun hq => absurd hq (by simp)⟩
  exact (Covered.foldl env kes hp).core.trans (Covered.foldl env kes hq).core.symm

namespace WinConsole

/-- Polls against one uninterrupted loop, for the console up to printed texts
and the bounds flag: the split into polls does not matter. -/
theorem run_core (env : Env) (polls : List (List INPUT_RECORD)) :
    ∀ (s : WinConsole) (q : Poll), s.winConsoleEnabled = true →
    (∀ b ∈ polls, b.length ≤ 20) → SameCore s q.toWinConsole →
    SameCore (run env s polls)
      ((keyDowns polls.flatten).foldl (Poll.keyDown env) q).toWinConsole := by
  induction polls with
  | nil =>
    intro s q _ _ hc
    exact hc
  | cons b bs ih =>
    intro s q hen hsz hc
    have hb : b.length ≤ 20 := hsz b (List.mem_cons_self _ _)
    have hbs : ∀ b' ∈ bs, b'.length ≤ 20 := fun b' h => hsz b' (List.mem_cons_of_mem _ h)
    rw [List.flatten_cons, keyDowns_append, List.foldl_append, run_cons,
      process_eq env s b hen hb]
    have hcore : SameCore ((keyDowns b).foldl (Poll.keyDown env) (Poll.start env s)).toWinConsole
        ((keyDowns b).foldl (Poll.keyDown env) q).toWinConsole :=
      SameCore.loop env (keyDowns b) hc
    obtain ⟨g1, g2, _, g4, g5, g6, g7, g8, _⟩ :=
      Poll.finish_spec ((keyDowns b).foldl (Poll.keyDown env) (Poll.start env s))
    apply ih
    · rw [g7, Poll.foldl_keyDown_enabled]
      exact hen
    · exact hbs
    · exact ⟨g7.trans hcore.enabled, g2.trans hcore.inbuf, g1.trans hcore.inpos,
        g8.trans hcore.lineOutput, g4.trans hcore.rgCmds, g5.trans hcore.iCmdIndex,
        g6.trans hcore.posted⟩

end WinConsole

namespace Poll

/-- What Enter does to the console when the line buffer holds no NUL and
`inbuf` has room for the terminator, whatever the batch holds. -/
theorem enter_core (env : Env) (p : Poll) (hi : p.inpos < BUFSIZE)
    (hn : ∀ c ∈ p.line, c ≠ NUL) :
    (p.enter env).inpos = 0 ∧
    (p.enter env).outpos = 0 ∧
    (p.enter env).rgCmds
      = (fun i => if i = commitSlot p.iCmdIndex then p.line else p.rgCmds i) ∧
    (p.enter env).iCmdIndex = commitSlot p.iCmdIndex + 1 ∧
    posted (p.enter env).log = posted p.log ++ [p.line] := by
  have hc : cstr (setAt p.inbuf p.inpos NUL) = p.line := cstr_setAt_NUL p.inbuf p.inpos hi hn
  refine ⟨rfl, rfl, ?_, ?_, ?_⟩
  · simp only [enter, emit, commitSlot]
    rw [hc]
  · simp only [enter, emit, commitSlot]
  · simp only [enter, emit, posted_append, hc]
    simp [posted]

/-- One committed line in the loop, entered with an empty line buffer. -/
theorem commit_core (env : Env) (q : Poll) (c : Commit) (hc : TypedCommit c)
    (hi : q.inpos = 0) :
    ((c.1 ++ [c.2]).foldl (keyDown env) q).inpos = 0 ∧
    ((c.1 ++ [c.2]).foldl (keyDown env) q).iCmdIndex = commitSlot q.iCmdIndex + 1 ∧
    ((c.1 ++ [c.2]).foldl (keyDown env) q).rgCmds
      = (fun i => if i = commitSlot q.iCmdIndex then c.1.map KEY_EVENT_RECORD.AsciiChar
          else q.rgCmds i) ∧
    posted ((c.1 ++ [c.2]).foldl (keyDown env) q).log
      = posted q.log ++ [c.1.map KEY_EVENT_RECORD.AsciiChar] := by
  obtain ⟨hpr, _, hlen, hE⟩ := hc
  have hins : ∀ k ∈ c.1, Inserted k.AsciiChar := hpr
  obtain ⟨t1, _, t3, _, t5, t6, t7, _, _, _⟩ := foldl_typing env c.1 q hins
  rw [hi, Nat.zero_add] at t1
  have hl : q.line = [] := by simp [WinConsole.line, hi, firstN_zero]
  rw [hl, List.nil_append] at t3
  have hnul : ∀ ch ∈ (c.1.foldl (keyDown env) q).line, ch ≠ NUL := by
    intro ch hch
    rw [t3] at hch
    obtain ⟨k, hk', rfl⟩ := List.mem_map.mp hch
    exact (hins k hk').1
  obtain ⟨n1, _, n3, n4, n5⟩ :=
    enter_core env (c.1.foldl (keyDown env) q) (by rw [t1]; exact hlen) hnul
  rw [List.foldl_append, List.foldl_cons, List.foldl_nil, keyDown_enter env _ c.2 hE]
  refine ⟨n1, ?_, ?_, ?_⟩
  · rw [n4, t6]
  · rw [n3, t3, t5, t6]
  · rw [n5, t7, t3]

/-- A sequence of committed lines in the loop, entered with an empty line
buffer, while the cursor stays inside the ring. -/
theorem commits_core (env : Env) (commits : List Commit) : ∀ (q : Poll),
    (∀ c ∈ commits, TypedCommit c) → q.inpos = 0 →
    q.iCmdIndex + commits.length ≤ MAX_CMDS →
    ((commitKeys commits).foldl (keyDown env) q).inpos = 0 ∧
    ((commitKeys commits).foldl (keyDown env) q).iCmdIndex = q.iCmdIndex + commits.length ∧
    (∀ j, j < commits.length → (committedLines commits)[j]?
      = some (((commitKeys commits).foldl (keyDown env) q).rgCmds (q.iCmdIndex + j))) ∧
    (∀ i, (i < q.iCmdIndex ∨ q.iCmdIndex + commits.length ≤ i) →
      ((commitKeys commits).foldl (keyDown env) q).rgCmds i = q.rgCmds i) ∧
    posted ((commitKeys commits).foldl (keyDown env) q).log
      = posted q.log ++ committedLines commits := by
  induction commits with
  | nil =>
    intro q _ hi _
    refine ⟨hi, rfl, ?_, ?_, ?_⟩
    · intro j hj
      simp at hj
    · intro i _
      rfl
    · simp [commitKeys, committedLines]
  | cons c cs ih =>
    intro q hc hi hidx
    simp only [List.length_cons] at hidx
    have hc1 : TypedCommit c := hc c (List.mem_cons_self _ _)
    have hcs : ∀ c' ∈ cs, TypedCommit c' := fun c' h => hc c' (List.mem_cons_of_mem _ h)
    obtain ⟨a2, a5, a6, a7⟩ := commit_core env q c hc1 hi
    rw [commitSlot_of_lt q.iCmdIndex (by omega)] at a5 a6
    obtain ⟨b2, b5, b6, b7, b8⟩ :=
      ih ((c.1 ++ [c.2]).foldl (keyDown env) q) hcs a2 (by rw [a5]; omega)
    rw [a5] at b5 b6 b7
    rw [commitKeys_cons, List.foldl_append]
    refine ⟨b2, ?_, ?_, ?_, ?_⟩
    · rw [b5, List.length_cons]; omega
    · intro j hj
      cases j with
      | zero =>
        rw [Nat.add_zero, b7 q.iCmdIndex (Or.inl (by omega)), a6]
        simp [committedLines]
      | succ j =>
        simp only [List.length_cons] at hj
        have := b6 j (by omega)
        rw [show q.iCmdIndex + 1 + j = q.iCmdIndex + (j + 1) by omega] at this
        rw [← this]
        simp [committedLines]
    · intro i hi'
      simp only [List.length_cons] at hi'
      rw [b7 i (by omega), a6]
      have : i ≠ q.iCmdIndex := by omega
      simp [this]
    · rw [b8, a7]
      simp [committedLines]

/-- One Up key-down in the loop, on a ring whose first `n` slots hold commands
and whose other slots are empty. -/
theorem up_core_step (env : Env) (q : Poll) (u : KEY_EVENT_RECORD) (n : Nat) (hU : IsUp u)
    (hn : n < MAX_CMDS)
    (hfull : ∀ j, j < n → q.rgCmds j ≠ [])
    (hrest : ∀ j, n ≤ j → j < MAX_CMDS → q.rgCmds j = [])
    (hidx : q.iCmdIndex ≤ n)
    (hline : q.iCmdIndex < n → q.line = q.rgCmds q.iCmdIndex) :
    (keyDown env q u).iCmdIndex = q.iCmdIndex - 1 ∧
    (keyDown env q u).rgCmds = q.rgCmds ∧
    (0 < n → (keyDown env q u).line = q.rgCmds (keyDown env q u).iCmdIndex) ∧
    posted (keyDown env q u).log = posted q.log := by
  unfold MAX_CMDS at hn
  rw [keyDown_up env q u hU.1 hU.2]
  by_cases h0 : q.iCmdIndex = 0
  · have hprev : prevSlot q.iCmdIndex = 31 := by rw [h0]; rfl
    have hempty : q.rgCmds (prevSlot q.iCmdIndex) = [] := by
      rw [hprev]
      exact hrest 31 (by omega) (by decide)
    rw [upArrow_of_empty q (by rw [h0]; decide) hempty, h0]
    refine ⟨rfl, rfl, ?_, rfl⟩
    intro hpos
    have := hline (by omega)
    rw [h0] at this
    exact this
  · have hprev : prevSlot q.iCmdIndex = q.iCmdIndex - 1 := by
      unfold prevSlot
      rw [if_neg h0]
    have hslot := hfull (q.iCmdIndex - 1) (by omega)
    rw [upArrow_of_nonempty q (by unfold MAX_CMDS; omega) (by rw [hprev]; exact hslot), hprev]
    obtain ⟨_, r2, _, _, r5, r6, r7, _, _, _⟩ :=
      redraw_spec (q.rgCmds (q.iCmdIndex - 1)) { q with iCmdIndex := q.iCmdIndex - 1 }
    refine ⟨r6, r5, ?_, congrArg posted r7⟩
    intro _
    rw [r2, r6]

/-- A run of Up key-downs in the loop. -/
theorem ups_core (env : Env) (ups : List KEY_EVENT_RECORD) (n : Nat) (hn : n < MAX_CMDS)
    (rg : Nat → List Char)
    (hfull : ∀ j, j < n → rg j ≠ [])
    (hrest : ∀ j, n ≤ j → j < MAX_CMDS → rg j = []) : ∀ (q : Poll),
    (∀ u ∈ ups, IsUp u) → q.rgCmds = rg → q.iCmdIndex ≤ n →
    (q.iCmdIndex < n → q.line = rg q.iCmdIndex) →
    (ups.foldl (keyDown env) q).iCmdIndex = q.iCmdIndex - ups.length ∧
    (ups.foldl (keyDown env) q).rgCmds = rg ∧
    (0 < n → 0 < ups.length →
      (ups.foldl (keyDown env) q).line = rg (q.iCmdIndex - ups.length)) ∧
    posted (ups.foldl (keyDown env) q).log = posted q.log := by
  induction ups with
  | nil =>
    intro q _ hrg _ _
    exact ⟨rfl, hrg, fun _ h => absurd h (by simp), rfl⟩
  | cons u us ih =>
    intro q hU hrg hidx hline
    subst hrg
    obtain ⟨s1, s2, s5, s6⟩ :=
      up_core_step env q u n (hU u (List.mem_cons_self _ _)) hn hfull hrest hidx hline
    obtain ⟨i2, i3, i5, i6⟩ :=
      ih (keyDown env q u) (fun u' h => hU u' (List.mem_cons_of_mem _ h)) s2
        (by rw [s1]; omega)
        (fun h => by rw [s5 (by omega), s1])
    rw [List.foldl_cons]
    refine ⟨?_, i3, ?_, i6.trans s6⟩
    · rw [i2, s1, List.length_cons]; omega
    · intro hpos _
      by_cases hus : 0 < us.length
      · rw [i5 hpos hus, s1, List.length_cons]
        congr 1
        omega
      · have hnil : us = [] := List.length_eq_zero.mp (by omega)
        subst hnil
        rw [List.foldl_nil, s5 hpos, s1]
        rfl

end Poll

theorem committedLines_nonempty (commits : List Commit) (hc : ∀ c ∈ commits, TypedCommit c)
    (j : Nat) (L : List Char) (h : (committedLines commits)[j]? = some L) : L ≠ [] := by
  have hmem : L ∈ committedLines commits := List.getElem?_mem h
  obtain ⟨c, hcm, rfl⟩ := List.mem_map.mp hmem
  obtain ⟨_, h2, _, _⟩ := hc c hcm
  intro h0
  have := congrArg List.length h0
  simp at this
  rw [this] at h2
  simp at h2

namespace Poll

/-- One Up key-down in the loop with the cursor at 1 or more, on a ring whose
slots below `n` hold non-empty commands of at most 127 characters. The cursor
may be `MAX_CMDS`, where a commit into the last slot leaves it. -/
theorem up_within_step (env : Env) (q : Poll) (u : KEY_EVENT_RECORD) (n : Nat) (hU : IsUp u)
    (hn : n ≤ MAX_CMDS)
    (hfull : ∀ j, j < n → q.rgCmds j ≠ [] ∧ (q.rgCmds j).length ≤ 127)
    (hpos : 1 ≤ q.iCmdIndex) (hidx : q.iCmdIndex ≤ n) (hin : q.inpos ≤ 127) (ht : Tight q) :
    (keyDown env q u).iCmdIndex = q.iCmdIndex - 1 ∧
    (keyDown env q u).rgCmds = q.rgCmds ∧
    (keyDown env q u).inpos ≤ 127 ∧
    Tight (keyDown env q u) ∧
    (keyDown env q u).line = q.rgCmds (q.iCmdIndex - 1) ∧
    posted (keyDown env q u).log = posted q.log := by
  rw [keyDown_up env q u hU.1 hU.2]
  have h0 : q.iCmdIndex ≠ 0 := by omega
  have hprev : prevSlot q.iCmdIndex = q.iCmdIndex - 1 := by
    unfold prevSlot
    rw [if_neg h0]
  have hslot := hfull (q.iCmdIndex - 1) (by omega)
  rw [upArrow_of_nonempty q (by omega) (by rw [hprev]; exact hslot.1), hprev]
  obtain ⟨r1, r2, r3, _, r5, r6, r7, _, _, r10⟩ :=
    redraw_spec (q.rgCmds (q.iCmdIndex - 1)) { q with iCmdIndex := q.iCmdIndex - 1 }
  have hq : ({ q with iCmdIndex := q.iCmdIndex - 1 } : Poll).inpos = q.inpos := rfl
  rw [hq] at r3 r10
  refine ⟨r6, r5, by rw [r1]; exact hslot.2, ⟨?_, ?_⟩, r2, congrArg posted r7⟩
  · rw [r3]; unfold BUFSIZE; omega
  · rw [r10 (by unfold BUFSIZE; omega)]; exact ht.2

/-- A run of Up key-downs in the loop that does not go below slot 0. -/
theorem ups_within (env : Env) (ups : List KEY_EVENT_RECORD) (n : Nat) (hn : n ≤ MAX_CMDS)
    (rg : Nat → List Char)
    (hfull : ∀ j, j < n → rg j ≠ [] ∧ (rg j).length ≤ 127) : ∀ (q : Poll),
    (∀ u ∈ ups, IsUp u) → q.rgCmds = rg → q.iCmdIndex ≤ n → ups.length ≤ q.iCmdIndex →
    q.inpos ≤ 127 → Tight q →
    TightRun env q ups ∧
    (ups.foldl (keyDown env) q).iCmdIndex = q.iCmdIndex - ups.length ∧
    (ups.foldl (keyDown env) q).rgCmds = rg ∧
    Tight (ups.foldl (keyDown env) q) ∧
    (0 < ups.length →
      (ups.foldl (keyDown env) q).line = rg (q.iCmdIndex - ups.length)) ∧
    posted (ups.foldl (keyDown env) q).log = posted q.log := by
  induction ups with
  | nil =>
    intro q _ hrg _ _ _ ht
    exact ⟨ht, rfl, hrg, ht, fun h => absurd h (by simp), rfl⟩
  | cons u us ih =>
    intro q hU hrg hidx hlen hin ht
    subst hrg
    simp only [List.length_cons] at hlen
    obtain ⟨s1, s2, s3, s4, s5, s6⟩ :=
      up_within_step env q u n (hU u (List.mem_cons_self _ _)) hn hfull (by omega) hidx hin ht
    obtain ⟨i1, i2, i3, i4, i5, i6⟩ :=
      ih (keyDown env q u) (fun u' h => hU u' (List.mem_cons_of_mem _ h)) s2
        (by rw [s1]; omega) (by rw [s1]; omega) s3 s4
    rw [List.foldl_cons]
    refine ⟨⟨ht, i1⟩, ?_, i3, i4, ?_, i6.trans s6⟩
    · rw [i2, s1, List.length_cons]; omega
    · intro _
      by_cases hus : 0 < us.length
      · rw [i5 hus, s1, List.length_cons]
        congr 1
        omega
      · have hnil : us = [] := List.length_eq_zero.mp (by omega)
        subst hnil
        rw [List.foldl_nil, s5]
        rfl

end Poll

/-- C3, amended: on a freshly constructed, enabled console, after `N` committed
lines with `1 ≤ N ≤ MAX_CMDS`, each non-empty and of at most 127 inserted
characters, the `k`-th of `k ≤ N` consecutive Up key-downs leaves the line
buffer on the line committed `k`-th to last (line number `N - k`, counted from
0), so the lines come back in reverse order. When `N < MAX_CMDS`, every Up after
the `N`-th leaves the oldest line. In both cases the line shown is never empty
and no array is left on the way. The events may arrive in any number of polls
of at most 20 records. -/
theorem C3_recall_in_reverse_order (env : Env) (raw : WinConsole) (commits : List Commit)
    (ups : List KEY_EVENT_RECORD) (polls : List (List INPUT_RECORD))
    (hN1 : 1 ≤ commits.length) (hN : commits.length ≤ MAX_CMDS)
    (hc : ∀ c ∈ commits, ShortCommit c) (hU : ∀ u ∈ ups, IsUp u) (hk : 1 ≤ ups.length)
    (hcase : ups.length ≤ commits.length ∨ commits.length < MAX_CMDS)
    (hsz : ∀ b ∈ polls, b.length ≤ 20)
    (hkeys : keyDowns polls.flatten = commitKeys commits ++ ups) :
    (committedLines commits)[commits.length - min ups.length commits.length]?
      = some (WinConsole.run env (WinConsole.fresh env raw) polls).line ∧
    (WinConsole.run env (WinConsole.fresh env raw) polls).line ≠ [] ∧
    (WinConsole.run env (WinConsole.fresh env raw) polls).oob = false := by
  obtain ⟨f1, f2, _, f4, f5, _, f7, _⟩ := WinConsole.fresh_spec env raw
  have q0i : (Poll.start env (WinConsole.fresh env raw)).iCmdIndex = 0 := f4
  have hsub : commits.length - min ups.length commits.length = commits.length - ups.length := by
    omega
  obtain ⟨t1, t2, _, _, t5, t6, t7, _⟩ :=
    Poll.commits_loop env commits (Poll.start env (WinConsole.fresh env raw)) hc f2 rfl f7
      (by rw [q0i]; omega)
  simp only [q0i, Nat.zero_add] at t5 t6
  rw [q0i, Nat.zero_add] at t7
  have hfull : ∀ j, j < commits.length →
      ((commitKeys commits).foldl (Poll.keyDown env)
        (Poll.start env (WinConsole.fresh env raw))).rgCmds j ≠ [] ∧
      (((commitKeys commits).foldl (Poll.keyDown env)
        (Poll.start env (WinConsole.fresh env raw))).rgCmds j).length ≤ 127 :=
    fun j hj => committedLines_short commits hc j _ (t6 j hj)
  have hloop : TightRun env
        ((commitKeys commits).foldl (Poll.keyDown env) (Poll.start env (WinConsole.fresh env raw)))
        ups ∧
      (ups.foldl (Poll.keyDown env) ((commitKeys commits).foldl (Poll.keyDown env)
        (Poll.start env (WinConsole.fresh env raw)))).line
        = ((commitKeys commits).foldl (Poll.keyDown env)
            (Poll.start env (WinConsole.fresh env raw))).rgCmds (commits.length - ups.length) := by
    by_cases hle : ups.length ≤ commits.length
    · obtain ⟨u1, _, _, _, u5, _⟩ :=
        Poll.ups_within env ups commits.length hN _ hfull
          ((commitKeys commits).foldl (Poll.keyDown env)
            (Poll.start env (WinConsole.fresh env raw)))
          hU rfl (by rw [t5]) (by rw [t5]; exact hle) (by rw [t2]; omega) (t1.last)
      rw [t5] at u5
      exact ⟨u1, u5 (by omega)⟩
    · have hlt : commits.length < MAX_CMDS := by
        rcases hcase with h | h
        · exact absurd h hle
        · exact h
      have hrest : ∀ j, commits.length ≤ j → j < MAX_CMDS →
          ((commitKeys commits).foldl (Poll.keyDown env)
            (Poll.start env (WinConsole.fresh env raw))).rgCmds j = [] := by
        intro j hj hj'
        rw [t7 j (Or.inr hj)]
        exact f5 j hj'
      obtain ⟨u1, _, _, _, u5, _⟩ :=
        Poll.ups_loop env ups commits.length hlt _ hfull hrest
          ((commitKeys commits).foldl (Poll.keyDown env)
            (Poll.start env (WinConsole.fresh env raw)))
          hU rfl (by rw [t5]) (by rw [t2]; omega) (t1.last)
          (fun h => by rw [t5] at h; omega)
      rw [t5] at u5
      exact ⟨u1, u5 (by omega) (by omega)⟩
  obtain ⟨u1, u5⟩ := hloop
  have ht : TightRun env (Poll.start env (WinConsole.fresh env raw))
      (keyDowns polls.flatten) := by
    rw [hkeys, tightRun_append]
    exact ⟨t1, u1⟩
  obtain ⟨hcore, hoob⟩ := WinConsole.run_eq_loop env (WinConsole.fresh env raw) polls f1 hsz ht
  have hline := hcore.line
  rw [hkeys, List.foldl_append] at hline
  have hline' : (WinConsole.run env (WinConsole.fresh env raw) polls).line
      = ((commitKeys commits).foldl (Poll.keyDown env)
          (Poll.start env (WinConsole.fresh env raw))).rgCmds
          (commits.length - ups.length) := by
    rw [hline]
    exact u5
  rw [hsub, hline']
  exact ⟨t6 _ (by omega), (hfull _ (by omega)).1, hoob⟩

set_option maxRecDepth 1000000 in
/-- C3 at work: the lines `a` and `b`, then three Up key-downs, in three polls
that cut across the lines, end on the oldest line `a`; and with the ring full,
32 one-letter lines and 32 Up key-downs end on the oldest line `A`. -/
theorem C3_recall_in_reverse_order_witness :
    ((committedLines [([keyRecord 'a' 65 0], keyRecord CR 13 0),
        ([keyRecord 'b' 66 0], keyRecord CR 13 0)])[2 - min 3 2]?
      = some (WinConsole.run sampleEnv (WinConsole.fresh sampleEnv sampleRaw)
          [[charKey 'a' 65 0, charKey CR 13 0, charKey 'b' 66 0],
           [charKey CR 13 0, virtualKey VK_UP 0], [virtualKey VK_UP 0, virtualKey VK_UP 0]]).line ∧
     (WinConsole.run sampleEnv (WinConsole.fresh sampleEnv sampleRaw)
      [[charKey 'a' 65 0, charKey CR 13 0, charKey 'b' 66 0],
       [charKey CR 13 0, virtualKey VK_UP 0], [virtualKey VK_UP 0, virtualKey VK_UP 0]]).line
      ≠ [] ∧
     (WinConsole.run sampleEnv (WinConsole.fresh sampleEnv sampleRaw)
      [[charKey 'a' 65 0, charKey CR 13 0, charKey 'b' 66 0],
       [charKey CR 13 0, virtualKey VK_UP 0], [virtualKey VK_UP 0, virtualKey VK_UP 0]]).oob
      = false) ∧
    ((committedLines (letterCommits 32))[32 - min 32 32]?
      = some (WinConsole.run sampleEnv (WinConsole.fresh sampleEnv sampleRaw)
          (letterPolls 32 ++ upPolls 32)).line ∧
     (WinConsole.run sampleEnv (WinConsole.fresh sampleEnv sampleRaw)
          (letterPolls 32 ++ upPolls 32)).line ≠ [] ∧
     (WinConsole.run sampleEnv (WinConsole.fresh sampleEnv sampleRaw)
          (letterPolls 32 ++ upPolls 32)).oob = false) :=
  ⟨C3_recall_in_reverse_order sampleEnv sampleRaw
    [([keyRecord 'a' 65 0], keyRecord CR 13 0), ([keyRecord 'b' 66 0], keyRecord CR 13 0)]
    [keyRecord NUL VK_UP 0, keyRecord NUL VK_UP 0, keyRecord NUL VK_UP 0]
    [[charKey 'a' 65 0, charKey CR 13 0, charKey 'b' 66 0],
     [charKey CR 13 0, virtualKey VK_UP 0], [virtualKey VK_UP 0, virtualKey VK_UP 0]]
    (by decide) (by decide) (by decide) (by decide) (by decide) (Or.inr (by decide))
    (by decide) rfl,
   C3_recall_in_reverse_order sampleEnv sampleRaw (letterCommits 32)
    (List.replicate 32 (keyRecord NUL VK_UP 0)) (letterPolls 32 ++ upPolls 32)
    (by decide) (by decide) (by decide) (by decide) (by decide) (Or.inl (by decide))
    (by decide) rfl⟩

/-! ## Ignored input -/

namespace Poll

theorem step_of_ignored (env : Env) (p : Poll) (e : INPUT_RECORD) (h : IgnoredRecord e) :
    step env p e = p := by
  cases e with
  | other t => rfl
  | key ke =>
    rcases h with h | ⟨h0, hv⟩
    · simp [step, h]
    · have e1 : ¬ VK_LEFT = VK_UP := by decide
      have e2 : ¬ VK_LEFT = VK_DOWN := by decide
      have e3 : ¬ VK_RIGHT = VK_UP := by decide
      have e4 : ¬ VK_RIGHT = VK_DOWN := by decide
      rcases hv with hv | hv <;> simp [step, keyDown, h0, hv, e1, e2, e3, e4]

theorem foldl_step_of_ignored (env : Env) (b : List INPUT_RECORD) (p : Poll)
    (h : ∀ e ∈ b, IgnoredRecord e) : b.foldl (step env) p = p := by
  induction b with
  | nil => rfl
  | cons e es ih =>
    rw [List.foldl_cons, step_of_ignored env p e (h e (List.mem_cons_self _ _))]
    exact ih (fun e' he => h e' (List.mem_cons_of_mem _ he))

end Poll

/-- C15: ignored input changes nothing. `process` on a disabled console returns
the console as it was, whatever is pending. In the event loop a record that is
not a keyboard event, a key-up record, and a key-down of Left or Right with
character 0 each leave the whole poll state as it was: line buffer, `inpos`,
history ring, cursor, the redraw batch and the trace of calls to the display and
the dispatcher. A poll whose records are all of these kinds, however many,
returns the console unchanged, so it writes nothing at its end either. -/
theorem C15_ignored_input_is_frame (env : Env) (s : WinConsole) (p : Poll)
    (pending b : List INPUT_RECORD) (e : INPUT_RECORD) :
    (s.winConsoleEnabled = false → WinConsole.process env s pending = s) ∧
    (IgnoredRecord e → Poll.step env p e = p) ∧
    ((∀ r ∈ b, IgnoredRecord r) → WinConsole.process env s b = s) := by
  refine ⟨?_, Poll.step_of_ignored env p e, ?_⟩
  · intro h
    simp [WinConsole.process, h]
  · intro h
    unfold WinConsole.process
    have ht : ∀ r ∈ b.take 20, IgnoredRecord r := fun r hr => h r (List.mem_of_mem_take hr)
    rw [Poll.foldl_step_of_ignored env (b.take 20) (Poll.start env s) ht]
    have hf : (Poll.start env s).finish = s := rfl
    rw [hf]
    simp

/-- C15 at work: the disabled console `create sampleRaw` with a pending Enter;
a key-up of `a` during a poll that has `he` batched; and a poll of a mouse
record, a key-up and the Left and Right arrows on the console that holds `q`. -/
theorem C15_ignored_input_is_frame_witness :
    WinConsole.process sampleEnv (WinConsole.create sampleRaw) [charKey CR 13 0]
      = WinConsole.create sampleRaw ∧
    Poll.step sampleEnv samplePollHe
      (INPUT_RECORD.key { bKeyDown := false, AsciiChar := 'a', wVirtualKeyCode := 65,
                          dwControlKeyState := 0 }) = samplePollHe ∧
    WinConsole.process sampleEnv sampleConsoleQ
      [INPUT_RECORD.other 2,
       INPUT_RECORD.key { bKeyDown := false, AsciiChar := CR, wVirtualKeyCode := 13,
                          dwControlKeyState := 0 },
       virtualKey VK_LEFT 0, virtualKey VK_RIGHT 0] = sampleConsoleQ :=
  ⟨(C15_ignored_input_is_frame sampleEnv (WinConsole.create sampleRaw) samplePollHe
      [charKey CR 13 0] [] (INPUT_RECORD.other 0)).1 rfl,
   (C15_ignored_input_is_frame sampleEnv sampleConsoleQ samplePollHe [] []
      (INPUT_RECORD.key { bKeyDown := false, AsciiChar := 'a', wVirtualKeyCode := 65,
                          dwControlKeyState := 0 })).2.1 (by decide),
   (C15_ignored_input_is_frame sampleEnv sampleConsoleQ samplePollHe []
      [INPUT_RECORD.other 2,
       INPUT_RECORD.key { bKeyDown := false, AsciiChar := CR, wVirtualKeyCode := 13,
                          dwControlKeyState := 0 },
       virtualKey VK_LEFT 0, virtualKey VK_RIGHT 0] (INPUT_RECORD.other 0)).2.2 (by decide)⟩

/-! ## enable and processConsoleLine -/

/-- C16, refuted by evaluation: `enable(true)` on a console that is already
enabled is not a no-op. On the freshly constructed and enabled console the
trace holds one prompt; after a second `enable(true)` it holds two, so the
display has received the prompt a second time and the console is not the one
before the call. The fields other than the trace are unchanged. -/
theorem C16_second_enable_prints_prompt (env : Env) (raw : WinConsole) :
    (WinConsole.fresh env raw).winConsoleEnabled = true ∧
    (WinConsole.fresh env raw).log = [Effect.print env.prompt] ∧
    (WinConsole.enable env (WinConsole.fresh env raw) true).log
      = [Effect.print env.prompt, Effect.print env.prompt] ∧
    WinConsole.enable env (WinConsole.fresh env raw) true ≠ WinConsole.fresh env raw ∧
    WinConsole.enable env (WinConsole.fresh env raw) true
      = { WinConsole.fresh env raw with
          log := (WinConsole.fresh env raw).log ++ [Effect.print env.prompt] } := by
  refine ⟨rfl, rfl, rfl, ?_, rfl⟩
  intro h
  have hl := congrArg (fun s => s.log.length) h
  simp [WinConsole.enable, WinConsole.fresh, WinConsole.create] at hl

/-- C17: `processConsoleLine` with the text `s`. On an enabled console with
`lineOutput` false whose line buffer holds `inpos < 512` characters, none of
them NUL, the display receives carriage return, `s`, newline, the prompt and the
first `inpos` characters of the line buffer, in one write. With `lineOutput`
true it receives `s` and a newline. On a disabled console nothing is written and
the console is as before. In every case the first `inpos` characters of the
line buffer, `inpos`, the history ring, the cursor and both flags are unchanged,
and with `inpos < 512` no array is left. -/
theorem C17_processConsoleLine_output (env : Env) (s : WinConsole) (text : List Char) :
    (s.winConsoleEnabled = true → s.lineOutput = false → s.inpos < BUFSIZE →
      (∀ c ∈ s.line, c ≠ NUL) →
      (WinConsole.processConsoleLine env s text).log
        = s.log ++ [Effect.print ([CR] ++ text ++ [LF] ++ env.prompt ++ s.line)]) ∧
    (s.winConsoleEnabled = true → s.lineOutput = true →
      (WinConsole.processConsoleLine env s text).log
        = s.log ++ [Effect.print (text ++ [LF])]) ∧
    (s.winConsoleEnabled = false → WinConsole.processConsoleLine env s text = s) ∧
    (WinConsole.processConsoleLine env s text).line = s.line ∧
    (WinConsole.processConsoleLine env s text).inpos = s.inpos ∧
    (WinConsole.processConsoleLine env s text).rgCmds = s.rgCmds ∧
    (WinConsole.processConsoleLine env s text).iCmdIndex = s.iCmdIndex ∧
    (WinConsole.processConsoleLine env s text).winConsoleEnabled = s.winConsoleEnabled ∧
    (WinConsole.processConsoleLine env s text).lineOutput = s.lineOutput ∧
    (s.inpos < BUFSIZE → (WinConsole.processConsoleLine env s text).oob = s.oob) := by
  have hline : firstN (setAt s.inbuf s.inpos NUL) s.inpos = firstN s.inbuf s.inpos :=
    firstN_setAt s.inbuf s.inpos s.inpos NUL (le_refl _)
  refine ⟨?_, ?_, ?_, ?_, ?_, ?_, ?_, ?_, ?_, ?_⟩
  · intro hen hlo hi hn
    have hc : cstr (setAt s.inbuf s.inpos NUL) = s.line := cstr_setAt_NUL s.inbuf s.inpos hi hn
    simp only [WinConsole.processConsoleLine, hen, hlo, if_true]
    simp [hc]
  · intro hen hlo
    simp [WinConsole.processConsoleLine, hen, hlo]
  · intro hen
    simp [WinConsole.processConsoleLine, hen]
  · unfold WinConsole.processConsoleLine WinConsole.line
    dsimp only
    split
    · split <;> exact hline
    · rfl
  · unfold WinConsole.processConsoleLine
    dsimp only
    split
    · split <;> rfl
    · rfl
  · unfold WinConsole.processConsoleLine
    dsimp only
    split
    · split <;> rfl
    · rfl
  · unfold WinConsole.processConsoleLine
    dsimp only
    split
    · split <;> rfl
    · rfl
  · unfold WinConsole.processConsoleLine
    dsimp only
    split
    · split <;> rfl
    · rfl
  · unfold WinConsole.processConsoleLine
    dsimp only
    split
    · split <;> rfl
    · rfl
  · intro hi
    have h4 : ¬ BUFSIZE ≤ s.inpos := by omega
    unfold WinConsole.processConsoleLine
    dsimp only
    split
    · split <;> simp [h4]
    · rfl

/-- C17 at work: the log line `ok` on the console that holds `q`, with
`lineOutput` false and true, and on the disabled console `create sampleRaw`. -/
theorem C17_processConsoleLine_output_witness :
    (WinConsole.processConsoleLine sampleEnv sampleConsoleQ ['o', 'k']).log
      = sampleConsoleQ.log ++ [Effect.print [CR, 'o', 'k', LF, '%', SP, 'q']] ∧
    (WinConsole.processConsoleLine sampleEnv { sampleConsoleQ with lineOutput := true }
        ['o', 'k']).log
      = sampleConsoleQ.log ++ [Effect.print ['o', 'k', LF]] ∧
    WinConsole.processConsoleLine sampleEnv (WinConsole.create sampleRaw) ['o', 'k']
      = WinConsole.create sampleRaw ∧
    (WinConsole.processConsoleLine sampleEnv sampleConsoleQ ['o', 'k']).oob = sampleConsoleQ.oob :=
  ⟨(C17_processConsoleLine_output sampleEnv sampleConsoleQ ['o', 'k']).1
      rfl rfl (by decide) (by decide),
   (C17_processConsoleLine_output sampleEnv { sampleConsoleQ with lineOutput := true }
      ['o', 'k']).2.1 rfl rfl,
   (C17_processConsoleLine_output sampleEnv (WinConsole.create sampleRaw) ['o', 'k']).2.2.1 rfl,
   (C17_processConsoleLine_output sampleEnv sampleConsoleQ ['o', 'k']).2.2.2.2.2.2.2.2.2
      (by decide)⟩

/-! ## The history ring changes only on commit -/

theorem commitSlot_eq_mod (i : Nat) : commitSlot i = i % MAX_CMDS := by
  unfold commitSlot
  split
  · rfl
  · rw [Nat.mod_eq_of_lt (by omega)]

theorem commitSlot_lt (i : Nat) : commitSlot i < MAX_CMDS := by
  rw [commitSlot_eq_mod]
  exact Nat.mod_lt _ (by decide)

namespace Poll

theorem upArrow_rgCmds (p : Poll) : p.upArrow.rgCmds = p.rgCmds := by
  unfold upArrow
  dsimp only
  split
  · rw [(redraw_spec _ _).2.2.2.2.1]
  · rfl

theorem downArrow_rgCmds (p : Poll) : p.downArrow.rgCmds = p.rgCmds := by
  unfold downArrow
  dsimp only
  rw [(redraw_spec _ _).2.2.2.2.1]

theorem backspace_frame (p : Poll) :
    p.backspace.rgCmds = p.rgCmds ∧ p.backspace.iCmdIndex = p.iCmdIndex := by
  unfold backspace
  split
  · exact ⟨rfl, rfl⟩
  · exact ⟨rfl, rfl⟩

/-- Every key-down other than Enter leaves the history ring as it was. -/
theorem keyDown_rgCmds (env : Env) (p : Poll) (ke : KEY_EVENT_RECORD) (h : ¬ IsEnter ke) :
    (keyDown env p ke).rgCmds = p.rgCmds := by
  unfold keyDown
  split
  · split
    · exact upArrow_rgCmds p
    · split
      · exact downArrow_rgCmds p
      · split
        · rfl
        · split <;> rfl
  · split
    · exact (backspace_frame p).1
    · split
      · exact (tab_spec env p ke).2.2.2.2.2.1
      · split
        · exact absurd (by assumption) h
        · rfl

/-- Backspace, Tab and inserted characters leave the cursor as it was. -/
theorem keyDown_iCmdIndex (env : Env) (p : Poll) (ke : KEY_EVENT_RECORD)
    (h : ke.AsciiChar = BS ∨ ke.AsciiChar = TAB ∨ Inserted ke.AsciiChar) :
    (keyDown env p ke).iCmdIndex = p.iCmdIndex := by
  rcases h with h | h | h
  · rw [keyDown_backspace env p ke h]
    exact (backspace_frame p).2
  · rw [keyDown_tab env p ke h]
    exact (tab_spec env p ke).2.2.2.2.2.2.1
  · rw [keyDown_insert env p ke h]
    rfl

/-- The history write of Enter, whatever the sizes. -/
theorem enter_rgCmds (env : Env) (p : Poll) :
    (p.enter env).rgCmds
      = (fun i => if i = p.iCmdIndex % MAX_CMDS then cstr (setAt p.inbuf p.inpos NUL)
                  else p.rgCmds i) ∧
    (p.enter env).iCmdIndex = p.iCmdIndex % MAX_CMDS + 1 := by
  have h := commitSlot_eq_mod p.iCmdIndex
  unfold commitSlot at h
  constructor
  · simp only [enter, emit]
    rw [h]
  · simp only [enter, emit]
    rw [h]

end Poll

/-- C18: the history ring changes only on commit, and recall shares the cursor
of the commit. An input record that is not an Enter key-down leaves every
history slot as it was. Backspace, Tab and inserted characters leave the cursor
as it was. Enter with the cursor at `c` changes slot `c mod MAX_CMDS` and no
other slot: the slot receives the C string of the line buffer, which is the line
when `inpos < 512` and the line holds no NUL. So after an Up or Down key-down,
typed characters and Enter, the slot written is the one the arrow key left the
cursor at, and it receives the recalled line followed by the typed characters. -/
theorem C18_history_changes_only_on_commit (env : Env) (p : Poll) (e : INPUT_RECORD)
    (ke ka : KEY_EVENT_RECORD) (kes : List KEY_EVENT_RECORD) :
    (¬ CommitRecord e → (Poll.step env p e).rgCmds = p.rgCmds) ∧
    (ke.AsciiChar = BS ∨ ke.AsciiChar = TAB ∨ Inserted ke.AsciiChar →
      (Poll.keyDown env p ke).iCmdIndex = p.iCmdIndex) ∧
    (IsEnter ke →
      (Poll.keyDown env p ke).rgCmds
        = fun i => if i = p.iCmdIndex % MAX_CMDS then cstr (setAt p.inbuf p.inpos NUL)
                   else p.rgCmds i) ∧
    (IsEnter ke → p.inpos < BUFSIZE → (∀ c ∈ p.line, c ≠ NUL) →
      (Poll.keyDown env p ke).rgCmds
        = fun i => if i = p.iCmdIndex % MAX_CMDS then p.line else p.rgCmds i) ∧
    (IsUp ka ∨ IsDown ka → (∀ k ∈ kes, Inserted k.AsciiChar) → IsEnter ke →
      (Poll.keyDown env p ka).inpos + kes.length < BUFSIZE →
      (∀ c ∈ (Poll.keyDown env p ka).line, c ≠ NUL) →
      ((kes ++ [ke]).foldl (Poll.keyDown env) (Poll.keyDown env p ka)).rgCmds
        = fun i => if i = (Poll.keyDown env p ka).iCmdIndex % MAX_CMDS
                   then (Poll.keyDown env p ka).line ++ kes.map KEY_EVENT_RECORD.AsciiChar
                   else p.rgCmds i) := by
  have henter : ∀ (q : Poll), q.inpos < BUFSIZE → (∀ c ∈ q.line, c ≠ NUL) →
      (q.enter env).rgCmds = fun i => if i = q.iCmdIndex % MAX_CMDS then q.line
                                      else q.rgCmds i := by
    intro q hi hn
    rw [(Poll.enter_rgCmds env q).1, cstr_setAt_NUL q.inbuf q.inpos hi hn]
    rfl
  refine ⟨?_, Poll.keyDown_iCmdIndex env p ke, ?_, ?_, ?_⟩
  · intro hne
    cases e with
    | other t => rfl
    | key k =>
      by_cases hd : k.bKeyDown = true
      · rw [Poll.step_charKey env p k hd]
        exact Poll.keyDown_rgCmds env p k (fun h => hne ⟨hd, h⟩)
      · simp [Poll.step, hd]
  · intro he
    rw [Poll.keyDown_enter env p ke he]
    exact (Poll.enter_rgCmds env p).1
  · intro he hi hn
    rw [Poll.keyDown_enter env p ke he]
    exact henter p hi hn
  · intro ha hk he hi hn
    have hne : ¬ IsEnter ka := by
      have e1 : ¬ NUL = LF := by decide
      have e2 : ¬ NUL = CR := by decide
      rcases ha with ha | ha <;>
        (intro h; unfold IsEnter at h; rw [ha.1] at h; rcases h with h | h
         · exact e1 h
         · exact e2 h)
    have hq := Poll.keyDown_rgCmds env p ka hne
    obtain ⟨t1, _, t3, _, t5, t6, _⟩ := Poll.foldl_typing env kes (Poll.keyDown env p ka) hk
    rw [List.foldl_append, List.foldl_cons, List.foldl_nil, Poll.keyDown_enter env _ ke he,
      henter _ (by rw [t1]; exact hi) (by
        rw [t3]
        intro c hc
        rcases List.mem_append.mp hc with hc | hc
        · exact hn c hc
        · obtain ⟨k, hk1, hk2⟩ := List.mem_map.mp hc
          rw [← hk2]
          exact (hk k hk1).1), t3, t5, t6, hq]

/-- C18 at work on the console with `x` in slot 0, `q` in the line buffer and the
cursor at 1: Up leaves the ring alone and moves the cursor to 0; `y` leaves the
cursor at 1; Enter writes `q` into slot 1; Up, `y`, Enter write `xy` into slot 0,
the slot the Up key-down went back to. -/
theorem C18_history_changes_only_on_commit_witness :
    (Poll.step sampleEnv (Poll.start sampleEnv sampleConsoleQ) (virtualKey VK_UP 0)).rgCmds
      = sampleConsoleQ.rgCmds ∧
    (Poll.keyDown sampleEnv (Poll.start sampleEnv sampleConsoleQ) (keyRecord 'y' 89 0)).iCmdIndex
      = 1 ∧
    (Poll.keyDown sampleEnv (Poll.start sampleEnv sampleConsoleQ) (keyRecord CR 13 0)).rgCmds 1
      = ['q'] ∧
    ([keyRecord 'y' 89 0, keyRecord CR 13 0].foldl (Poll.keyDown sampleEnv)
      (Poll.keyDown sampleEnv (Poll.start sampleEnv sampleConsoleQ)
        (keyRecord NUL VK_UP 0))).rgCmds 0 = ['x', 'y'] :=
  ⟨(C18_history_changes_only_on_commit sampleEnv (Poll.start sampleEnv sampleConsoleQ)
      (virtualKey VK_UP 0) (keyRecord 'y' 89 0) (keyRecord NUL VK_UP 0) []).1 (by decide),
   (C18_history_changes_only_on_commit sampleEnv (Poll.start sampleEnv sampleConsoleQ)
      (virtualKey VK_UP 0) (keyRecord 'y' 89 0) (keyRecord NUL VK_UP 0) []).2.1
      (Or.inr (Or.inr (by decide))),
   congrFun ((C18_history_changes_only_on_commit sampleEnv (Poll.start sampleEnv sampleConsoleQ)
      (virtualKey VK_UP 0) (keyRecord CR 13 0) (keyRecord NUL VK_UP 0) []).2.2.2.1
      (by decide) (by decide) (by decide)) 1,
   congrFun ((C18_history_changes_only_on_commit sampleEnv (Poll.start sampleEnv sampleConsoleQ)
      (virtualKey VK_UP 0) (keyRecord CR 13 0) (keyRecord NUL VK_UP 0) [keyRecord 'y' 89 0]).2.2.2.2
      (Or.inl (by decide)) (by decide) (by decide) (by decide) (by decide)) 0⟩

/-! ## Which characters are inserted -/

namespace Poll

end Poll

namespace WinConsole

end WinConsole

set_option maxRecDepth 1000000 in
/-- C12 at its failing input: with 511 characters in the line buffer a further
printable key-down is not dropped. It is stored in `inbuf[511]` and `inpos`
becomes 512, so `inpos < 512` no longer holds; the Enter key-down that follows
writes the terminator to `inbuf[512]`, outside the array. -/
theorem C12_insert_at_capacity_is_not_dropped :
    (WinConsole.run sampleEnv (WinConsole.fresh sampleEnv sampleRaw) (typedPolls 511)).inpos
      = 511 ∧
    (WinConsole.run sampleEnv (WinConsole.fresh sampleEnv sampleRaw) (typedPolls 511)).oob
      = false ∧
    (WinConsole.run sampleEnv (WinConsole.fresh sampleEnv sampleRaw)
      (typedPolls 511 ++ [[charKey 'x' 88 0]])).inpos = 512 ∧
    (WinConsole.run sampleEnv (WinConsole.fresh sampleEnv sampleRaw)
      (typedPolls 511 ++ [[charKey 'x' 88 0]])).inbuf 511 = 'x' ∧
    (WinConsole.run sampleEnv (WinConsole.fresh sampleEnv sampleRaw)
      (typedPolls 511 ++ [[charKey 'x' 88 0]])).oob = false ∧
    (WinConsole.run sampleEnv (WinConsole.fresh sampleEnv sampleRaw)
      (typedPolls 511 ++ [[charKey 'x' 88 0], [charKey CR 13 0]])).oob = true := by
  decide

/-! ## The capacity of the redraw batch -/

set_option maxRecDepth 1000000 in
/-- C13 at its failing input: a fresh console with 171 typed characters, all
flushed, and a poll of one Down key-down. The erase loop of Down writes
3 * 171 = 513 bytes into `outbuf`, whose last cell is `outbuf[511]`: `outpos` is
513 after the key, and the poll has left the array. -/
theorem C13_redraw_overflows_outbuf :
    (WinConsole.run sampleEnv (WinConsole.fresh sampleEnv sampleRaw) (typedPolls 171)).inpos
      = 171 ∧
    (WinConsole.run sampleEnv (WinConsole.fresh sampleEnv sampleRaw) (typedPolls 171)).oob
      = false ∧
    (Poll.step sampleEnv
      (Poll.start sampleEnv
        (WinConsole.run sampleEnv (WinConsole.fresh sampleEnv sampleRaw) (typedPolls 171)))
      (virtualKey VK_DOWN 0)).outpos = 513 ∧
    BUFSIZE < (Poll.step sampleEnv
      (Poll.start sampleEnv
        (WinConsole.run sampleEnv (WinConsole.fresh sampleEnv sampleRaw) (typedPolls 171)))
      (virtualKey VK_DOWN 0)).outpos ∧
    (WinConsole.run sampleEnv (WinConsole.fresh sampleEnv sampleRaw)
      (typedPolls 171 ++ downPolls)).oob = true ∧
    (Poll.step sampleEnv
      (Poll.start sampleEnv
        (WinConsole.run sampleEnv (WinConsole.fresh sampleEnv sampleRaw) (typedPolls 171)))
      (charKey TAB 9 0)).outpos = 517 := by
  decide


/-! ## The length limit handed to tab completion -/

set_option maxRecDepth 1000000 in
/-- C20 at its failing input: with 171 characters in the line buffer the
unsigned 32-bit value of `512 - (inpos * 3)` is 4294967295, not at most 512, and
that is the limit a Tab key-down hands to `Con::tabComplete`; a completion that
respects it can be far longer than both arrays. The value is `512 - 3 * inpos`
only up to `inpos = 170` and exceeds 512 from 171 on. At `inpos = 0` the limit
is 512, so a completion of 512 characters respects it and leaves no room for the
terminator of the line buffer. -/
theorem C20_maxlen_wraps_around :
    Poll.tabMaxlen 171 = 4294967295 ∧ ¬ Poll.tabMaxlen 171 ≤ 512 ∧
    completeLimits (WinConsole.run sampleEnv (WinConsole.fresh sampleEnv sampleRaw)
      (typedPolls 171 ++ [[charKey TAB 9 0]])).log = [(171, 4294967295)] ∧
    (∀ n, n ≤ 170 → Poll.tabMaxlen n = 512 - 3 * n) ∧
    (∀ n, 171 ≤ n → n < 512 → Poll.tabMaxlen n = 4294967808 - 3 * n ∧ 512 < Poll.tabMaxlen n) ∧
    Poll.tabMaxlen 0 = 512 := by
  refine ⟨by decide, by decide, by decide, ?_, ?_, by decide⟩
  · intro n hn
    unfold Poll.tabMaxlen
    omega
  · intro n h1 h2
    have h : ((512 : Int) - (n : Int) * 3) % 4294967296 = 4294967808 - 3 * (n : Int) := by
      rw [← Int.add_emod_self, Int.emod_eq_of_lt (by omega) (by omega)]
      omega
    unfold Poll.tabMaxlen
    rw [h]
    omega

/-! ## The cells of `outbuf` past `outpos` do not matter -/

theorem sameBatch_refl (p : Poll) : SameBatch p p := ⟨rfl, rfl, fun _ _ => rfl⟩

namespace Poll

end Poll

set_option maxRecDepth 1000000 in
/-- C7 at its failing input: after 32 committed one-letter lines on a fresh
console the cursor is 32 and no array has been left. A Down key-down now tests
`rgCmds[32][0]`, a byte outside the ring. When that byte is not 0 the cursor
becomes 0, not `(32 + 1) mod MAX_CMDS = 1`, and the line buffer becomes slot 0,
`A`, not slot 1, `B`; when it is 0 the cursor stays at 32 and the line buffer is
loaded from outside the ring. In both cases the key has left the array. -/
theorem C7_down_past_the_ring_misses_the_formula :
    (WinConsole.run sampleEnv (WinConsole.fresh sampleEnv sampleRaw)
      (letterPolls 32)).iCmdIndex = 32 ∧
    (WinConsole.run sampleEnv (WinConsole.fresh sampleEnv sampleRaw)
      (letterPolls 32)).oob = false ∧
    (WinConsole.run sampleEnv (WinConsole.fresh sampleEnv sampleRaw)
      (letterPolls 32)).rgCmds 0 = ['A'] ∧
    (WinConsole.run sampleEnv (WinConsole.fresh sampleEnv sampleRaw)
      (letterPolls 32)).rgCmds 1 = ['B'] ∧
    (WinConsole.run sampleEnv (WinConsole.fresh sampleEnv sampleRaw)
      (letterPolls 32 ++ downPolls)).iCmdIndex = 0 ∧
    (WinConsole.run sampleEnv (WinConsole.fresh sampleEnv sampleRaw)
      (letterPolls 32 ++ downPolls)).iCmdIndex ≠ (32 + 1) % MAX_CMDS ∧
    (WinConsole.run sampleEnv (WinConsole.fresh sampleEnv sampleRaw)
      (letterPolls 32 ++ downPolls)).line = ['A'] ∧
    (WinConsole.run sampleEnv (WinConsole.fresh sampleEnv sampleRaw)
      (letterPolls 32 ++ downPolls)).oob = true ∧
    (WinConsole.run sampleEnv
      (WinConsole.fresh sampleEnv { sampleRaw with rgCmds := fun _ => [] })
      (letterPolls 32 ++ downPolls)).iCmdIndex = 32 ∧
    (WinConsole.run sampleEnv
      (WinConsole.fresh sampleEnv { sampleRaw with rgCmds := fun _ => [] })
      (letterPolls 32 ++ downPolls)).line = [] ∧
    (WinConsole.run sampleEnv
      (WinConsole.fresh sampleEnv { sampleRaw with rgCmds := fun _ => [] })
      (letterPolls 32 ++ downPolls)).oob = true := by
  decide
